import Mathlib

/-!
# Loopy belief propagation engine of `hash_reversal::FactorGraph`

A shallow embedding of `src/ml/src/hash_reversal/factor_graph.cpp`.

* `double` is a type parameter `F` together with a record `Arith F` of the
  operations the engine applies to it (`+ - * /`, `std::abs`, `std::log`,
  `std::tanh`, `std::atanh`, `<`, `!=`).  Statements proved for every `Arith F`
  hold whatever the arithmetic does, rounding included.
* `Dbl` is one concrete carrier: exact rationals extended with `+inf`, `-inf`
  and `NaN`, combined by the IEEE-754 rules for special values.  Rounding and
  the sign of zero are not represented.  The three libm functions are a
  parameter `Libm` of this carrier.  `Dbl.arith` computes on it exactly, with
  no rounding and no overflow; `Dbl.ieee` rounds the result of every operation
  to binary64.
* `Eigen` matrices of size `num_rvs x num_rvs` are functions on `Fin num_rvs`;
  a coefficient access outside the matrix (Eigen's index assertion) and
  `std::vector::at` outside the vector are errors of type `Err`.
* `std::set<size_t>` is the list of its elements in iteration order, and the
  `std::map<size_t, RandomVariable>` of `setupFactors` the list of its entries
  by ascending key.
* The circuit description is the list of its lines.  `std::getline` with the
  delimiter `;` and `std::stoul` are embedded after the C++ standard; what
  `std::stoul` throws is an error of type `Err`.
-/

namespace HashReversal

/-! ## Arithmetic on `double` -/

/-- The operations on `double` used by the engine.  `ne` is `!=`, `lt` is `<`
(so `a > b` is `lt b a`).  IEEE-754 multiplication is commutative, which is
recorded as `mul_comm`. -/
structure Arith (F : Type) where
  zero : F
  one : F
  two : F
  add : F → F → F
  sub : F → F → F
  mul : F → F → F
  div : F → F → F
  abs : F → F
  log : F → F
  tanh : F → F
  atanh : F → F
  lt : F → F → Bool
  ne : F → F → Bool
  mul_comm : ∀ x y, mul x y = mul y x

/-- Extended rationals: the finite values, the two infinities and NaN. -/
inductive Dbl where
  | fin (q : ℚ)
  | pinf
  | ninf
  | nan
deriving DecidableEq

namespace Dbl

/-- Finite values are the ones that are neither infinite nor NaN. -/
def isFin : Dbl → Bool
  | fin _ => true
  | _ => false

/-- Negation. -/
def neg : Dbl → Dbl
  | fin q => fin (-q)
  | pinf => ninf
  | ninf => pinf
  | nan => nan

/-- Addition: `inf + (-inf)` is NaN, NaN is absorbing. -/
def add : Dbl → Dbl → Dbl
  | fin a, fin b => fin (a + b)
  | nan, _ => nan
  | _, nan => nan
  | pinf, ninf => nan
  | ninf, pinf => nan
  | pinf, _ => pinf
  | ninf, _ => ninf
  | fin _, pinf => pinf
  | fin _, ninf => ninf

/-- Subtraction, `x - y = x + (-y)`. -/
def sub (x y : Dbl) : Dbl := add x (neg y)

/-- The infinity with the sign of `q`, NaN for `q = 0`. -/
def infOfSign (q : ℚ) : Dbl :=
  if q = 0 then nan else if 0 < q then pinf else ninf

/-- Multiplication: `inf * 0` is NaN, NaN is absorbing. -/
def mul : Dbl → Dbl → Dbl
  | fin a, fin b => fin (a * b)
  | nan, _ => nan
  | _, nan => nan
  | pinf, pinf => pinf
  | pinf, ninf => ninf
  | ninf, pinf => ninf
  | ninf, ninf => pinf
  | pinf, fin q => infOfSign q
  | ninf, fin q => infOfSign (-q)
  | fin q, pinf => infOfSign q
  | fin q, ninf => infOfSign (-q)

/-- Division: `x / 0` is an infinity of the sign of `x` for finite nonzero
`x` (the zero divisor is `+0`), `0 / 0` and `inf / inf` are NaN. -/
def div : Dbl → Dbl → Dbl
  | fin a, fin b => if b = 0 then infOfSign a else fin (a / b)
  | nan, _ => nan
  | _, nan => nan
  | fin _, pinf => fin 0
  | fin _, ninf => fin 0
  | pinf, fin q => if 0 ≤ q then pinf else ninf
  | ninf, fin q => if 0 ≤ q then ninf else pinf
  | pinf, pinf => nan
  | pinf, ninf => nan
  | ninf, pinf => nan
  | ninf, ninf => nan

/-- Absolute value, `std::abs`. -/
def abs : Dbl → Dbl
  | fin q => fin |q|
  | pinf => pinf
  | ninf => pinf
  | nan => nan

/-- Ordered comparison `<`: false as soon as one side is NaN. -/
def lt : Dbl → Dbl → Bool
  | fin a, fin b => decide (a < b)
  | nan, _ => false
  | _, nan => false
  | ninf, ninf => false
  | ninf, _ => true
  | fin _, pinf => true
  | fin _, ninf => false
  | pinf, _ => false

/-- Comparison `!=`: true as soon as one side is NaN. -/
def ne : Dbl → Dbl → Bool
  | nan, _ => true
  | _, nan => true
  | x, y => decide (x ≠ y)

end Dbl

/-- The three libm functions on the extended rationals. -/
structure Libm where
  log : Dbl → Dbl
  tanh : Dbl → Dbl
  atanh : Dbl → Dbl

namespace Dbl

/-- The exact arithmetic of the extended rationals over a given libm: the
IEEE rules for infinities and NaN, but no rounding and no overflow, so a
finite result is never replaced by a neighbour or by an infinity as it can
be on `double`. -/
def arith (m : Libm) : Arith Dbl where
  zero := fin 0
  one := fin 1
  two := fin 2
  add := add
  sub := sub
  mul := mul
  div := div
  abs := abs
  log := m.log
  tanh := m.tanh
  atanh := m.atanh
  lt := lt
  ne := ne
  mul_comm := by
    intro x y
    cases x <;> cases y <;> simp [mul, Rat.mul_comm]

end Dbl

/-- The power `2^n` as a rational number. -/
def pow2 (n : Nat) : ℚ := ((2 ^ n : Nat) : ℚ)

namespace Dbl

/-- The integer nearest to `N / D`, ties to the even one. -/
def roundMag (N D : Nat) : Nat :=
  if 2 * (N % D) < D then N / D
  else if D < 2 * (N % D) then N / D + 1
  else if (N / D) % 2 = 0 then N / D else N / D + 1

/-- The number of halvings that take `n` below 2, at most `fuel` of them. -/
def halvings : Nat → Nat → Nat
  | 0, _ => 0
  | fuel + 1, n => if n < 2 then 0 else halvings fuel (n / 2) + 1

/-- The exponent of the leading bit of `n`: `2^(log2 n) <= n < 2^(log2 n + 1)`
for positive `n`. -/
def log2 (n : Nat) : Nat := halvings n n

/-- The exponent `e` with `2^e <= n / d < 2^(e+1)`, for positive `n` and `d`. -/
def binade (n d : Nat) : Int :=
  if n * 2 ^ ((log2 d : Int) - (log2 n : Int)).toNat
      < d * 2 ^ ((log2 n : Int) - (log2 d : Int)).toNat
  then (log2 n : Int) - (log2 d : Int) - 1
  else (log2 n : Int) - (log2 d : Int)

/-- The exponent of the unit in the last place of a binary64 number in the
binade of `n / d`: 52 below the binade, and never below that of the
subnormal numbers. -/
def ulpExp (n d : Nat) : Int := max (binade n d) (-1022) - 52

/-- Rounding of a rational number to binary64, to nearest, ties to even:
the result of an IEEE-754 operation whose exact result is `q`.  A result of
magnitude `2^1024` or more is an infinity. -/
def binary64 (q : ℚ) : Dbl :=
  if q = 0 then fin 0
  else
    let k := ulpExp q.num.natAbs q.den
    let m := roundMag (q.num.natAbs * 2 ^ (-k).toNat) (q.den * 2 ^ k.toNat)
    if 2 ^ 1024 * 2 ^ (-k).toNat ≤ m * 2 ^ k.toNat then (if 0 < q then pinf else ninf)
    else if 0 < q then fin ((m * 2 ^ k.toNat : Nat) / (2 ^ (-k).toNat : Nat))
    else fin (-((m * 2 ^ k.toNat : Nat) / (2 ^ (-k).toNat : Nat)))

/-- Rounding of the result of an operation: finite results are rounded to
binary64, infinities and NaN are kept. -/
def rnd : Dbl → Dbl
  | fin q => binary64 q
  | x => x

/-- Binary64 arithmetic over a given libm: every operation returns its
exact result rounded to nearest, ties to even, with overflow to infinity.
The sign of zero is not represented. -/
def ieee (m : Libm) : Arith Dbl where
  zero := fin 0
  one := fin 1
  two := fin 2
  add := fun x y => rnd (add x y)
  sub := fun x y => rnd (sub x y)
  mul := fun x y => rnd (mul x y)
  div := fun x y => rnd (div x y)
  abs := abs
  log := m.log
  tanh := m.tanh
  atanh := m.atanh
  lt := lt
  ne := ne
  mul_comm := by
    intro x y
    have h : mul x y = mul y x := (arith m).mul_comm x y
    show rnd (mul x y) = rnd (mul y x)
    rw [h]

end Dbl

/-- A libm on the extended rationals.  At the arguments where the IEEE
functions are exact the values are the IEEE ones: `tanh 0 = 0`,
`tanh (±inf) = ±1`, `atanh 0 = 0`, `atanh (±1) = ±inf`, `log 1 = 0`,
`log 0 = -inf`, `log (+inf) = +inf`, NaN for NaN and outside the domain.
Elsewhere the true values are irrational; rational functions with the same
sign, monotonicity, range and first-order behaviour at the origin stand in
for them, chosen so that `2 * atanh (tanh (x / 2)) = x` holds exactly as it
does over the reals. -/
def Libm.rational : Libm where
  log
    | .fin q => if q < 0 then .nan else if q = 0 then .ninf else .fin (2 * (q - 1) / (q + 1))
    | .pinf => .pinf
    | .ninf => .nan
    | .nan => .nan
  tanh
    | .fin q => .fin (q / (1 + |q|))
    | .pinf => .fin 1
    | .ninf => .fin (-1)
    | .nan => .nan
  atanh
    | .fin q =>
      if |q| < 1 then .fin (q / (1 - |q|))
      else if q = 1 then .pinf else if q = -1 then .ninf else .nan
    | .pinf => .nan
    | .ninf => .nan
    | .nan => .nan

/-- The values of a correctly rounded binary64 libm at the arguments that the
rounding example meets: `log 1 = 0`, `log (2^540)`, `tanh 0 = 0`,
`tanh x = 1 - 2^-53` for `18.6 <= x <= 19`, `tanh x = 1` for `x >= 20`,
`atanh 0 = 0` and `atanh (1 - 2^-53)`.  NaN stands for the values at all
other arguments. -/
def Libm.sampled : Libm where
  log
    | .fin q =>
      if q = 1 then .fin 0
      else if q = pow2 540 then .fin (3292373022274701 / pow2 43)
      else .nan
    | _ => .nan
  tanh
    | .fin q =>
      if q = 0 then .fin 0
      else if 20 ≤ q then .fin 1
      else if 93 / 5 ≤ q ∧ q ≤ 19 then .fin (1 - 1 / pow2 53)
      else .nan
    | _ => .nan
  atanh
    | .fin q =>
      if q = 0 then .fin 0
      else if q = 1 - 1 / pow2 53 then .fin (2633898417819761 / pow2 47)
      else .nan
    | _ => .nan

/-! ## Data model -/

/-- What a call can fail with: `std::out_of_range` thrown by
`std::vector::at` (and by `std::stoul` on a value that does not fit), the
index assertion of an Eigen coefficient access outside the matrix or vector,
and `std::invalid_argument` thrown by `std::stoul`. -/
inductive Err where
  | out_of_range
  | index_assert
  | invalid_argument
deriving DecidableEq

/-- One gate of the circuit (`Factor`): `rv_dependencies` is a
`std::set<size_t>`, listed in iteration order. -/
structure Factor where
  factor_type : String
  primary_rv : Nat
  rv_dependencies : List Nat
deriving DecidableEq

/-- Modelled from the spec: `Factor::referencedRVs` is declared in
`hash_reversal/factor.hpp`, which is not among the sources; the spec gives it
as `rv_dependencies ∪ {primary_rv}`. -/
def Factor.referencedRVs (f : Factor) : List Nat :=
  f.rv_dependencies.insert f.primary_rv

/-- One wire of the circuit (`RandomVariable`): the factors that mention it. -/
structure RandomVariable where
  factor_indices : List Nat
deriving DecidableEq

/-- An observed bit (`VariableAssignment`). -/
structure VariableAssignment where
  rv_index : Nat
  value : Bool
deriving DecidableEq

/-- The record `FactorGraph::Prediction`. -/
structure Prediction (F : Type) where
  log_likelihood_ratio : F
  prob_bit_is_one : Nat
deriving DecidableEq

/-- The fields of `utils::Config` the engine reads. -/
structure Config (F : Type) where
  num_rvs : Nat
  lbp_max_iter : Nat
  lbp_damping : F

/-- The engine `FactorGraph`, for the configuration it was built with.
`prob_` is `Probability::probOne`, whose body is not among the sources; the
four Eigen objects have the sizes the constructor and `setupLBP` give them. -/
structure FactorGraph (F : Type) (config_ : Config F) where
  prob_ : Factor → List VariableAssignment → F
  factors_ : List Factor
  rvs_ : List RandomVariable
  rv_messages_ : Fin config_.num_rvs → Fin config_.num_rvs → F
  factor_messages_ : Fin config_.num_rvs → Fin config_.num_rvs → F
  rv_initialization_ : Fin config_.num_rvs → F
  factor_initialization_ : Fin config_.num_rvs → F
  previous_marginals_ : List (Prediction F)

section Engine

variable {F : Type}

/-! ## Eigen helpers -/

/-- Read `m(i, j)`. -/
def coeff {n : Nat} (m : Fin n → Fin n → F) (i j : Nat) : Except Err F :=
  if h : i < n ∧ j < n then .ok (m ⟨i, h.1⟩ ⟨j, h.2⟩) else .error .index_assert

/-- Read `v(i)`. -/
def vecCoeff {n : Nat} (v : Fin n → F) (i : Nat) : Except Err F :=
  if h : i < n then .ok (v ⟨i, h⟩) else .error .index_assert

/-- Write `m(i, j) = x`. -/
def setCoeff {n : Nat} (m : Fin n → Fin n → F) (i j : Nat) (x : F) :
    Except Err (Fin n → Fin n → F) :=
  if i < n ∧ j < n then .ok (fun a b => if a.val = i ∧ b.val = j then x else m a b)
  else .error .index_assert

/-- Write `v(i) = x`. -/
def setVec {n : Nat} (v : Fin n → F) (i : Nat) (x : F) : Fin n → F :=
  fun a => if a.val = i then x else v a

/-- The reduction `.sum()`: zero for no coefficient, otherwise the first
coefficient with the others added to it in index order (Eigen's scalar
traversal; a vectorised build may associate the additions differently). -/
def sumRedux (A : Arith F) : List F → F
  | [] => A.zero
  | x :: xs => xs.foldl A.add x

/-- The sum `m.col(j).sum()`, also `m.colwise().sum()(j)`. -/
def colSum (A : Arith F) {n : Nat} (m : Fin n → Fin n → F) (j : Nat) : Except Err F :=
  if h : j < n then .ok (sumRedux A (List.ofFn fun i => m i ⟨j, h⟩))
  else .error .index_assert

/-- The blend `(cur * damping) + (prev * (1 - damping))`, coefficient by
coefficient. -/
def damp (A : Arith F) {n : Nat} (damping : F) (cur prev : Fin n → Fin n → F) :
    Fin n → Fin n → F :=
  fun i j => A.add (A.mul (cur i j) damping) (A.mul (prev i j) (A.sub A.one damping))

/-! ## The engine -/

variable {cfg : Config F}

/-- The method `FactorGraph::predict`. -/
def predict (A : Arith F) (g : FactorGraph F cfg) (rv_index : Nat) :
    Except Err (Prediction F) := do
  let i ← vecCoeff g.rv_initialization_ rv_index
  let s ← colSum A g.factor_messages_ rv_index
  let x := A.add i s
  pure { log_likelihood_ratio := x, prob_bit_is_one := if A.lt x A.zero then 1 else 0 }

/-- The method `FactorGraph::marginals`. -/
def marginals (A : Arith F) (g : FactorGraph F cfg) : Except Err (List (Prediction F)) :=
  (List.range cfg.num_rvs).mapM (predict A g)

/-- The observed assignments `setupLBP` hands to `probOne` for one factor. -/
def relevantObserved (factor : Factor) (observed : List VariableAssignment) :
    List VariableAssignment :=
  observed.filter fun o => decide (0 < factor.referencedRVs.count o.rv_index)

/-- The loop of `setupLBP` over `i = 0 .. n-1`, on the vector of priors. -/
def setupLoop (A : Arith F) (g : FactorGraph F cfg) (observed : List VariableAssignment) :
    List Nat → (Fin cfg.num_rvs → F) → Except Err (Fin cfg.num_rvs → F)
  | [], init => .ok init
  | i :: rest, init =>
    match g.factors_[i]? with
    | none => .error .out_of_range
    | some factor =>
      let prob_rv_one := g.prob_ factor (relevantObserved factor observed)
      setupLoop A g observed rest
        (setVec init i (A.log (A.div (A.sub A.one prob_rv_one) prob_rv_one)))

/-- The method `FactorGraph::setupLBP`. -/
def setupLBP (A : Arith F) (g : FactorGraph F cfg) (observed : List VariableAssignment) :
    Except Err (FactorGraph F cfg) := do
  let init ← setupLoop A g observed (List.range cfg.num_rvs) (fun _ => A.zero)
  pure { g with
    rv_messages_ := fun _ _ => A.zero
    factor_messages_ := fun _ _ => A.zero
    rv_initialization_ := init
    factor_initialization_ := fun _ => A.zero }

/-- The method `FactorGraph::equal`. -/
def equal (A : Arith F) (marginals1 marginals2 : List (Prediction F)) (tol : F) : Bool :=
  if marginals1.length ≠ marginals2.length then false
  else (marginals1.zip marginals2).all fun p =>
    !(A.lt tol (A.abs (A.sub p.1.log_likelihood_ratio p.2.log_likelihood_ratio)))

/-- The innermost loop of `updateFactorMessages`: `prod` multiplied by
`rv_msg_tanh(other_rv_index, factor_index)` for every other dependency. -/
def othersProd (A : Arith F) {n : Nat} (rv_messages : Fin n → Fin n → F)
    (factor_index rv_index : Nat) : List Nat → F → Except Err F
  | [], prod => .ok prod
  | other_rv_index :: rest, prod =>
    if rv_index ≠ other_rv_index then do
      let m ← coeff rv_messages other_rv_index factor_index
      othersProd A rv_messages factor_index rv_index rest
        (A.mul prod (A.tanh (A.div m A.two)))
    else othersProd A rv_messages factor_index rv_index rest prod

/-- The loop of `updateFactorMessages` over the dependencies of one factor. -/
def factorRow (A : Arith F) {n : Nat} (rv_messages : Fin n → Fin n → F)
    (factor : Factor) (factor_index : Nat) :
    List Nat → (Fin n → Fin n → F) → Except Err (Fin n → Fin n → F)
  | [], fm => .ok fm
  | rv_index :: rest, fm => do
    let prod ← othersProd A rv_messages factor_index rv_index factor.rv_dependencies A.one
    if A.ne (A.abs prod) A.one then do
      let fm1 ← setCoeff fm factor_index rv_index (A.mul A.two (A.atanh prod))
      factorRow A rv_messages factor factor_index rest fm1
    else factorRow A rv_messages factor factor_index rest fm

/-- The loop of `updateFactorMessages` over the factors, from `factor_index`. -/
def factorLoop (A : Arith F) {n : Nat} (rv_messages : Fin n → Fin n → F) :
    List Factor → Nat → (Fin n → Fin n → F) → Except Err (Fin n → Fin n → F)
  | [], _, fm => .ok fm
  | factor :: rest, factor_index, fm => do
    let fm1 ← factorRow A rv_messages factor factor_index factor.rv_dependencies fm
    factorLoop A rv_messages rest (factor_index + 1) fm1

/-- The method `FactorGraph::updateFactorMessages`. -/
def updateFactorMessages (A : Arith F) (g : FactorGraph F cfg) :
    Except Err (FactorGraph F cfg) := do
  let fm ← factorLoop A g.rv_messages_ g.factors_ 0 g.factor_messages_
  pure { g with factor_messages_ := damp A cfg.lbp_damping fm g.factor_messages_ }

/-- The loop of `updateRandomVariableMessages` over the factors of one
variable. -/
def rvRow (A : Arith F) (g : FactorGraph F cfg) (rv_index : Nat) :
    List Nat → (Fin cfg.num_rvs → Fin cfg.num_rvs → F) →
      Except Err (Fin cfg.num_rvs → Fin cfg.num_rvs → F)
  | [], rvm => .ok rvm
  | factor_index :: rest, rvm => do
    let s ← colSum A g.factor_messages_ rv_index
    let m ← coeff g.factor_messages_ factor_index rv_index
    let i ← vecCoeff g.rv_initialization_ rv_index
    let rvm1 ← setCoeff rvm rv_index factor_index (A.add (A.sub s m) i)
    rvRow A g rv_index rest rvm1

/-- The loop of `updateRandomVariableMessages` over the variables, from
`rv_index`. -/
def rvLoop (A : Arith F) (g : FactorGraph F cfg) :
    List RandomVariable → Nat → (Fin cfg.num_rvs → Fin cfg.num_rvs → F) →
      Except Err (Fin cfg.num_rvs → Fin cfg.num_rvs → F)
  | [], _, rvm => .ok rvm
  | rv :: rest, rv_index, rvm => do
    let rvm1 ← rvRow A g rv_index rv.factor_indices rvm
    rvLoop A g rest (rv_index + 1) rvm1

/-- The method `FactorGraph::updateRandomVariableMessages`. -/
def updateRandomVariableMessages (A : Arith F) (g : FactorGraph F cfg) :
    Except Err (FactorGraph F cfg) := do
  let rvm ← rvLoop A g g.rvs_ 0 g.rv_messages_
  pure { g with rv_messages_ := damp A cfg.lbp_damping rvm g.rv_messages_ }

/-- One round of the loop of `runLBP`, up to the comparison: both updates,
then the marginals. -/
def lbpRound (A : Arith F) (g : FactorGraph F cfg) :
    Except Err (FactorGraph F cfg × List (Prediction F)) := do
  let g1 ← updateFactorMessages A g
  let g2 ← updateRandomVariableMessages A g1
  let marg ← marginals A g2
  pure (g2, marg)

/-- The loop of `runLBP` with `remaining = lbp_max_iter - itr` rounds left.
The result is the engine and the value of `itr` when the loop is left. -/
def lbpLoop (A : Arith F) (tol : F) :
    Nat → Nat → FactorGraph F cfg → Except Err (FactorGraph F cfg × Nat)
  | 0, itr, g => .ok (g, itr)
  | remaining + 1, itr, g => do
    let (g2, marg) ← lbpRound A g
    if equal A g2.previous_marginals_ marg tol then pure (g2, itr)
    else lbpLoop A tol remaining (itr + 1) { g2 with previous_marginals_ := marg }

/-- The method `FactorGraph::runLBP`, together with the final `itr` that its
log line reports.  `tol` is the default argument of `equal`, declared in
`hash_reversal/factor_graph.hpp`, which is not among the sources. -/
def runLBPItr (A : Arith F) (tol : F) (g : FactorGraph F cfg)
    (observed : List VariableAssignment) : Except Err (FactorGraph F cfg × Nat) := do
  let g0 ← setupLBP A g observed
  lbpLoop A tol cfg.lbp_max_iter 0 g0

/-- The method `FactorGraph::runLBP`: the engine it leaves. -/
def runLBP (A : Arith F) (tol : F) (g : FactorGraph F cfg)
    (observed : List VariableAssignment) : Except Err (FactorGraph F cfg) := do
  let r ← runLBPItr A tol g observed
  pure r.1

end Engine

/-! ## Closed forms used in the statements -/

section Pure
variable {F : Type}

/-- The coefficient `m(i, j)` where it exists, zero outside the matrix. -/
def entry (A : Arith F) {n : Nat} (m : Fin n → Fin n → F) (i j : Nat) : F :=
  if h : i < n ∧ j < n then m ⟨i, h.1⟩ ⟨j, h.2⟩ else A.zero

/-- The product of `tanh (rv_messages(o, f) / 2)` over the dependencies `o`
of factor `f` other than `v`, in iteration order, starting from one. -/
def tanhProduct (A : Arith F) {n : Nat} (rv_messages : Fin n → Fin n → F)
    (f : Nat) (deps : List Nat) (v : Nat) : F :=
  (deps.filter fun o => decide (o ≠ v)).foldl
    (fun prod o => A.mul prod (A.tanh (A.div (entry A rv_messages o f) A.two))) A.one

/-- The value `updateFactorMessages` computes for `factor_messages(f, v)`
before damping: `2 * atanh prod` when `|prod| != 1`, the old value otherwise. -/
def factorCell (A : Arith F) {n : Nat} (rv_messages : Fin n → Fin n → F)
    (factor : Factor) (f v : Nat) (old : F) : F :=
  if A.ne (A.abs (tanhProduct A rv_messages f factor.rv_dependencies v)) A.one = true
  then A.mul A.two (A.atanh (tanhProduct A rv_messages f factor.rv_dependencies v))
  else old

/-- The matrix the loops of `updateFactorMessages` leave before damping. -/
def factorTarget (A : Arith F) {n : Nat} (rv_messages : Fin n → Fin n → F)
    (factors : List Factor) (fm : Fin n → Fin n → F) : Fin n → Fin n → F :=
  fun a b =>
    match factors[a.val]? with
    | some factor =>
      if b.val ∈ factor.rv_dependencies
      then factorCell A rv_messages factor a.val b.val (fm a b) else fm a b
    | none => fm a b

/-- Every factor has a row in the matrices and every dependency a column. -/
def FactorsInRange (n : Nat) (factors : List Factor) : Prop :=
  factors.length ≤ n ∧ ∀ factor ∈ factors, ∀ o ∈ factor.rv_dependencies, o < n

instance (n : Nat) (factors : List Factor) : Decidable (FactorsInRange n factors) := by
  unfold FactorsInRange
  infer_instance

/-- The coefficient `v(i)` where it exists, zero outside the vector. -/
def vecEntry (A : Arith F) {n : Nat} (v : Fin n → F) (i : Nat) : F :=
  if h : i < n then v ⟨i, h⟩ else A.zero

/-- The sum of column `j` where the column exists, zero otherwise. -/
def colTotal (A : Arith F) {n : Nat} (m : Fin n → Fin n → F) (j : Nat) : F :=
  if h : j < n then sumRedux A (List.ofFn fun i => m i ⟨j, h⟩) else A.zero

/-- The value `updateRandomVariableMessages` computes for `rv_messages(v, f)`
before damping: the column sum of `v` less the message of `f`, plus the prior. -/
def rvCell (A : Arith F) {cfg : Config F} (g : FactorGraph F cfg) (v f : Nat) : F :=
  A.add (A.sub (colTotal A g.factor_messages_ v) (entry A g.factor_messages_ f v))
    (vecEntry A g.rv_initialization_ v)

/-- The matrix the loops of `updateRandomVariableMessages` leave before
damping. -/
def rvTarget (A : Arith F) {cfg : Config F} (g : FactorGraph F cfg) :
    Fin cfg.num_rvs → Fin cfg.num_rvs → F :=
  fun a b =>
    match g.rvs_[a.val]? with
    | some rv => if b.val ∈ rv.factor_indices then rvCell A g a.val b.val else g.rv_messages_ a b
    | none => g.rv_messages_ a b

/-- Every variable has a row in the matrices and every factor that mentions
it a column. -/
def RvsInRange (n : Nat) (rvs : List RandomVariable) : Prop :=
  rvs.length ≤ n ∧ ∀ rv ∈ rvs, ∀ f ∈ rv.factor_indices, f < n

instance (n : Nat) (rvs : List RandomVariable) : Decidable (RvsInRange n rvs) := by
  unfold RvsInRange
  infer_instance

/-- Whether position `v` of the variable list names factor `f`. -/
def listedAt (rvs : List RandomVariable) (v f : Nat) : Bool :=
  match rvs[v]? with
  | some rv => decide (f ∈ rv.factor_indices)
  | none => false

/-- The variable list is indexed by variable: each variable a factor
references, as primary or as dependency, sits at the position of its own
index and names that factor. -/
def VariablesByIndex (factors : List Factor) (rvs : List RandomVariable) : Prop :=
  ∀ (f : Nat) (hf : f < factors.length),
    ∀ v ∈ (factors.get ⟨f, hf⟩).referencedRVs, listedAt rvs v f = true

instance (factors : List Factor) (rvs : List RandomVariable) :
    Decidable (VariablesByIndex factors rvs) := by
  unfold VariablesByIndex
  infer_instance

end Pure

/-- What the engine relies on from libm, and IEEE libm provides: `tanh` of
a finite value is finite and at most one in absolute value, `atanh` is finite
strictly inside `(-1, 1)`, `log` is finite on the positive finite values. -/
structure Libm.Regular (m : Libm) : Prop where
  tanh_range : ∀ q : ℚ, ∃ r : ℚ, m.tanh (.fin q) = .fin r ∧ |r| ≤ 1
  atanh_fin : ∀ q : ℚ, |q| < 1 → ∃ r : ℚ, m.atanh (.fin q) = .fin r
  log_fin : ∀ q : ℚ, 0 < q → ∃ r : ℚ, m.log (.fin q) = .fin r

/-- Every message and every prior of the engine is finite. -/
def FiniteEngine {cfg : Config Dbl} (g : FactorGraph Dbl cfg) : Prop :=
  (∀ a b, (g.rv_messages_ a b).isFin = true) ∧
  (∀ a b, (g.factor_messages_ a b).isFin = true) ∧
  (∀ a, (g.rv_initialization_ a).isFin = true)

instance {cfg : Config Dbl} (g : FactorGraph Dbl cfg) : Decidable (FiniteEngine g) := by
  unfold FiniteEngine
  infer_instance

/-- The engine after `t` rounds of `updateFactorMessages;
updateRandomVariableMessages` from `g`. -/
def roundsFrom {F : Type} (A : Arith F) {cfg : Config F} :
    Nat → FactorGraph F cfg → Except Err (FactorGraph F cfg)
  | 0, g => .ok g
  | t + 1, g => do
    let gt ← roundsFrom A t g
    let r ← lbpRound A gt
    pure r.1

/-- The marginals after the `t`-th round from `g0`, the engine `setupLBP`
left. -/
def marginalsAfter {F : Type} (A : Arith F) {cfg : Config F} (g0 : FactorGraph F cfg)
    (t : Nat) : Except Err (List (Prediction F)) := do
  let gt ← roundsFrom A t g0
  marginals A gt

/-- Round `t` is stable: its marginals are equal within `tol` to those of
round `t - 1`. -/
def StableRound {F : Type} (A : Arith F) (tol : F) {cfg : Config F} (g0 : FactorGraph F cfg)
    (t : Nat) : Prop :=
  ∃ m1 m2, marginalsAfter A g0 (t - 1) = .ok m1 ∧ marginalsAfter A g0 t = .ok m2 ∧
    equal A m1 m2 tol = true

/-! ## Examples used as witnesses -/

/-- The engine the constructor leaves once `setupFactors` has loaded `factors`
and `rvs`: zero matrices and vectors, no previous marginals. -/
def FactorGraph.fresh {F : Type} (A : Arith F) (cfg : Config F)
    (prob : Factor → List VariableAssignment → F) (factors : List Factor)
    (rvs : List RandomVariable) : FactorGraph F cfg where
  prob_ := prob
  factors_ := factors
  rvs_ := rvs
  rv_messages_ := fun _ _ => A.zero
  factor_messages_ := fun _ _ => A.zero
  rv_initialization_ := fun _ => A.zero
  factor_initialization_ := fun _ => A.zero
  previous_marginals_ := []

/-- The arithmetic the examples are evaluated in. -/
def exArith : Arith Dbl := Dbl.arith Libm.rational

/-- The default tolerance of `equal`, `1e-9`. -/
def tol9 : Dbl := .fin (1 / 1000000000)

/-- Three variables, each factor depending on variables 0 and 1; damping
`0.000015`, at most five rounds. -/
def loopCfg : Config Dbl := ⟨3, 5, .fin (3 / 200000)⟩

/-- The factors of the three-variable example. -/
def loopFactors : List Factor :=
  [⟨"AND", 0, [0, 1]⟩, ⟨"AND", 1, [0, 1]⟩, ⟨"AND", 2, [0, 1]⟩]

/-- The variables of the three-variable example, as the loader lists them. -/
def loopRvs : List RandomVariable := [⟨[0, 1, 2]⟩, ⟨[0, 1, 2]⟩, ⟨[2]⟩]

/-- A probability model for the three-variable example: `1/4` for every
factor, an AND gate neither of whose inputs is observed. -/
def loopProb (_ : Factor) (_ : List VariableAssignment) : Dbl := .fin (1 / 4)

/-- The three-variable example, freshly constructed. -/
def loopEngine : FactorGraph Dbl loopCfg :=
  FactorGraph.fresh exArith loopCfg loopProb loopFactors loopRvs

/-- An AND gate on two inputs: variables 0 and 1 feed variable 2. -/
def andFactors : List Factor := [⟨"INPUT", 0, []⟩, ⟨"INPUT", 1, []⟩, ⟨"AND", 2, [0, 1]⟩]

/-- The variables of the AND gate, as the loader lists them. -/
def andRvs : List RandomVariable := [⟨[0, 2]⟩, ⟨[1, 2]⟩, ⟨[2]⟩]

/-- A probability model for the AND gate in which variable 0 is known to be
one (`probOne = 1` for factor 0) and nothing else is known. -/
def pinnedProb (f : Factor) (_ : List VariableAssignment) : Dbl :=
  if f.primary_rv = 0 then .fin 1 else .fin (1 / 2)

/-- Three variables, at most two rounds, the given damping. -/
def pinnedCfg (damping : Dbl) : Config Dbl := ⟨3, 2, damping⟩

/-- The AND gate with variable 0 known, freshly constructed. -/
def pinnedEngine (damping : Dbl) : FactorGraph Dbl (pinnedCfg damping) :=
  FactorGraph.fresh exArith (pinnedCfg damping) pinnedProb andFactors andRvs

/-- A probability model in which nothing is known: `1/2` for every factor. -/
def halfProb (_ : Factor) (_ : List VariableAssignment) : Dbl := .fin (1 / 2)

/-- The AND gate with nothing known, damping 0, freshly constructed. -/
def calmEngine : FactorGraph Dbl (pinnedCfg (.fin 0)) :=
  FactorGraph.fresh exArith (pinnedCfg (.fin 0)) halfProb andFactors andRvs

namespace Dbl

/-- Ordered comparison `<=`: false as soon as one side is NaN. -/
def le : Dbl → Dbl → Bool
  | fin a, fin b => decide (a ≤ b)
  | nan, _ => false
  | _, nan => false
  | ninf, _ => true
  | _, pinf => true
  | _, _ => false

end Dbl

/-- Whether `v` is a dependency of the factor at position `f`. -/
def dependsOn (factors : List Factor) (f v : Nat) : Bool :=
  match factors[f]? with
  | some factor => decide (v ∈ factor.rv_dependencies)
  | none => false

/-- Whether the factor at position `f` references `v`, as primary or as
dependency. -/
def references (factors : List Factor) (f v : Nat) : Bool :=
  match factors[f]? with
  | some factor => decide (v ∈ factor.referencedRVs)
  | none => false

/-- The variable list names only factors that reference the variable at whose
position they are listed. -/
def ListedAreReferenced (factors : List Factor) (rvs : List RandomVariable) : Prop :=
  ∀ (v : Nat) (hv : v < rvs.length),
    ∀ f ∈ (rvs.get ⟨v, hv⟩).factor_indices, references factors f v = true

instance (factors : List Factor) (rvs : List RandomVariable) :
    Decidable (ListedAreReferenced factors rvs) := by
  unfold ListedAreReferenced
  infer_instance

/-- The engines reachable from `g0` by calls of `updateFactorMessages` and
`updateRandomVariableMessages`, and by the assignment of
`previous_marginals_` that `runLBP` makes between rounds. -/
inductive Reach {F : Type} (A : Arith F) {cfg : Config F} (g0 : FactorGraph F cfg) :
    FactorGraph F cfg → Prop where
  | start : Reach A g0 g0
  | factorStep {g g1 : FactorGraph F cfg} :
      Reach A g0 g → updateFactorMessages A g = .ok g1 → Reach A g0 g1
  | rvStep {g g1 : FactorGraph F cfg} :
      Reach A g0 g → updateRandomVariableMessages A g = .ok g1 → Reach A g0 g1
  | record {g : FactorGraph F cfg} (marg : List (Prediction F)) :
      Reach A g0 g → Reach A g0 { g with previous_marginals_ := marg }

/-- The error a call ended with, if it did. -/
def failure {α : Type} (r : Except Err α) : Option Err :=
  match r with
  | .error e => some e
  | .ok _ => none

/-! ## Loading the circuit description -/

/-- The largest `unsigned long` (`size_t`), 64 bits wide. -/
def ulongMax : Nat := 2 ^ 64 - 1

/-- The function `isspace` of the C locale. -/
def isSpaceC (c : Char) : Bool :=
  c = ' ' || (9 ≤ c.toNat && c.toNat ≤ 13)

/-- The function `isdigit`. -/
def isDigitC (c : Char) : Bool :=
  48 ≤ c.toNat && c.toNat ≤ 57

/-- The value of a string of decimal digits. -/
def digitsValue (ds : List Char) : Nat :=
  ds.foldl (fun acc c => 10 * acc + (c.toNat - 48)) 0

/-- What `std::stoul` looks at after it skipped leading white space: whether
there is a minus sign, and what follows the sign if there is one. -/
def signAndRest (body : List Char) : Bool × List Char :=
  match body with
  | '-' :: rest => (true, rest)
  | '+' :: rest => (false, rest)
  | _ => (false, body)

/-- The decimal digits `std::stoul` converts: the longest run of digits after
leading white space and an optional sign.  What follows the digits is ignored
(the call passes no position to check). -/
def numericPrefix (str : List Char) : List Char :=
  (signAndRest (str.dropWhile isSpaceC)).2.takeWhile isDigitC

/-- The function `std::stoul(str)`, base 10: `std::invalid_argument` when
there is no digit to convert, `std::out_of_range` when the digits exceed
`ULONG_MAX`, the value otherwise, negated modulo `2^64` after a minus sign. -/
def stoul (str : List Char) : Except Err Nat :=
  let digits := numericPrefix str
  if digits = [] then .error .invalid_argument
  else if ulongMax < digitsValue digits then .error .out_of_range
  else if (signAndRest (str.dropWhile isSpaceC)).1 then
    .ok ((2 ^ 64 - digitsValue digits) % 2 ^ 64)
  else .ok (digitsValue digits)

/-- The strings that successive calls `std::getline(stream, tmp, ';')` store
while they succeed, `cur` being what the current call has read so far: a call
succeeds when it meets a `;` or reads at least one character before the end. -/
def tokensAux (cur : List Char) : List Char → List (List Char)
  | [] => if cur = [] then [] else [cur]
  | c :: rest => if c = ';' then cur :: tokensAux [] rest else tokensAux (cur ++ [c]) rest

/-- The fields of a line as `std::getline(line_stream, tmp, ';')` yields them. -/
def lineTokens (line : List Char) : List (List Char) := tokensAux [] line

/-- The string `tmp` after the second, unchecked `getline` of a line.  When
the line has no second field the call fails: on a line without `;` the stream
is already at its end and `tmp` keeps the first field, otherwise `tmp` is
emptied. -/
def primaryField (line : List Char) : List Char :=
  match lineTokens line with
  | _ :: second :: _ => second
  | [first] => if ';' ∈ line then [] else first
  | [] => []

/-- The call `std::set<size_t>::insert`, on the ascending list of elements. -/
def setInsert (x : Nat) : List Nat → List Nat
  | [] => [x]
  | y :: ys => if x < y then x :: y :: ys else if x = y then y :: ys else y :: setInsert x ys

/-- The statement `rvs[key].factor_indices.insert(f)` on the
`std::map<size_t, RandomVariable>`, listed by ascending key. -/
def addReference : List (Nat × RandomVariable) → Nat → Nat → List (Nat × RandomVariable)
  | [], key, f => [(key, ⟨[f]⟩)]
  | (k, rv) :: rest, key, f =>
    if key < k then (key, ⟨[f]⟩) :: (k, rv) :: rest
    else if key = k then (k, ⟨setInsert f rv.factor_indices⟩) :: rest
    else (k, rv) :: addReference rest key f

/-- The loop of `setupFactors` over the dependency fields of one line. -/
def depLoop (factor_index : Nat) :
    List (List Char) → List Nat → List (Nat × RandomVariable) →
      Except Err (List Nat × List (Nat × RandomVariable))
  | [], deps, rvs => .ok (deps, rvs)
  | tmp :: rest, deps, rvs => do
    let rv_idx ← stoul tmp
    depLoop factor_index rest (setInsert rv_idx deps) (addReference rvs rv_idx factor_index)

/-- The loop of `setupFactors` over the lines that `std::getline(data, line)`
reads from the description. -/
def loadLoop :
    List String → List Factor → List (Nat × RandomVariable) →
      Except Err (List Factor × List (Nat × RandomVariable))
  | [], factors, rvs => .ok (factors, rvs)
  | line :: rest, factors, rvs => do
    let factor_type := String.mk ((lineTokens line.toList).headD [])
    let primary_rv ← stoul (primaryField line.toList)
    let rvs1 := addReference rvs primary_rv factors.length
    let (deps, rvs2) ← depLoop factors.length ((lineTokens line.toList).drop 2) [] rvs1
    loadLoop rest (factors ++ [⟨factor_type, primary_rv, deps⟩]) rvs2

/-- The method `FactorGraph::setupFactors`, on the lines of the description:
the factors, and the variables in ascending order of their index. -/
def setupFactors (lines : List String) : Except Err (List Factor × List RandomVariable) := do
  let (factors, rvs) ← loadLoop lines [] []
  pure (factors, rvs.map fun kv => kv.2)

/-- The loop of `printConnections`: `rvs_.at(i)` and `factors_.at(i)` for
every `i < num_rvs`. -/
def printLoop (factors : List Factor) (rvs : List RandomVariable) : List Nat → Except Err Unit
  | [] => .ok ()
  | i :: rest =>
    match rvs[i]? with
    | none => .error .out_of_range
    | some _ =>
      match factors[i]? with
      | none => .error .out_of_range
      | some _ => printLoop factors rvs rest

/-- The constructor `FactorGraph::FactorGraph`: the description is loaded, the
matrices and vectors are zeroed, and the connections are printed when the
configuration asks for it. -/
def FactorGraph.construct {F : Type} (A : Arith F) (cfg : Config F) (print_connections : Bool)
    (prob : Factor → List VariableAssignment → F) (lines : List String) :
    Except Err (FactorGraph F cfg) := do
  let (factors, rvs) ← setupFactors lines
  if print_connections then
    printLoop factors rvs (List.range cfg.num_rvs)
  pure (FactorGraph.fresh A cfg prob factors rvs)

/-- The fields of a line that `setupFactors` hands to `std::stoul`: the
primary field and the dependency fields. -/
def indexFields (line : List Char) : List (List Char) :=
  primaryField line :: (lineTokens line).drop 2

/-- The field `str` makes `std::stoul` throw: it has no decimal digit after
optional white space and sign, or its digits exceed `ULONG_MAX`. -/
def Unparsable (str : List Char) : Prop :=
  numericPrefix str = [] ∨ ulongMax < digitsValue (numericPrefix str)

instance (str : List Char) : Decidable (Unparsable str) := by
  unfold Unparsable
  infer_instance

/-- The value `std::stoul` returns for a field, zero when it throws. -/
def fieldValue (str : List Char) : Nat :=
  match stoul str with
  | .ok v => v
  | .error _ => 0

/-- The keys of the map of variables, in map order. -/
def mapKeys (rvs : List (Nat × RandomVariable)) : List Nat := rvs.map fun kv => kv.1

/-- The factor indices the map of variables holds for key `v`, none when the
key is absent. -/
def refsAt : List (Nat × RandomVariable) → Nat → List Nat
  | [], _ => []
  | (k, rv) :: rest, v => if k = v then rv.factor_indices else refsAt rest v

/-- A line of a well-formed description, field by field. -/
structure LineSpec where
  type : List Char
  primary : List Char
  deps : List (List Char)

/-- The text of a line: `type;primary;dep_1;...`. -/
def LineSpec.text (l : LineSpec) : String :=
  String.mk (l.type ++ ';' :: (l.primary ++ l.deps.flatMap fun d => ';' :: d))

/-- A decimal index: a nonempty string of digits whose value fits `size_t`. -/
def IsIndex (ds : List Char) : Prop :=
  ds ≠ [] ∧ (∀ c ∈ ds, isDigitC c = true) ∧ digitsValue ds ≤ ulongMax

instance (ds : List Char) : Decidable (IsIndex ds) := by
  unfold IsIndex
  infer_instance

/-- The line is well formed: no `;` inside the type, decimal indices. -/
def LineSpec.WellFormed (l : LineSpec) : Prop :=
  ';' ∉ l.type ∧ IsIndex l.primary ∧ ∀ d ∈ l.deps, IsIndex d

instance (l : LineSpec) : Decidable l.WellFormed := by
  unfold LineSpec.WellFormed
  infer_instance

/-- The variable indices the lines of the description name, as primary or as
dependency. -/
def referencedIndices (desc : List LineSpec) : List Nat :=
  desc.flatMap fun l => digitsValue l.primary :: l.deps.map digitsValue

/-- The referenced variable indices are contiguous from 0. -/
def Contiguous (desc : List LineSpec) : Prop :=
  ∀ v ∈ referencedIndices desc, ∀ u, u < v → u ∈ referencedIndices desc

instance (desc : List LineSpec) : Decidable (Contiguous desc) := by
  unfold Contiguous
  infer_instance

/-- The factor `setupFactors` appends for a line whose fields parse. -/
def lineFactor (line : String) : Factor :=
  ⟨String.mk ((lineTokens line.toList).headD []), fieldValue (primaryField line.toList),
    (((lineTokens line.toList).drop 2).map fieldValue).foldl (fun s v => setInsert v s) []⟩

/-- The map of variables after the line that makes factor `j`, when its fields
parse. -/
def lineRefs (m : List (Nat × RandomVariable)) (line : String) (j : Nat) :
    List (Nat × RandomVariable) :=
  (((lineTokens line.toList).drop 2).map fieldValue).foldl (fun m v => addReference m v j)
    (addReference m (fieldValue (primaryField line.toList)) j)

/-- The map of variables after all lines, the first of which makes factor `j`. -/
def loadRefs : List String → Nat → List (Nat × RandomVariable) → List (Nat × RandomVariable)
  | [], _, m => m
  | line :: rest, j, m => loadRefs rest (j + 1) (lineRefs m line j)

/-- The map of variables is a sorted map that holds, for each variable, the
factors in relation `R` to it, and has no other keys. -/
def MapInv (m : List (Nat × RandomVariable)) (R : Nat → Nat → Prop) : Prop :=
  (mapKeys m).Pairwise (· < ·) ∧ (∀ v j, j ∈ refsAt m v ↔ R j v) ∧
    ∀ v, v ∈ mapKeys m ↔ ∃ j, R j v

/-- A well-formed description of the AND gate. -/
def andDesc : List LineSpec :=
  [⟨"INPUT".toList, "0".toList, []⟩, ⟨"INPUT".toList, "1".toList, []⟩,
    ⟨"AND".toList, "2".toList, ["0".toList, "1".toList]⟩]

/-- The map of variables that loading the AND gate builds. -/
def andMap : List (Nat × RandomVariable) :=
  [(0, ⟨[0, 2]⟩), (1, ⟨[1, 2]⟩), (2, ⟨[2]⟩)]

/-- Two variables configured, at most two rounds, damping one half. -/
def twoCfg : Config Dbl := ⟨2, 2, .fin (1 / 2)⟩

/-- A probability model for scenario A: 1 for the AND factor when both of
its inputs are observed as one, `1/2` otherwise. -/
def scenarioProb (f : Factor) (obs : List VariableAssignment) : Dbl :=
  if f.factor_type = "AND" ∧ obs = [⟨0, true⟩, ⟨1, true⟩] then .fin 1 else .fin (1 / 2)

/-- Scenario A as the spec writes it: three variables, the AND factor alone. -/
def loneAndEngine : FactorGraph Dbl (pinnedCfg (.fin (1 / 2))) :=
  FactorGraph.fresh exArith (pinnedCfg (.fin (1 / 2))) scenarioProb
    [⟨"AND", 2, [0, 1]⟩] [⟨[0]⟩, ⟨[0]⟩, ⟨[0]⟩]

/-- Scenario A with one factor per variable. -/
def scenarioEngine : FactorGraph Dbl ⟨3, 2, .fin (1 / 2)⟩ :=
  FactorGraph.fresh exArith ⟨3, 2, .fin (1 / 2)⟩ scenarioProb andFactors andRvs

/-- Binary64 arithmetic with the sampled libm. -/
def ieeeArith : Arith Dbl := Dbl.ieee Libm.sampled

/-- The double nearest to `0.1`. -/
def tenth : Dbl := .fin (3602879701896397 / pow2 55)

/-- A probability model for the AND gate in which variable 0 is all but known
to be zero (`probOne = 2^-540` for factor 0) and nothing else is known. -/
def nearZeroProb (f : Factor) (_ : List VariableAssignment) : Dbl :=
  if f.primary_rv = 0 then .fin (1 / pow2 540) else .fin (1 / 2)

/-- The AND gate with variable 0 all but known, damping `0.1`, at most
`rounds` rounds, freshly constructed, in binary64 arithmetic. -/
def nearZeroEngine (rounds : Nat) : FactorGraph Dbl ⟨3, rounds, tenth⟩ :=
  FactorGraph.fresh ieeeArith ⟨3, rounds, tenth⟩ nearZeroProb andFactors andRvs

/-- Two variables, the second the negation of the first: factor 1 has the
single dependency 0.  Damping `0.1`, freshly constructed, in binary64
arithmetic. -/
def singleDepEngine : FactorGraph Dbl ⟨2, 2, tenth⟩ :=
  FactorGraph.fresh ieeeArith ⟨2, 2, tenth⟩ halfProb
    [⟨"INPUT", 0, []⟩, ⟨"NOT", 1, [0]⟩] [⟨[0, 1]⟩, ⟨[1]⟩]

/-- A description that never mentions variable 1. -/
def gapLines : List String := ["A;0;2", "B;0", "C;0"]

/-! ## Theorems -/

section Lemmas
variable {F : Type}

theorem bind_ok_eq {ε α β : Type} (a : α) (k : α → Except ε β) :
    (Except.ok a >>= k) = k a := rfl

theorem bind_error_eq {ε α β : Type} (e : ε) (k : α → Except ε β) :
    (Except.error e >>= k) = Except.error e := rfl

theorem coeff_eq_entry (A : Arith F) {n : Nat} (m : Fin n → Fin n → F) (i j : Nat)
    (hi : i < n) (hj : j < n) : coeff m i j = .ok (entry A m i j) := by
  simp [coeff, entry, hi, hj]

theorem othersProd_eq (A : Arith F) {n : Nat} (rvm : Fin n → Fin n → F) (f v : Nat)
    (hf : f < n) (l : List Nat) (hl : ∀ o ∈ l, o < n) (p : F) :
    othersProd A rvm f v l p = .ok ((l.filter fun o => decide (o ≠ v)).foldl
      (fun prod o => A.mul prod (A.tanh (A.div (entry A rvm o f) A.two))) p) := by
  induction l generalizing p with
  | nil => simp [othersProd]
  | cons o rest ih =>
    have ho : o < n := hl o (List.mem_cons_self _ _)
    have hrest : ∀ x ∈ rest, x < n := fun x hx => hl x (List.mem_cons_of_mem _ hx)
    by_cases hov : v = o
    · subst hov
      simp [othersProd, ih hrest]
    · have hov2 : ¬ o = v := fun h => hov h.symm
      simp [othersProd, hov, hov2, coeff_eq_entry A rvm o f ho hf, bind_ok_eq, ih hrest]

theorem factorRow_eq (A : Arith F) {n : Nat} (rvm : Fin n → Fin n → F) (factor : Factor)
    (f : Nat) (hf : f < n) (hdeps : ∀ o ∈ factor.rv_dependencies, o < n)
    (l : List Nat) (hl : ∀ v ∈ l, v < n) (fm : Fin n → Fin n → F) :
    factorRow A rvm factor f l fm = .ok (fun a b =>
      if a.val = f ∧ b.val ∈ l then factorCell A rvm factor f b.val (fm a b) else fm a b) := by
  induction l generalizing fm with
  | nil => simp [factorRow]
  | cons v rest ih =>
    have hv : v < n := hl v (List.mem_cons_self _ _)
    have hrest : ∀ x ∈ rest, x < n := fun x hx => hl x (List.mem_cons_of_mem _ hx)
    have hprod := othersProd_eq A rvm f v hf factor.rv_dependencies hdeps A.one
    have hprod2 : othersProd A rvm f v factor.rv_dependencies A.one
        = .ok (tanhProduct A rvm f factor.rv_dependencies v) := hprod
    by_cases hg : A.ne (A.abs (tanhProduct A rvm f factor.rv_dependencies v)) A.one = true
    · simp only [factorRow, hprod2, bind_ok_eq, hg, if_true, setCoeff, hf, hv, and_self]
      rw [ih hrest]
      congr 1
      funext a b
      by_cases ha : a.val = f
      · by_cases hb : b.val = v
        · simp [ha, hb, factorCell, hg]
        · simp [ha, hb]
      · simp [ha]
    · simp only [factorRow, hprod2, bind_ok_eq]
      rw [if_neg hg, ih hrest]
      congr 1
      funext a b
      by_cases ha : a.val = f
      · by_cases hb : b.val = v
        · simp [ha, hb, factorCell, hg]
        · simp [ha, hb]
      · simp [ha]

theorem factorLoop_eq (A : Arith F) {n : Nat} (rvm : Fin n → Fin n → F) (fs : List Factor)
    (k : Nat) (hk : k + fs.length ≤ n)
    (hdeps : ∀ factor ∈ fs, ∀ o ∈ factor.rv_dependencies, o < n) (fm : Fin n → Fin n → F) :
    factorLoop A rvm fs k fm = .ok (fun a b =>
      if k ≤ a.val then
        match fs[a.val - k]? with
        | some factor =>
          if b.val ∈ factor.rv_dependencies
          then factorCell A rvm factor a.val b.val (fm a b) else fm a b
        | none => fm a b
      else fm a b) := by
  induction fs generalizing k fm with
  | nil => simp [factorLoop]
  | cons factor rest ih =>
    have hlen : k + 1 + rest.length ≤ n := by
      simp only [List.length_cons] at hk
      omega
    have hkn : k < n := by omega
    have hd0 : ∀ o ∈ factor.rv_dependencies, o < n := hdeps factor (List.mem_cons_self _ _)
    have hdr : ∀ fac ∈ rest, ∀ o ∈ fac.rv_dependencies, o < n :=
      fun fac hfac => hdeps fac (List.mem_cons_of_mem _ hfac)
    simp only [factorLoop, factorRow_eq A rvm factor k hkn hd0 factor.rv_dependencies hd0 fm,
      bind_ok_eq]
    rw [ih (k + 1) hlen hdr]
    congr 1
    funext a b
    rcases Nat.lt_trichotomy a.val k with h | h | h
    · have h1 : ¬ k ≤ a.val := by omega
      have h2 : ¬ k + 1 ≤ a.val := by omega
      have h3 : ¬ a.val = k := by omega
      simp [h1, h2, h3]
    · have h2 : ¬ k + 1 ≤ a.val := by omega
      simp [h, h2]
    · have h1 : k ≤ a.val := by omega
      have h2 : k + 1 ≤ a.val := by omega
      have h3 : ¬ a.val = k := by omega
      have h4 : a.val - k = (a.val - (k + 1)) + 1 := by omega
      simp [h1, h2, h3, h4]

theorem updateFactorMessages_eq (A : Arith F) {cfg : Config F} (g : FactorGraph F cfg)
    (hr : FactorsInRange cfg.num_rvs g.factors_) :
    updateFactorMessages A g = .ok { g with
      factor_messages_ := damp A cfg.lbp_damping
        (factorTarget A g.rv_messages_ g.factors_ g.factor_messages_) g.factor_messages_ } := by
  have h := factorLoop_eq A g.rv_messages_ g.factors_ 0 (by simpa using hr.1) hr.2
    g.factor_messages_
  have h2 : factorLoop A g.rv_messages_ g.factors_ 0 g.factor_messages_
      = .ok (factorTarget A g.rv_messages_ g.factors_ g.factor_messages_) := by
    rw [h]
    congr 1
    funext a b
    simp [factorTarget]
  simp only [updateFactorMessages, h2, bind_ok_eq]
  rfl

theorem vecCoeff_eq_vecEntry (A : Arith F) {n : Nat} (v : Fin n → F) (i : Nat) (hi : i < n) :
    vecCoeff v i = .ok (vecEntry A v i) := by
  simp [vecCoeff, vecEntry, hi]

theorem colSum_eq_colTotal (A : Arith F) {n : Nat} (m : Fin n → Fin n → F) (j : Nat)
    (hj : j < n) : colSum A m j = .ok (colTotal A m j) := by
  simp [colSum, colTotal, hj]

theorem rvRow_eq (A : Arith F) {cfg : Config F} (g : FactorGraph F cfg) (v : Nat)
    (hv : v < cfg.num_rvs) (l : List Nat) (hl : ∀ f ∈ l, f < cfg.num_rvs)
    (rvm : Fin cfg.num_rvs → Fin cfg.num_rvs → F) :
    rvRow A g v l rvm = .ok (fun a b =>
      if a.val = v ∧ b.val ∈ l then rvCell A g v b.val else rvm a b) := by
  induction l generalizing rvm with
  | nil => simp [rvRow]
  | cons f rest ih =>
    have hf : f < cfg.num_rvs := hl f (List.mem_cons_self _ _)
    have hrest : ∀ x ∈ rest, x < cfg.num_rvs := fun x hx => hl x (List.mem_cons_of_mem _ hx)
    simp only [rvRow, colSum_eq_colTotal A _ v hv, coeff_eq_entry A _ f v hf hv,
      vecCoeff_eq_vecEntry A _ v hv, bind_ok_eq, setCoeff, hf, hv, and_self, if_true]
    rw [ih hrest]
    congr 1
    funext a b
    by_cases ha : a.val = v
    · by_cases hb : b.val = f
      · simp [ha, hb, rvCell]
      · simp [ha, hb]
    · simp [ha]

theorem rvLoop_eq (A : Arith F) {cfg : Config F} (g : FactorGraph F cfg)
    (rvs : List RandomVariable) (k : Nat) (hk : k + rvs.length ≤ cfg.num_rvs)
    (hfi : ∀ rv ∈ rvs, ∀ f ∈ rv.factor_indices, f < cfg.num_rvs)
    (rvm : Fin cfg.num_rvs → Fin cfg.num_rvs → F) :
    rvLoop A g rvs k rvm = .ok (fun a b =>
      if k ≤ a.val then
        match rvs[a.val - k]? with
        | some rv => if b.val ∈ rv.factor_indices then rvCell A g a.val b.val else rvm a b
        | none => rvm a b
      else rvm a b) := by
  induction rvs generalizing k rvm with
  | nil => simp [rvLoop]
  | cons rv rest ih =>
    have hlen : k + 1 + rest.length ≤ cfg.num_rvs := by
      simp only [List.length_cons] at hk
      omega
    have hkn : k < cfg.num_rvs := by omega
    have h0 : ∀ f ∈ rv.factor_indices, f < cfg.num_rvs := hfi rv (List.mem_cons_self _ _)
    have hr : ∀ r ∈ rest, ∀ f ∈ r.factor_indices, f < cfg.num_rvs :=
      fun r hr => hfi r (List.mem_cons_of_mem _ hr)
    simp only [rvLoop, rvRow_eq A g k hkn rv.factor_indices h0 rvm, bind_ok_eq]
    rw [ih (k + 1) hlen hr]
    congr 1
    funext a b
    rcases Nat.lt_trichotomy a.val k with h | h | h
    · have h1 : ¬ k ≤ a.val := by omega
      have h2 : ¬ k + 1 ≤ a.val := by omega
      have h3 : ¬ a.val = k := by omega
      simp [h1, h2, h3]
    · have h2 : ¬ k + 1 ≤ a.val := by omega
      simp [h, h2]
    · have h1 : k ≤ a.val := by omega
      have h2 : k + 1 ≤ a.val := by omega
      have h3 : ¬ a.val = k := by omega
      have h4 : a.val - k = (a.val - (k + 1)) + 1 := by omega
      simp [h1, h2, h3, h4]

theorem updateRandomVariableMessages_eq (A : Arith F) {cfg : Config F} (g : FactorGraph F cfg)
    (hr : RvsInRange cfg.num_rvs g.rvs_) :
    updateRandomVariableMessages A g = .ok { g with
      rv_messages_ := damp A cfg.lbp_damping (rvTarget A g) g.rv_messages_ } := by
  have h := rvLoop_eq A g g.rvs_ 0 (by simpa using hr.1) hr.2 g.rv_messages_
  have h2 : rvLoop A g g.rvs_ 0 g.rv_messages_ = .ok (rvTarget A g) := by
    rw [h]
    congr 1
    funext a b
    simp [rvTarget]
  simp only [updateRandomVariableMessages, h2, bind_ok_eq]
  rfl

theorem relevantObserved_eq (factor : Factor) (observed : List VariableAssignment) :
    relevantObserved factor observed = observed.filter fun o =>
      decide (o.rv_index ∈ factor.rv_dependencies ∨ o.rv_index = factor.primary_rv) := by
  unfold relevantObserved Factor.referencedRVs
  congr 1
  funext o
  simp only [List.count_pos_iff, List.mem_insert_iff, decide_eq_decide]
  exact Or.comm

theorem setupLoop_eq (A : Arith F) {cfg : Config F} (g : FactorGraph F cfg)
    (observed : List VariableAssignment) (l : List Nat) (hl : ∀ i ∈ l, i < g.factors_.length)
    (init : Fin cfg.num_rvs → F) :
    ∃ init', setupLoop A g observed l init = .ok init' ∧
      (∀ a : Fin cfg.num_rvs, a.val ∉ l → init' a = init a) ∧
      (∀ (a : Fin cfg.num_rvs) (h : a.val < g.factors_.length), a.val ∈ l →
        init' a = A.log (A.div
          (A.sub A.one (g.prob_ (g.factors_.get ⟨a.val, h⟩)
            (relevantObserved (g.factors_.get ⟨a.val, h⟩) observed)))
          (g.prob_ (g.factors_.get ⟨a.val, h⟩)
            (relevantObserved (g.factors_.get ⟨a.val, h⟩) observed)))) := by
  induction l generalizing init with
  | nil => exact ⟨init, rfl, fun _ _ => rfl, fun _ _ h => absurd h (List.not_mem_nil _)⟩
  | cons i rest ih =>
    have hi : i < g.factors_.length := hl i (List.mem_cons_self _ _)
    have hrest : ∀ x ∈ rest, x < g.factors_.length :=
      fun x hx => hl x (List.mem_cons_of_mem _ hx)
    have hget : g.factors_[i]? = some (g.factors_.get ⟨i, hi⟩) := by
      simp [List.getElem?_eq_getElem hi]
    obtain ⟨init', hrun, hout, hin⟩ := ih hrest
      (setVec init i (A.log (A.div
        (A.sub A.one (g.prob_ (g.factors_.get ⟨i, hi⟩)
          (relevantObserved (g.factors_.get ⟨i, hi⟩) observed)))
        (g.prob_ (g.factors_.get ⟨i, hi⟩)
          (relevantObserved (g.factors_.get ⟨i, hi⟩) observed)))))
    refine ⟨init', ?_, ?_, ?_⟩
    · simp only [setupLoop, hget]
      exact hrun
    · intro a ha
      have h1 : a.val ∉ rest := fun h => ha (List.mem_cons_of_mem _ h)
      have h2 : ¬ a.val = i := fun h => ha (h ▸ List.mem_cons_self _ _)
      rw [hout a h1]
      simp [setVec, h2]
    · intro a h ha
      by_cases hr : a.val ∈ rest
      · exact hin a h hr
      · have h2 : a.val = i := by
          rcases List.mem_cons.mp ha with h3 | h3
          · exact h3
          · exact absurd h3 hr
        rw [hout a hr]
        subst h2
        simp [setVec]

theorem entry_damp (A : Arith F) {n : Nat} (d : F) (cur prev : Fin n → Fin n → F)
    (i j : Nat) (hi : i < n) (hj : j < n) :
    entry A (damp A d cur prev) i j
      = A.add (A.mul d (entry A cur i j)) (A.mul (A.sub A.one d) (entry A prev i j)) := by
  simp only [entry, damp, hi, hj, and_self, dite_true]
  rw [A.mul_comm (cur _ _) d, A.mul_comm (prev _ _) (A.sub A.one d)]

theorem entry_factorTarget (A : Arith F) {n : Nat} (rvm fm : Fin n → Fin n → F)
    (factors : List Factor) (f v : Nat) (hf : f < factors.length) (hfn : f < n) (hvn : v < n)
    (hv : v ∈ (factors.get ⟨f, hf⟩).rv_dependencies) :
    entry A (factorTarget A rvm factors fm) f v
      = factorCell A rvm (factors.get ⟨f, hf⟩) f v (entry A fm f v) := by
  have hget : factors[f]? = some (factors.get ⟨f, hf⟩) := by
    simp [List.getElem?_eq_getElem hf]
  simp only [entry, factorTarget, hfn, hvn, and_self, dite_true, hget]
  rw [if_pos hv]

theorem entry_rvTarget (A : Arith F) {cfg : Config F} (g : FactorGraph F cfg) (v f : Nat)
    (hv : v < g.rvs_.length) (hvn : v < cfg.num_rvs) (hfn : f < cfg.num_rvs)
    (hf : f ∈ (g.rvs_.get ⟨v, hv⟩).factor_indices) :
    entry A (rvTarget A g) v f = rvCell A g v f := by
  have hget : g.rvs_[v]? = some (g.rvs_.get ⟨v, hv⟩) := by
    simp [List.getElem?_eq_getElem hv]
  simp only [entry, rvTarget, hfn, hvn, and_self, dite_true, hget]
  rw [if_pos hf]



theorem mapM_ok {α β : Type} (f : α → Except Err β) (l : List α)
    (h : ∀ x ∈ l, ∃ y, f x = .ok y) : ∃ ys, l.mapM f = .ok ys := by
  induction l with
  | nil => exact ⟨[], rfl⟩
  | cons x rest ih =>
    obtain ⟨y, hy⟩ := h x (List.mem_cons_self _ _)
    obtain ⟨ys, hys⟩ := ih (fun z hz => h z (List.mem_cons_of_mem _ hz))
    refine ⟨y :: ys, ?_⟩
    rw [List.mapM_cons, hy, hys]
    rfl

theorem predict_eq (A : Arith F) {cfg : Config F} (g : FactorGraph F cfg) (v : Nat)
    (hv : v < cfg.num_rvs) :
    predict A g v = .ok (Prediction.mk
      (A.add (g.rv_initialization_ ⟨v, hv⟩)
        (sumRedux A (List.ofFn fun f => g.factor_messages_ f ⟨v, hv⟩)))
      (if A.lt (A.add (g.rv_initialization_ ⟨v, hv⟩)
        (sumRedux A (List.ofFn fun f => g.factor_messages_ f ⟨v, hv⟩))) A.zero = true
        then 1 else 0)) := by
  simp only [predict, vecCoeff, colSum, hv, dite_true, bind_ok_eq]
  rfl

theorem marginals_ok (A : Arith F) {cfg : Config F} (g : FactorGraph F cfg) :
    ∃ ms, marginals A g = .ok ms := by
  apply mapM_ok
  intro v hv
  exact ⟨_, predict_eq A g v (List.mem_range.mp hv)⟩

open Dbl

theorem isFin_iff (x : Dbl) : x.isFin = true ↔ ∃ q, x = .fin q := by
  cases x <;> simp [Dbl.isFin]

theorem blend_zero (c p : Dbl) (hc : c.isFin = true) :
    Dbl.add (Dbl.mul c (.fin 0)) (Dbl.mul p (Dbl.sub (.fin 1) (.fin 0))) = p := by
  obtain ⟨q, rfl⟩ := (isFin_iff c).mp hc
  have h10 : ¬ ((1 : ℚ) < 0) := by norm_num
  cases p <;> simp [Dbl.add, Dbl.mul, Dbl.sub, Dbl.neg, Dbl.infOfSign, h10]

theorem blend_one (c p : Dbl) (hp : p.isFin = true) :
    Dbl.add (Dbl.mul (.fin 1) c) (Dbl.mul (Dbl.sub (.fin 1) (.fin 1)) p) = c := by
  obtain ⟨q, rfl⟩ := (isFin_iff p).mp hp
  have h10 : ¬ ((1 : ℚ) < 0) := by norm_num
  cases c <;> simp [Dbl.add, Dbl.mul, Dbl.sub, Dbl.neg, Dbl.infOfSign, h10]

theorem entry_isFin (m : Libm) {n : Nat} (mat : Fin n → Fin n → Dbl)
    (h : ∀ a b, (mat a b).isFin = true) (i j : Nat) :
    (entry (Dbl.arith m) mat i j).isFin = true := by
  unfold entry
  split
  · exact h _ _
  · rfl

theorem vecEntry_isFin (m : Libm) {n : Nat} (v : Fin n → Dbl)
    (h : ∀ a, (v a).isFin = true) (i : Nat) :
    (vecEntry (Dbl.arith m) v i).isFin = true := by
  unfold vecEntry
  split
  · exact h _
  · rfl

theorem foldl_add_isFin (l : List Dbl) (x : Dbl) (hx : x.isFin = true)
    (hl : ∀ y ∈ l, y.isFin = true) : (l.foldl Dbl.add x).isFin = true := by
  induction l generalizing x with
  | nil => simpa using hx
  | cons y rest ih =>
    obtain ⟨q, rfl⟩ := (isFin_iff x).mp hx
    obtain ⟨r, hr⟩ := (isFin_iff y).mp (hl y (List.mem_cons_self _ _))
    subst hr
    simp only [List.foldl_cons]
    exact ih _ rfl (fun z hz => hl z (List.mem_cons_of_mem _ hz))

theorem colTotal_isFin (m : Libm) {n : Nat} (mat : Fin n → Fin n → Dbl)
    (h : ∀ a b, (mat a b).isFin = true) (j : Nat) :
    (colTotal (Dbl.arith m) mat j).isFin = true := by
  unfold colTotal
  split
  · rename_i hj
    have hall : ∀ y ∈ List.ofFn (fun i => mat i ⟨j, hj⟩), y.isFin = true := by
      intro y hy
      obtain ⟨i, rfl⟩ := (List.mem_ofFn _ _).mp hy
      exact h _ _
    cases hl : List.ofFn (fun i => mat i ⟨j, hj⟩) with
    | nil => rfl
    | cons x xs =>
      rw [hl] at hall
      exact foldl_add_isFin xs x (hall x (List.mem_cons_self _ _))
        (fun z hz => hall z (List.mem_cons_of_mem _ hz))
  · rfl

theorem tanhFold_fin (m : Libm) (hm : m.Regular) {n : Nat} (rvm : Fin n → Fin n → Dbl)
    (h : ∀ a b, (rvm a b).isFin = true) (f : Nat) (l : List Nat) (p : ℚ) (hp : |p| ≤ 1) :
    ∃ P : ℚ, l.foldl (fun prod o => (Dbl.arith m).mul prod
        ((Dbl.arith m).tanh ((Dbl.arith m).div (entry (Dbl.arith m) rvm o f) (Dbl.arith m).two)))
      (.fin p) = .fin P ∧ |P| ≤ 1 := by
  induction l generalizing p with
  | nil => exact ⟨p, rfl, hp⟩
  | cons o rest ih =>
    obtain ⟨x, hx⟩ := (isFin_iff _).mp (entry_isFin m rvm h o f)
    obtain ⟨r, hr, hr1⟩ := hm.tanh_range (x / 2)
    have hstep : (Dbl.arith m).mul (.fin p)
        ((Dbl.arith m).tanh ((Dbl.arith m).div (entry (Dbl.arith m) rvm o f) (Dbl.arith m).two))
        = .fin (p * r) := by
      rw [hx]
      show Dbl.mul (.fin p) (m.tanh (Dbl.div (.fin x) (.fin 2))) = _
      have h2 : Dbl.div (.fin x) (.fin 2) = .fin (x / 2) := by
        simp [Dbl.div]
      rw [h2, hr]
      rfl
    simp only [List.foldl_cons, hstep]
    apply ih
    rw [abs_mul]
    calc |p| * |r| ≤ 1 * 1 := mul_le_mul hp hr1 (abs_nonneg r) (by norm_num)
      _ = 1 := by norm_num

theorem tanhProduct_fin (m : Libm) (hm : m.Regular) {n : Nat} (rvm : Fin n → Fin n → Dbl)
    (h : ∀ a b, (rvm a b).isFin = true) (f : Nat) (deps : List Nat) (v : Nat) :
    ∃ P : ℚ, tanhProduct (Dbl.arith m) rvm f deps v = .fin P ∧ |P| ≤ 1 := by
  unfold tanhProduct
  exact tanhFold_fin m hm rvm h f _ 1 (by norm_num)

theorem factorCell_isFin (m : Libm) (hm : m.Regular) {n : Nat} (rvm : Fin n → Fin n → Dbl)
    (h : ∀ a b, (rvm a b).isFin = true) (factor : Factor) (f v : Nat) (old : Dbl)
    (hold : old.isFin = true) :
    (factorCell (Dbl.arith m) rvm factor f v old).isFin = true := by
  obtain ⟨P, hP, hP1⟩ := tanhProduct_fin m hm rvm h f factor.rv_dependencies v
  unfold factorCell
  rw [hP]
  split
  · rename_i hg
    have hne : |P| ≠ 1 := by
      intro hcon
      have : (Dbl.arith m).ne ((Dbl.arith m).abs (.fin P)) (Dbl.arith m).one = false := by
        show Dbl.ne (Dbl.abs (.fin P)) (.fin 1) = false
        simp [Dbl.ne, Dbl.abs, hcon]
      rw [this] at hg
      cases hg
    obtain ⟨r, hr⟩ := hm.atanh_fin P (lt_of_le_of_ne hP1 hne)
    show (Dbl.mul (.fin 2) (m.atanh (.fin P))).isFin = true
    rw [hr]
    rfl
  · exact hold

theorem factorTarget_isFin (m : Libm) (hm : m.Regular) {n : Nat}
    (rvm fm : Fin n → Fin n → Dbl) (hrv : ∀ a b, (rvm a b).isFin = true)
    (hfm : ∀ a b, (fm a b).isFin = true) (factors : List Factor) (a b : Fin n) :
    (factorTarget (Dbl.arith m) rvm factors fm a b).isFin = true := by
  unfold factorTarget
  split
  · split
    · exact factorCell_isFin m hm rvm hrv _ _ _ _ (hfm a b)
    · exact hfm a b
  · exact hfm a b

theorem add_isFin (x y : Dbl) (hx : x.isFin = true) (hy : y.isFin = true) :
    (Dbl.add x y).isFin = true := by
  obtain ⟨q, rfl⟩ := (isFin_iff x).mp hx
  obtain ⟨r, rfl⟩ := (isFin_iff y).mp hy
  rfl

theorem sub_isFin (x y : Dbl) (hx : x.isFin = true) (hy : y.isFin = true) :
    (Dbl.sub x y).isFin = true := by
  obtain ⟨q, rfl⟩ := (isFin_iff x).mp hx
  obtain ⟨r, rfl⟩ := (isFin_iff y).mp hy
  rfl

theorem rvCell_isFin (m : Libm) {cfg : Config Dbl} (g : FactorGraph Dbl cfg)
    (hg : FiniteEngine g) (v f : Nat) : (rvCell (Dbl.arith m) g v f).isFin = true := by
  unfold rvCell
  exact add_isFin _ _
    (sub_isFin _ _ (colTotal_isFin m _ hg.2.1 v) (entry_isFin m _ hg.2.1 f v))
    (vecEntry_isFin m _ hg.2.2 v)

theorem rvTarget_isFin (m : Libm) {cfg : Config Dbl} (g : FactorGraph Dbl cfg)
    (hg : FiniteEngine g) (a b : Fin cfg.num_rvs) :
    (rvTarget (Dbl.arith m) g a b).isFin = true := by
  unfold rvTarget
  split
  · split
    · exact rvCell_isFin m g hg _ _
    · exact hg.1 a b
  · exact hg.1 a b

theorem damp_zero (m : Libm) {n : Nat} (cur prev : Fin n → Fin n → Dbl)
    (hcur : ∀ a b, (cur a b).isFin = true) :
    damp (Dbl.arith m) (.fin 0) cur prev = prev := by
  funext a b
  exact blend_zero (cur a b) (prev a b) (hcur a b)

theorem updateFactorMessages_zero (m : Libm) (hm : m.Regular) {cfg : Config Dbl}
    (g : FactorGraph Dbl cfg) (hd : cfg.lbp_damping = .fin 0)
    (hF : FactorsInRange cfg.num_rvs g.factors_) (hg : FiniteEngine g) :
    updateFactorMessages (Dbl.arith m) g = .ok g := by
  rw [updateFactorMessages_eq (Dbl.arith m) g hF, hd,
    damp_zero m _ _ (factorTarget_isFin m hm _ _ hg.1 hg.2.1 g.factors_)]

theorem updateRandomVariableMessages_zero (m : Libm) {cfg : Config Dbl}
    (g : FactorGraph Dbl cfg) (hd : cfg.lbp_damping = .fin 0)
    (hR : RvsInRange cfg.num_rvs g.rvs_) (hg : FiniteEngine g) :
    updateRandomVariableMessages (Dbl.arith m) g = .ok g := by
  rw [updateRandomVariableMessages_eq (Dbl.arith m) g hR, hd,
    damp_zero m _ _ (rvTarget_isFin m g hg)]

theorem lbpRound_zero (m : Libm) (hm : m.Regular) {cfg : Config Dbl}
    (hd : cfg.lbp_damping = .fin 0) (g : FactorGraph Dbl cfg)
    (hF : FactorsInRange cfg.num_rvs g.factors_) (hR : RvsInRange cfg.num_rvs g.rvs_)
    (hg : FiniteEngine g) : ∃ ms, lbpRound (Dbl.arith m) g = .ok (g, ms) := by
  obtain ⟨ms, hms⟩ := marginals_ok (Dbl.arith m) g
  refine ⟨ms, ?_⟩
  simp only [lbpRound, updateFactorMessages_zero m hm g hd hF hg,
    updateRandomVariableMessages_zero m g hd hR hg, hms, bind_ok_eq]
  rfl

theorem updateFactorMessages_frame (A : Arith F) {cfg : Config F} (g g1 : FactorGraph F cfg)
    (h : updateFactorMessages A g = .ok g1) :
    g1 = { g with factor_messages_ := g1.factor_messages_ } := by
  unfold updateFactorMessages at h
  cases hl : factorLoop A g.rv_messages_ g.factors_ 0 g.factor_messages_ with
  | error e =>
    rw [hl] at h
    cases h
  | ok fm =>
    rw [hl] at h
    cases h
    rfl

theorem updateRandomVariableMessages_frame (A : Arith F) {cfg : Config F}
    (g g1 : FactorGraph F cfg) (h : updateRandomVariableMessages A g = .ok g1) :
    g1 = { g with rv_messages_ := g1.rv_messages_ } := by
  unfold updateRandomVariableMessages at h
  cases hl : rvLoop A g g.rvs_ 0 g.rv_messages_ with
  | error e =>
    rw [hl] at h
    cases h
  | ok rvm =>
    rw [hl] at h
    cases h
    rfl

theorem lbpRound_frame (A : Arith F) {cfg : Config F} (g g1 : FactorGraph F cfg)
    (ms : List (Prediction F)) (h : lbpRound A g = .ok (g1, ms)) :
    g1 = { g with rv_messages_ := g1.rv_messages_, factor_messages_ := g1.factor_messages_ } := by
  unfold lbpRound at h
  cases h1 : updateFactorMessages A g with
  | error e =>
    rw [h1] at h
    cases h
  | ok ga =>
    rw [h1] at h
    cases h2 : updateRandomVariableMessages A ga with
    | error e =>
      simp only [bind_ok_eq, h2] at h
      cases h
    | ok gb =>
      simp only [bind_ok_eq, h2] at h
      cases h3 : marginals A gb with
      | error e =>
        rw [h3] at h
        cases h
      | ok mg =>
        rw [h3] at h
        cases h
        have e1 := updateFactorMessages_frame A g ga h1
        have e2 := updateRandomVariableMessages_frame A ga g1 h2
        rw [e2, e1]

theorem zip_self_fst_eq_snd {α : Type} (l : List α) : ∀ p ∈ l.zip l, p.1 = p.2 := by
  induction l with
  | nil =>
    intro p hp
    cases hp
  | cons x rest ih =>
    intro p hp
    rw [List.zip_cons_cons] at hp
    rcases List.mem_cons.mp hp with h | h
    · rw [h]
    · exact ih p h

theorem equal_self (m : Libm) (ms : List (Prediction Dbl)) (t : ℚ) (ht : 0 ≤ t) :
    equal (Dbl.arith m) ms ms (.fin t) = true := by
  unfold equal
  simp only [ne_eq, not_true_eq_false, if_false, List.all_eq_true]
  intro p hp
  rw [zip_self_fst_eq_snd ms p hp]
  show (!Dbl.lt (.fin t) (Dbl.abs (Dbl.sub p.2.log_likelihood_ratio p.2.log_likelihood_ratio)))
    = true
  have hnt : ¬ t < 0 := not_lt.mpr ht
  cases p.2.log_likelihood_ratio <;> simp [Dbl.sub, Dbl.neg, Dbl.add, Dbl.abs, Dbl.lt, hnt]

theorem updateFactorMessages_entry (A : Arith F) {cfg : Config F} (g : FactorGraph F cfg)
    (hr : FactorsInRange cfg.num_rvs g.factors_) (f v : Nat) (hf : f < g.factors_.length)
    (hv : v ∈ (g.factors_.get ⟨f, hf⟩).rv_dependencies) :
    ∃ g', updateFactorMessages A g = .ok g' ∧
      g'.rv_messages_ = g.rv_messages_ ∧
      g'.rv_initialization_ = g.rv_initialization_ ∧
      g'.factor_initialization_ = g.factor_initialization_ ∧
      entry A g'.factor_messages_ f v
        = A.add
            (A.mul cfg.lbp_damping (factorCell A g.rv_messages_ (g.factors_.get ⟨f, hf⟩) f v
              (entry A g.factor_messages_ f v)))
            (A.mul (A.sub A.one cfg.lbp_damping) (entry A g.factor_messages_ f v)) := by
  refine ⟨_, updateFactorMessages_eq A g hr, rfl, rfl, rfl, ?_⟩
  have hfn : f < cfg.num_rvs := Nat.lt_of_lt_of_le hf hr.1
  have hvn : v < cfg.num_rvs := hr.2 _ (List.get_mem _ _ _) v hv
  show entry A (damp A cfg.lbp_damping _ _) f v = _
  rw [entry_damp A _ _ _ f v hfn hvn, entry_factorTarget A _ _ _ f v hf hfn hvn hv]

theorem updateRandomVariableMessages_entry (A : Arith F) {cfg : Config F}
    (g : FactorGraph F cfg) (hr : RvsInRange cfg.num_rvs g.rvs_)
    (hidx : VariablesByIndex g.factors_ g.rvs_) (f v : Nat) (hf : f < g.factors_.length)
    (hv : v = (g.factors_.get ⟨f, hf⟩).primary_rv ∨
      v ∈ (g.factors_.get ⟨f, hf⟩).rv_dependencies) :
    ∃ g', updateRandomVariableMessages A g = .ok g' ∧
      g'.factor_messages_ = g.factor_messages_ ∧
      g'.rv_initialization_ = g.rv_initialization_ ∧
      g'.factor_initialization_ = g.factor_initialization_ ∧
      entry A g'.rv_messages_ v f
        = A.add (A.mul cfg.lbp_damping (rvCell A g v f))
            (A.mul (A.sub A.one cfg.lbp_damping) (entry A g.rv_messages_ v f)) := by
  refine ⟨_, updateRandomVariableMessages_eq A g hr, rfl, rfl, rfl, ?_⟩
  have hmem : v ∈ (g.factors_.get ⟨f, hf⟩).referencedRVs := by
    unfold Factor.referencedRVs
    exact List.mem_insert_iff.mpr hv
  have hl := hidx f hf v hmem
  unfold listedAt at hl
  cases hopt : g.rvs_[v]? with
  | none => simp [hopt] at hl
  | some rv =>
    simp only [hopt, decide_eq_true_eq] at hl
    have hvl : v < g.rvs_.length := by
      by_contra hcon
      rw [List.getElem?_eq_none (Nat.le_of_not_lt hcon)] at hopt
      cases hopt
    have hrv : g.rvs_.get ⟨v, hvl⟩ = rv := by
      rw [List.getElem?_eq_getElem hvl] at hopt
      exact Option.some.inj hopt
    have hvn : v < cfg.num_rvs := Nat.lt_of_lt_of_le hvl hr.1
    have hfn : f < cfg.num_rvs := hr.2 _ (List.get_mem _ _ _) f (hrv ▸ hl)
    show entry A (damp A cfg.lbp_damping _ _) v f = _
    rw [entry_damp A _ _ _ v f hvn hfn, entry_rvTarget A g v f hvl hvn hfn (hrv ▸ hl)]

theorem setupLBP_eq (A : Arith F) {cfg : Config F} (g : FactorGraph F cfg)
    (observed : List VariableAssignment) (hfac : cfg.num_rvs ≤ g.factors_.length) :
    ∃ init', setupLBP A g observed = .ok { g with
        rv_messages_ := fun _ _ => A.zero
        factor_messages_ := fun _ _ => A.zero
        rv_initialization_ := init'
        factor_initialization_ := fun _ => A.zero } ∧
      ∀ (i : Nat) (hi : i < cfg.num_rvs),
        init' ⟨i, hi⟩ = A.log (A.div
          (A.sub A.one (g.prob_ (g.factors_.get ⟨i, Nat.lt_of_lt_of_le hi hfac⟩)
            (relevantObserved (g.factors_.get ⟨i, Nat.lt_of_lt_of_le hi hfac⟩) observed)))
          (g.prob_ (g.factors_.get ⟨i, Nat.lt_of_lt_of_le hi hfac⟩)
            (relevantObserved (g.factors_.get ⟨i, Nat.lt_of_lt_of_le hi hfac⟩) observed))) := by
  have hl : ∀ i ∈ List.range cfg.num_rvs, i < g.factors_.length :=
    fun i hi => Nat.lt_of_lt_of_le (List.mem_range.mp hi) hfac
  obtain ⟨init', hrun, _, hin⟩ := setupLoop_eq A g observed (List.range cfg.num_rvs) hl
    (fun _ => A.zero)
  refine ⟨init', ?_, ?_⟩
  · simp only [setupLBP, hrun, bind_ok_eq]
    rfl
  · intro i hi
    exact hin ⟨i, hi⟩ (Nat.lt_of_lt_of_le hi hfac) (List.mem_range.mpr hi)

theorem rational_regular : Libm.rational.Regular where
  tanh_range := by
    intro q
    refine ⟨q / (1 + |q|), rfl, ?_⟩
    have hpos : (0 : ℚ) < 1 + |q| := by positivity
    rw [abs_div, abs_of_pos hpos, div_le_one hpos]
    linarith [abs_nonneg q]
  atanh_fin := by
    intro q hq
    exact ⟨q / (1 - |q|), by simp [Libm.rational, hq]⟩
  log_fin := by
    intro q hq
    have h1 : ¬ q < 0 := not_lt.mpr (le_of_lt hq)
    have h2 : ¬ q = 0 := ne_of_gt hq
    exact ⟨2 * (q - 1) / (q + 1), by simp [Libm.rational, h1, h2]⟩

theorem lbpRound_ok (A : Arith F) {cfg : Config F} (g : FactorGraph F cfg)
    (hF : FactorsInRange cfg.num_rvs g.factors_) (hR : RvsInRange cfg.num_rvs g.rvs_) :
    ∃ g2 ms, lbpRound A g = .ok (g2, ms) ∧ g2.factors_ = g.factors_ ∧ g2.rvs_ = g.rvs_ := by
  let g1 : FactorGraph F cfg := { g with
    factor_messages_ := damp A cfg.lbp_damping
      (factorTarget A g.rv_messages_ g.factors_ g.factor_messages_) g.factor_messages_ }
  have h1 : updateFactorMessages A g = .ok g1 := updateFactorMessages_eq A g hF
  let g2 : FactorGraph F cfg := { g1 with
    rv_messages_ := damp A cfg.lbp_damping (rvTarget A g1) g1.rv_messages_ }
  have h2 : updateRandomVariableMessages A g1 = .ok g2 :=
    updateRandomVariableMessages_eq A g1 hR
  obtain ⟨ms, hms⟩ := marginals_ok A g2
  refine ⟨g2, ms, ?_, rfl, rfl⟩
  simp only [lbpRound, h1, h2, hms, bind_ok_eq]
  rfl

theorem lbpLoop_ok (A : Arith F) (tol : F) {cfg : Config F} (remaining : Nat) :
    ∀ (itr : Nat) (g : FactorGraph F cfg), FactorsInRange cfg.num_rvs g.factors_ →
      RvsInRange cfg.num_rvs g.rvs_ →
      ∃ r, lbpLoop A tol remaining itr g = .ok r ∧ r.2 ≤ itr + remaining := by
  induction remaining with
  | zero =>
    intro itr g _ _
    exact ⟨(g, itr), rfl, Nat.le_refl _⟩
  | succ k ih =>
    intro itr g hF hR
    obtain ⟨g2, ms, hround, hfs, hrs⟩ := lbpRound_ok A g hF hR
    by_cases heq : equal A g2.previous_marginals_ ms tol = true
    · refine ⟨(g2, itr), ?_, by omega⟩
      simp only [lbpLoop, hround, bind_ok_eq, heq, if_true]
      rfl
    · obtain ⟨r, hr, hle⟩ := ih (itr + 1) { g2 with previous_marginals_ := ms }
        (hfs ▸ hF) (hrs ▸ hR)
      refine ⟨r, ?_, by omega⟩
      simp only [lbpLoop, hround, bind_ok_eq]
      rw [if_neg heq]
      exact hr

theorem mapM_length {α β : Type} (f : α → Except Err β) (l : List α) (ys : List β)
    (h : l.mapM f = .ok ys) : ys.length = l.length := by
  induction l generalizing ys with
  | nil =>
    simp only [List.mapM_nil] at h
    cases h
    rfl
  | cons x rest ih =>
    rw [List.mapM_cons] at h
    cases hx : f x with
    | error e =>
      rw [hx] at h
      cases h
    | ok y =>
      rw [hx] at h
      cases hr : rest.mapM f with
      | error e =>
        simp only [bind_ok_eq, hr] at h
        cases h
      | ok zs =>
        simp only [bind_ok_eq, hr] at h
        cases h
        simp [ih zs hr]

theorem marginals_length (A : Arith F) {cfg : Config F} (g : FactorGraph F cfg)
    (ms : List (Prediction F)) (h : marginals A g = .ok ms) : ms.length = cfg.num_rvs := by
  have := mapM_length (predict A g) (List.range cfg.num_rvs) ms h
  simpa using this

theorem equal_nil_left (A : Arith F) (ms : List (Prediction F)) (tol : F)
    (h : 0 < ms.length) : equal A [] ms tol = false := by
  unfold equal
  have hne : ([] : List (Prediction F)).length ≠ ms.length := by
    simp only [List.length_nil]
    omega
  rw [if_pos hne]

theorem lbpRound_withPrev (A : Arith F) {cfg : Config F} (g : FactorGraph F cfg)
    (hF : FactorsInRange cfg.num_rvs g.factors_) (hR : RvsInRange cfg.num_rvs g.rvs_)
    (P : List (Prediction F)) :
    ∃ g2 ms, lbpRound A g = .ok (g2, ms) ∧ marginals A g2 = .ok ms ∧
      g2.factors_ = g.factors_ ∧ g2.rvs_ = g.rvs_ ∧
      lbpRound A { g with previous_marginals_ := P }
        = .ok ({ g2 with previous_marginals_ := P }, ms) := by
  let g1 : FactorGraph F cfg := { g with
    factor_messages_ := damp A cfg.lbp_damping
      (factorTarget A g.rv_messages_ g.factors_ g.factor_messages_) g.factor_messages_ }
  have h1 : updateFactorMessages A g = .ok g1 := updateFactorMessages_eq A g hF
  let g2 : FactorGraph F cfg := { g1 with
    rv_messages_ := damp A cfg.lbp_damping (rvTarget A g1) g1.rv_messages_ }
  have h2 : updateRandomVariableMessages A g1 = .ok g2 :=
    updateRandomVariableMessages_eq A g1 hR
  have h1p : updateFactorMessages A { g with previous_marginals_ := P }
      = .ok { g1 with previous_marginals_ := P } :=
    updateFactorMessages_eq A { g with previous_marginals_ := P } hF
  have h2p : updateRandomVariableMessages A { g1 with previous_marginals_ := P }
      = .ok { g2 with previous_marginals_ := P } :=
    updateRandomVariableMessages_eq A { g1 with previous_marginals_ := P } hR
  obtain ⟨ms, hms⟩ := marginals_ok A g2
  have hmsp : marginals A { g2 with previous_marginals_ := P } = .ok ms := hms
  refine ⟨g2, ms, ?_, hms, rfl, rfl, ?_⟩
  · simp only [lbpRound, h1, h2, hms, bind_ok_eq]
    rfl
  · simp only [lbpRound, h1p, h2p, hmsp, bind_ok_eq]
    rfl

theorem lbpLoop_fresh (A : Arith F) (tol : F) {cfg : Config F} (g0 : FactorGraph F cfg)
    (hn : 0 < cfg.num_rvs) (remaining : Nat) :
    ∀ (i : Nat) (gi : FactorGraph F cfg) (P : List (Prediction F)),
      FactorsInRange cfg.num_rvs gi.factors_ → RvsInRange cfg.num_rvs gi.rvs_ →
      roundsFrom A i g0 = .ok gi → (i = 0 → P = []) → (1 ≤ i → marginals A gi = .ok P) →
      (∀ t, 2 ≤ t → t ≤ i → ¬ StableRound A tol g0 t) →
      ∃ r, lbpLoop A tol remaining i { gi with previous_marginals_ := P } = .ok r ∧
        r.2 ≤ i + remaining ∧
        (r.2 < i + remaining → 1 ≤ r.2 ∧ StableRound A tol g0 (r.2 + 1)) ∧
        (∀ t, 2 ≤ t → t ≤ r.2 → ¬ StableRound A tol g0 t) := by
  induction remaining with
  | zero =>
    intro i gi P _ _ _ _ _ hno
    exact ⟨(_, i), rfl, Nat.le_refl _, fun h => absurd h (Nat.lt_irrefl _), hno⟩
  | succ k ih =>
    intro i gi P hF hR hgi hP0 hP1 hno
    obtain ⟨g2, ms, hround, hms, hfs, hrs, hroundP⟩ := lbpRound_withPrev A gi hF hR P
    have hnext : roundsFrom A (i + 1) g0 = .ok g2 := by
      simp only [roundsFrom, hgi, bind_ok_eq, hround]
      rfl
    have hafter : marginalsAfter A g0 (i + 1) = .ok ms := by
      simp only [marginalsAfter, hnext, bind_ok_eq, hms]
    by_cases heq : equal A P ms tol = true
    · have hi : 1 ≤ i := by
        by_contra hcon
        have hi0 : i = 0 := by omega
        have hlen : 0 < ms.length := by
          rw [marginals_length A g2 ms hms]
          exact hn
        rw [hP0 hi0, equal_nil_left A ms tol hlen] at heq
        cases heq
      have hprevious : marginalsAfter A g0 i = .ok P := by
        simp only [marginalsAfter, hgi, bind_ok_eq, hP1 hi]
      refine ⟨({ g2 with previous_marginals_ := P }, i), ?_, by omega, ?_, hno⟩
      · simp only [lbpLoop, hroundP, bind_ok_eq, heq, if_true]
        rfl
      · intro _
        exact ⟨hi, P, ms, by simpa using hprevious, hafter, heq⟩
    · have hno2 : ∀ t, 2 ≤ t → t ≤ i + 1 → ¬ StableRound A tol g0 t := by
        intro t ht2 hti
        by_cases hlast : t = i + 1
        · subst hlast
          rintro ⟨m1, m2, h1, h2, h3⟩
          have hi : 1 ≤ i := by omega
          have hprevious : marginalsAfter A g0 i = .ok P := by
            simp only [marginalsAfter, hgi, bind_ok_eq, hP1 hi]
          simp only [Nat.add_sub_cancel] at h1
          rw [hprevious] at h1
          rw [hafter] at h2
          cases h1
          cases h2
          exact heq h3
        · exact hno t ht2 (by omega)
      obtain ⟨r, hr, hle, hbreak, hnone⟩ := ih (i + 1) g2 ms (hfs ▸ hF) (hrs ▸ hR) hnext
        (fun h => absurd h (Nat.succ_ne_zero i)) (fun _ => hms) hno2
      refine ⟨r, ?_, by omega, ?_, hnone⟩
      · simp only [lbpLoop, hroundP, bind_ok_eq]
        rw [if_neg heq]
        exact hr
      · intro hlt
        exact hbreak (by omega)

theorem mapM_get {α β : Type} (f : α → Except Err β) (l : List α) (ys : List β)
    (h : l.mapM f = .ok ys) :
    ∀ (i : Nat) (hi : i < ys.length) (hl : i < l.length),
      f (l.get ⟨i, hl⟩) = .ok (ys.get ⟨i, hi⟩) := by
  induction l generalizing ys with
  | nil =>
    intro i _ hl
    cases hl
  | cons x rest ih =>
    rw [List.mapM_cons] at h
    cases hx : f x with
    | error e =>
      rw [hx] at h
      cases h
    | ok y =>
      rw [hx] at h
      cases hr : rest.mapM f with
      | error e =>
        simp only [bind_ok_eq, hr] at h
        cases h
      | ok zs =>
        simp only [bind_ok_eq, hr] at h
        cases h
        intro i hi hl
        cases i with
        | zero => exact hx
        | succ k => exact ih zs hr k (Nat.lt_of_succ_lt_succ hi) (Nat.lt_of_succ_lt_succ hl)

theorem all_zip_iff {α : Type} (p : α × α → Bool) (l1 l2 : List α)
    (hlen : l1.length = l2.length) :
    (l1.zip l2).all p = true ↔
      ∀ (i : Nat) (h1 : i < l1.length) (h2 : i < l2.length),
        p (l1.get ⟨i, h1⟩, l2.get ⟨i, h2⟩) = true := by
  induction l1 generalizing l2 with
  | nil =>
    cases l2 with
    | nil => simp
    | cons y ys => simp at hlen
  | cons x xs ih =>
    cases l2 with
    | nil => simp at hlen
    | cons y ys =>
      have hl : xs.length = ys.length := by simpa using hlen
      rw [List.zip_cons_cons, List.all_cons, Bool.and_eq_true, ih ys hl]
      constructor
      · rintro ⟨h0, hrest⟩ i h1 h2
        cases i with
        | zero => exact h0
        | succ k => exact hrest k (Nat.lt_of_succ_lt_succ h1) (Nat.lt_of_succ_lt_succ h2)
      · intro h
        exact ⟨h 0 (Nat.zero_lt_succ _) (Nat.zero_lt_succ _),
          fun i h1 h2 => h (i + 1) (Nat.succ_lt_succ h1) (Nat.succ_lt_succ h2)⟩

theorem equal_iff (A : Arith F) (m1 m2 : List (Prediction F)) (tol : F) :
    equal A m1 m2 tol = true ↔
      m1.length = m2.length ∧
        ∀ (i : Nat) (h1 : i < m1.length) (h2 : i < m2.length),
          A.lt tol (A.abs (A.sub (m1.get ⟨i, h1⟩).log_likelihood_ratio
            (m2.get ⟨i, h2⟩).log_likelihood_ratio)) = false := by
  unfold equal
  by_cases hlen : m1.length = m2.length
  · rw [if_neg (not_not.mpr hlen), all_zip_iff _ m1 m2 hlen]
    constructor
    · intro h
      refine ⟨hlen, fun i h1 h2 => ?_⟩
      have := h i h1 h2
      simpa using this
    · rintro ⟨_, h⟩ i h1 h2
      have := h i h1 h2
      simpa using this
  · rw [if_pos hlen]
    constructor
    · intro h
      cases h
    · rintro ⟨h, _⟩
      exact absurd h hlen

theorem abs_sub_comm (x y : Dbl) : Dbl.abs (Dbl.sub x y) = Dbl.abs (Dbl.sub y x) := by
  cases x <;> cases y <;> simp [Dbl.sub, Dbl.neg, Dbl.add, Dbl.abs]
  rename_i a b
  rw [show a + -b = -(b + -a) by ring, abs_neg]

theorem not_lt_iff_le (x tol : Dbl) (hx : x ≠ .nan) (ht : tol ≠ .nan) :
    Dbl.lt tol x = false ↔ Dbl.le x tol = true := by
  cases x <;> cases tol <;> simp [Dbl.lt, Dbl.le] at hx ht ⊢

theorem reach_trans (A : Arith F) {cfg : Config F} (g0 g1 g2 : FactorGraph F cfg)
    (h01 : Reach A g0 g1) (h12 : Reach A g1 g2) : Reach A g0 g2 := by
  induction h12 with
  | start => exact h01
  | factorStep _ hstep ih => exact Reach.factorStep ih hstep
  | rvStep _ hstep ih => exact Reach.rvStep ih hstep
  | record marg _ ih => exact Reach.record marg ih

theorem reach_frame (A : Arith F) {cfg : Config F} (g0 g : FactorGraph F cfg)
    (h : Reach A g0 g) :
    g.prob_ = g0.prob_ ∧ g.factors_ = g0.factors_ ∧ g.rvs_ = g0.rvs_ ∧
      g.rv_initialization_ = g0.rv_initialization_ ∧
      g.factor_initialization_ = g0.factor_initialization_ := by
  induction h with
  | start => exact ⟨rfl, rfl, rfl, rfl, rfl⟩
  | factorStep _ hstep ih =>
    rw [updateFactorMessages_frame A _ _ hstep]
    exact ih
  | rvStep _ hstep ih =>
    rw [updateRandomVariableMessages_frame A _ _ hstep]
    exact ih
  | record marg _ ih => exact ih

theorem lbpLoop_reach (A : Arith F) (tol : F) {cfg : Config F} (remaining : Nat) :
    ∀ (itr : Nat) (g : FactorGraph F cfg) (r : FactorGraph F cfg × Nat),
      lbpLoop A tol remaining itr g = .ok r → Reach A g r.1 := by
  induction remaining with
  | zero =>
    intro itr g r h
    simp only [lbpLoop] at h
    cases h
    exact Reach.start
  | succ k ih =>
    intro itr g r h
    simp only [lbpLoop, lbpRound] at h
    cases h1 : updateFactorMessages A g with
    | error e =>
      rw [h1] at h
      cases h
    | ok g1 =>
      rw [h1] at h
      simp only [bind_ok_eq] at h
      cases h2 : updateRandomVariableMessages A g1 with
      | error e =>
        rw [h2] at h
        cases h
      | ok g2 =>
        rw [h2] at h
        simp only [bind_ok_eq] at h
        cases h3 : marginals A g2 with
        | error e =>
          rw [h3] at h
          cases h
        | ok marg =>
          rw [h3] at h
          simp only [bind_ok_eq] at h
          have hr2 : Reach A g g2 := Reach.rvStep (Reach.factorStep Reach.start h1) h2
          by_cases heq : equal A g2.previous_marginals_ marg tol = true
          · have h' : (pure (g2, itr) : Except Err (FactorGraph F cfg × Nat)) = .ok r := by
              simpa [heq] using h
            cases h'
            exact hr2
          · have h' : lbpLoop A tol k (itr + 1) { g2 with previous_marginals_ := marg }
                = .ok r := by
              simpa [heq] using h
            exact reach_trans A g _ r.1 (Reach.record marg hr2) (ih _ _ r h')

theorem runLBP_reach (A : Arith F) (tol : F) {cfg : Config F} (g g1 : FactorGraph F cfg)
    (observed : List VariableAssignment) (h : runLBP A tol g observed = .ok g1) :
    ∃ g0, setupLBP A g observed = .ok g0 ∧ Reach A g0 g1 := by
  simp only [runLBP, runLBPItr] at h
  cases h0 : setupLBP A g observed with
  | error e =>
    rw [h0] at h
    cases h
  | ok g0 =>
    rw [h0] at h
    simp only [bind_ok_eq] at h
    cases hl : lbpLoop A tol cfg.lbp_max_iter 0 g0 with
    | error e =>
      rw [hl] at h
      cases h
    | ok r =>
      rw [hl] at h
      cases h
      exact ⟨g0, rfl, lbpLoop_reach A tol _ _ _ r hl⟩

theorem blend_zero_zero (q : ℚ) :
    Dbl.add (Dbl.mul (.fin 0) (.fin q)) (Dbl.mul (.fin 0) (Dbl.sub (.fin 1) (.fin q)))
      = .fin 0 := by
  simp [Dbl.add, Dbl.mul, Dbl.sub, Dbl.neg]

theorem reach_sparse (m : Libm) {cfg : Config Dbl} (g0 g : FactorGraph Dbl cfg) (q : ℚ)
    (hd : cfg.lbp_damping = .fin q)
    (hF : FactorsInRange cfg.num_rvs g0.factors_) (hR : RvsInRange cfg.num_rvs g0.rvs_)
    (hL : ListedAreReferenced g0.factors_ g0.rvs_)
    (hfm0 : ∀ a b, g0.factor_messages_ a b = .fin 0)
    (hrv0 : ∀ a b, g0.rv_messages_ a b = .fin 0)
    (h : Reach (Dbl.arith m) g0 g) :
    (∀ a b : Fin cfg.num_rvs, dependsOn g0.factors_ a.val b.val = false →
      g.factor_messages_ a b = .fin 0) ∧
    (∀ a b : Fin cfg.num_rvs, references g0.factors_ b.val a.val = false →
      g.rv_messages_ a b = .fin 0) := by
  induction h with
  | start => exact ⟨fun a b _ => hfm0 a b, fun a b _ => hrv0 a b⟩
  | @factorStep g g1 hreach hstep ih =>
    obtain ⟨_, hfs, _, _, _⟩ := reach_frame (Dbl.arith m) g0 g hreach
    have heq := updateFactorMessages_eq (Dbl.arith m) g (hfs ▸ hF)
    rw [heq] at hstep
    cases hstep
    refine ⟨?_, ih.2⟩
    intro a b hdep
    show Dbl.add (Dbl.mul (factorTarget (Dbl.arith m) g.rv_messages_ g.factors_
      g.factor_messages_ a b) cfg.lbp_damping)
      (Dbl.mul (g.factor_messages_ a b) (Dbl.sub (.fin 1) cfg.lbp_damping)) = .fin 0
    have htarget : factorTarget (Dbl.arith m) g.rv_messages_ g.factors_ g.factor_messages_ a b
        = g.factor_messages_ a b := by
      unfold factorTarget
      rw [hfs]
      unfold dependsOn at hdep
      cases hopt : g0.factors_[a.val]? with
      | none => rfl
      | some factor =>
        rw [hopt] at hdep
        have hnot : ¬ b.val ∈ factor.rv_dependencies := by simpa using hdep
        simp [hnot]
    rw [htarget, ih.1 a b hdep, hd]
    exact blend_zero_zero q
  | @rvStep g g1 hreach hstep ih =>
    obtain ⟨_, hfs, hrs, _, _⟩ := reach_frame (Dbl.arith m) g0 g hreach
    have heq := updateRandomVariableMessages_eq (Dbl.arith m) g (hrs ▸ hR)
    rw [heq] at hstep
    cases hstep
    refine ⟨ih.1, ?_⟩
    intro a b href
    show Dbl.add (Dbl.mul (rvTarget (Dbl.arith m) g a b) cfg.lbp_damping)
      (Dbl.mul (g.rv_messages_ a b) (Dbl.sub (.fin 1) cfg.lbp_damping)) = .fin 0
    have htarget : rvTarget (Dbl.arith m) g a b = g.rv_messages_ a b := by
      unfold rvTarget
      rw [hrs]
      cases hopt : g0.rvs_[a.val]? with
      | none => rfl
      | some rv =>
        have hal : a.val < g0.rvs_.length := by
          by_contra hcon
          rw [List.getElem?_eq_none (Nat.le_of_not_lt hcon)] at hopt
          cases hopt
        have hrv : g0.rvs_.get ⟨a.val, hal⟩ = rv := by
          rw [List.getElem?_eq_getElem hal] at hopt
          exact Option.some.inj hopt
        have hnot : ¬ b.val ∈ rv.factor_indices := by
          intro hmem
          have := hL a.val hal b.val (hrv ▸ hmem)
          rw [this] at href
          cases href
        simp [hnot]
    rw [htarget, ih.2 a b href, hd]
    exact blend_zero_zero q
  | record marg _ ih => exact ih

theorem setupLBP_zero (A : Arith F) {cfg : Config F} (g g0 : FactorGraph F cfg)
    (observed : List VariableAssignment) (h : setupLBP A g observed = .ok g0) :
    g0.factors_ = g.factors_ ∧ g0.rvs_ = g.rvs_ ∧
      g0.rv_messages_ = (fun _ _ => A.zero) ∧ g0.factor_messages_ = (fun _ _ => A.zero) := by
  unfold setupLBP at h
  cases hl : setupLoop A g observed (List.range cfg.num_rvs) (fun _ => A.zero) with
  | error e =>
    rw [hl] at h
    cases h
  | ok init =>
    rw [hl] at h
    cases h
    exact ⟨rfl, rfl, rfl, rfl⟩

theorem runLBP_ok (A : Arith F) (tol : F) {cfg : Config F} (g : FactorGraph F cfg)
    (observed : List VariableAssignment) (hfac : cfg.num_rvs ≤ g.factors_.length)
    (hF : FactorsInRange cfg.num_rvs g.factors_) (hR : RvsInRange cfg.num_rvs g.rvs_) :
    ∃ g1, runLBP A tol g observed = .ok g1 := by
  obtain ⟨init', hsetup, _⟩ := setupLBP_eq A g observed hfac
  let g0 : FactorGraph F cfg := { g with
    rv_messages_ := fun _ _ => A.zero
    factor_messages_ := fun _ _ => A.zero
    rv_initialization_ := init'
    factor_initialization_ := fun _ => A.zero }
  have hsetup0 : setupLBP A g observed = .ok g0 := hsetup
  obtain ⟨r, hr, _⟩ := lbpLoop_ok A tol cfg.lbp_max_iter 0 g0 hF hR
  refine ⟨r.1, ?_⟩
  simp only [runLBP, runLBPItr, hsetup0, bind_ok_eq, hr]
  rfl

theorem predict_masked (m : Libm) {cfg : Config Dbl} (g : FactorGraph Dbl cfg)
    (factors : List Factor)
    (hsp : ∀ a b : Fin cfg.num_rvs, dependsOn factors a.val b.val = false →
      g.factor_messages_ a b = .fin 0)
    (v : Nat) (hv : v < cfg.num_rvs) :
    ∃ p, predict (Dbl.arith m) g v = .ok p ∧
      p.log_likelihood_ratio = Dbl.add (g.rv_initialization_ ⟨v, hv⟩)
        (sumRedux (Dbl.arith m) (List.ofFn fun f : Fin cfg.num_rvs =>
          if dependsOn factors f.val v = true then g.factor_messages_ f ⟨v, hv⟩
          else .fin 0)) ∧
      (p.prob_bit_is_one = 1 ↔ Dbl.lt p.log_likelihood_ratio (.fin 0) = true) := by
  have hcol : (fun f : Fin cfg.num_rvs => g.factor_messages_ f ⟨v, hv⟩)
      = (fun f : Fin cfg.num_rvs =>
          if dependsOn factors f.val v = true then g.factor_messages_ f ⟨v, hv⟩
          else .fin 0) := by
    funext f
    by_cases hdep : dependsOn factors f.val v = true
    · rw [if_pos hdep]
    · rw [if_neg hdep]
      exact hsp f ⟨v, hv⟩ (by simpa using hdep)
  refine ⟨_, predict_eq (Dbl.arith m) g v hv, ?_, ?_⟩
  · show Dbl.add _ (sumRedux _ (List.ofFn fun f => g.factor_messages_ f ⟨v, hv⟩)) = _
    rw [hcol]
  · show (if (Dbl.arith m).lt _ (Dbl.arith m).zero = true then 1 else 0) = 1 ↔ _
    by_cases hlt : (Dbl.arith m).lt ((Dbl.arith m).add (g.rv_initialization_ ⟨v, hv⟩)
        (sumRedux (Dbl.arith m) (List.ofFn fun f => g.factor_messages_ f ⟨v, hv⟩)))
        (Dbl.arith m).zero = true
    · simp only [hlt, if_true, true_iff]
      exact hlt
    · simp only [hlt]
      constructor
      · intro h
        cases h
      · intro h
        exact absurd h hlt

theorem foldl_add_zero (l : List Dbl) (hl : ∀ x ∈ l, x = .fin 0) :
    l.foldl Dbl.add (.fin 0) = .fin 0 := by
  induction l with
  | nil => rfl
  | cons x rest ih =>
    have hx : x = .fin 0 := hl x (List.mem_cons_self _ _)
    subst hx
    have h0 : Dbl.add (.fin 0) (.fin 0) = .fin 0 := by simp [Dbl.add]
    simp only [List.foldl_cons, h0]
    exact ih (fun y hy => hl y (List.mem_cons_of_mem _ hy))

theorem sumRedux_zero (m : Libm) (l : List Dbl) (hl : ∀ x ∈ l, x = .fin 0) :
    sumRedux (Dbl.arith m) l = .fin 0 := by
  cases l with
  | nil => rfl
  | cons x rest =>
    have hx : x = .fin 0 := hl x (List.mem_cons_self _ _)
    subst hx
    exact foldl_add_zero rest (fun y hy => hl y (List.mem_cons_of_mem _ hy))

theorem toOption_eq_some {α : Type} (r : Except Err α) (a : α) (h : r.toOption = some a) :
    r = .ok a := by
  cases r with
  | error e => cases h
  | ok b =>
    have : b = a := by
      simpa [Except.toOption] using h
    rw [this]

theorem stoul_error_iff (str : List Char) :
    (∃ e, stoul str = .error e) ↔ Unparsable str := by
  unfold stoul Unparsable
  by_cases h1 : numericPrefix str = []
  · simp [h1]
  · by_cases h2 : ulongMax < digitsValue (numericPrefix str)
    · simp [h1, h2]
    · by_cases h3 : (signAndRest (List.dropWhile isSpaceC str)).1 = true
      · simp [h1, h2, h3]
      · simp [h1, h2, h3]

theorem stoul_ok_of_parsable (str : List Char) (h : ¬ Unparsable str) :
    stoul str = .ok (fieldValue str) := by
  cases hs : stoul str with
  | error e => exact absurd ((stoul_error_iff str).mp ⟨e, hs⟩) h
  | ok v => simp [fieldValue, hs]

theorem depLoop_ok (f : Nat) (toks : List (List Char)) :
    ∀ (deps : List Nat) (rvs : List (Nat × RandomVariable)),
      (∀ t ∈ toks, ¬ Unparsable t) →
      depLoop f toks deps rvs = .ok
        ((toks.map fieldValue).foldl (fun s v => setInsert v s) deps,
          (toks.map fieldValue).foldl (fun m v => addReference m v f) rvs) := by
  induction toks with
  | nil =>
    intro deps rvs _
    rfl
  | cons t rest ih =>
    intro deps rvs h
    have ht := stoul_ok_of_parsable t (h t (List.mem_cons_self _ _))
    simp only [depLoop, ht, bind_ok_eq, List.map_cons, List.foldl_cons]
    exact ih _ _ (fun x hx => h x (List.mem_cons_of_mem _ hx))

theorem depLoop_error (f : Nat) (toks : List (List Char)) :
    ∀ (deps : List Nat) (rvs : List (Nat × RandomVariable)),
      (∃ t ∈ toks, Unparsable t) → ∃ e, depLoop f toks deps rvs = .error e := by
  induction toks with
  | nil =>
    rintro deps rvs ⟨t, ht, _⟩
    cases ht
  | cons t rest ih =>
    rintro deps rvs ⟨x, hx, hbad⟩
    cases hs : stoul t with
    | error e =>
      exact ⟨e, by simp only [depLoop, hs, bind_error_eq]⟩
    | ok v =>
      have hnot : ¬ Unparsable t := by
        intro hu
        obtain ⟨e, he⟩ := (stoul_error_iff t).mpr hu
        rw [he] at hs
        cases hs
      have hxr : x ∈ rest := by
        rcases List.mem_cons.mp hx with h | h
        · exact absurd (h ▸ hbad) hnot
        · exact h
      obtain ⟨e, he⟩ := ih (setInsert v deps) (addReference rvs v f) ⟨x, hxr, hbad⟩
      exact ⟨e, by simp only [depLoop, hs, bind_ok_eq, he]⟩

theorem loadLoop_ok (lines : List String) :
    ∀ (factors : List Factor) (m : List (Nat × RandomVariable)),
      (∀ line ∈ lines, ∀ fld ∈ indexFields line.toList, ¬ Unparsable fld) →
      loadLoop lines factors m =
        .ok (factors ++ lines.map lineFactor, loadRefs lines factors.length m) := by
  induction lines with
  | nil =>
    intro factors m _
    simp [loadLoop, loadRefs]
  | cons line rest ih =>
    intro factors m h
    have hl := h line (List.mem_cons_self _ _)
    have hp := stoul_ok_of_parsable _ (hl _ (List.mem_cons_self _ _))
    have hd := depLoop_ok factors.length ((lineTokens line.toList).drop 2) []
      (addReference m (fieldValue (primaryField line.toList)) factors.length)
      (fun t ht => hl t (List.mem_cons_of_mem _ ht))
    simp only [loadLoop, hp, bind_ok_eq, hd]
    rw [ih _ _ (fun x hx => h x (List.mem_cons_of_mem _ hx))]
    simp [lineFactor, loadRefs, lineRefs]

theorem loadLoop_error (lines : List String) :
    ∀ (factors : List Factor) (m : List (Nat × RandomVariable)),
      (∃ line ∈ lines, ∃ fld ∈ indexFields line.toList, Unparsable fld) →
      ∃ e, loadLoop lines factors m = .error e := by
  induction lines with
  | nil =>
    rintro factors m ⟨l, hl, _⟩
    cases hl
  | cons line rest ih =>
    rintro factors m ⟨l, hl, hbad⟩
    by_cases hline : ∃ fld ∈ indexFields line.toList, Unparsable fld
    · obtain ⟨fld, hfld, hu⟩ := hline
      cases hs : stoul (primaryField line.toList) with
      | error e => exact ⟨e, by simp only [loadLoop, hs, bind_error_eq]⟩
      | ok v =>
        have hnot : ¬ Unparsable (primaryField line.toList) := by
          intro hu2
          obtain ⟨e, he⟩ := (stoul_error_iff _).mpr hu2
          rw [he] at hs
          cases hs
        have hmem : fld ∈ (lineTokens line.toList).drop 2 := by
          rcases List.mem_cons.mp hfld with h | h
          · exact absurd (h ▸ hu) hnot
          · exact h
        obtain ⟨e, he⟩ := depLoop_error factors.length _ []
          (addReference m v factors.length) ⟨fld, hmem, hu⟩
        exact ⟨e, by simp only [loadLoop, hs, bind_ok_eq, he, bind_error_eq]⟩
    · have hall : ∀ fld ∈ indexFields line.toList, ¬ Unparsable fld :=
        fun fld hf hu => hline ⟨fld, hf, hu⟩
      have hp := stoul_ok_of_parsable _ (hall _ (List.mem_cons_self _ _))
      have hd := depLoop_ok factors.length ((lineTokens line.toList).drop 2) []
        (addReference m (fieldValue (primaryField line.toList)) factors.length)
        (fun t ht => hall t (List.mem_cons_of_mem _ ht))
      have hlr : l ∈ rest := by
        rcases List.mem_cons.mp hl with h | h
        · exact absurd (h ▸ hbad) hline
        · exact h
      obtain ⟨e, he⟩ := ih (factors ++ [⟨String.mk ((lineTokens line.toList).headD []),
        fieldValue (primaryField line.toList),
        (((lineTokens line.toList).drop 2).map fieldValue).foldl (fun s v => setInsert v s) []⟩])
        ((((lineTokens line.toList).drop 2).map fieldValue).foldl
          (fun m v => addReference m v factors.length)
          (addReference m (fieldValue (primaryField line.toList)) factors.length))
        ⟨l, hlr, hbad⟩
      exact ⟨e, by simp only [loadLoop, hp, bind_ok_eq, hd, he]⟩

theorem loadLoop_result (lines : List String) (factors : List Factor)
    (m : List (Nat × RandomVariable))
    (h : loadLoop lines [] [] = .ok (factors, m)) :
    (∀ line ∈ lines, ∀ fld ∈ indexFields line.toList, ¬ Unparsable fld) ∧
      factors = lines.map lineFactor ∧ m = loadRefs lines 0 [] := by
  have hall : ∀ line ∈ lines, ∀ fld ∈ indexFields line.toList, ¬ Unparsable fld := by
    intro line hl fld hf hu
    obtain ⟨e, he⟩ := loadLoop_error lines [] [] ⟨line, hl, fld, hf, hu⟩
    rw [he] at h
    cases h
  have hok := loadLoop_ok lines [] [] hall
  rw [hok] at h
  injection h with h
  injection h with h1 h2
  refine ⟨hall, ?_, ?_⟩
  · rw [← h1]
    simp
  · rw [← h2]
    simp

theorem setupFactors_eq (lines : List String) :
    setupFactors lines =
      (loadLoop lines [] []).map fun r => (r.1, r.2.map fun kv => kv.2) := by
  unfold setupFactors
  cases loadLoop lines [] [] with
  | error e => rfl
  | ok r => rfl

theorem mem_setInsert (x a : Nat) (l : List Nat) :
    x ∈ setInsert a l ↔ x = a ∨ x ∈ l := by
  induction l with
  | nil => simp [setInsert]
  | cons y ys ih =>
    unfold setInsert
    by_cases h1 : a < y
    · simp [h1]
    · by_cases h2 : a = y
      · subst h2
        simp
      · simp only [h1, h2, if_false, List.mem_cons, ih]
        tauto

theorem mem_foldl_setInsert (x : Nat) (vals : List Nat) :
    ∀ s : List Nat, x ∈ vals.foldl (fun s v => setInsert v s) s ↔ x ∈ vals ∨ x ∈ s := by
  induction vals with
  | nil =>
    intro s
    simp
  | cons v rest ih =>
    intro s
    simp only [List.foldl_cons, ih, mem_setInsert, List.mem_cons]
    tauto

theorem mem_mapKeys_addReference (m : List (Nat × RandomVariable)) (k f x : Nat) :
    x ∈ mapKeys (addReference m k f) ↔ x = k ∨ x ∈ mapKeys m := by
  induction m with
  | nil => simp [addReference, mapKeys]
  | cons kv rest ih =>
    obtain ⟨k0, rv⟩ := kv
    unfold addReference
    by_cases h1 : k < k0
    · simp [h1, mapKeys]
    · by_cases h2 : k = k0
      · subst h2
        simp [mapKeys]
      · simp only [h1, h2, if_false]
        have ih2 : x ∈ mapKeys (addReference rest k f) ↔ x = k ∨ x ∈ mapKeys rest := ih
        simp only [mapKeys, List.map_cons, List.mem_cons] at ih2 ⊢
        rw [ih2]
        tauto

theorem sorted_addReference (m : List (Nat × RandomVariable)) (k f : Nat)
    (h : (mapKeys m).Pairwise (· < ·)) :
    (mapKeys (addReference m k f)).Pairwise (· < ·) := by
  induction m with
  | nil => simp [addReference, mapKeys]
  | cons kv rest ih =>
    obtain ⟨k0, rv⟩ := kv
    have h0 : ∀ x ∈ mapKeys rest, k0 < x := by
      intro x hx
      exact (List.pairwise_cons.mp h).1 x hx
    have hrest : (mapKeys rest).Pairwise (· < ·) := (List.pairwise_cons.mp h).2
    unfold addReference
    by_cases h1 : k < k0
    · simp only [h1, if_true]
      refine List.pairwise_cons.mpr ⟨?_, h⟩
      intro x hx
      rcases List.mem_cons.mp hx with hx | hx
      · rw [hx]
        exact h1
      · exact lt_trans h1 (h0 x hx)
    · by_cases h2 : k = k0
      · subst h2
        simpa [mapKeys] using h
      · simp only [h1, h2, if_false]
        refine List.pairwise_cons.mpr ⟨?_, ih hrest⟩
        intro x hx
        show k0 < x
        rcases (mem_mapKeys_addReference rest k f x).mp hx with hx | hx
        · rw [hx]
          omega
        · exact h0 x hx

theorem refsAt_of_not_mem (m : List (Nat × RandomVariable)) (v : Nat)
    (h : v ∉ mapKeys m) : refsAt m v = [] := by
  induction m with
  | nil => rfl
  | cons kv rest ih =>
    obtain ⟨k0, rv⟩ := kv
    have h1 : k0 ≠ v := by
      intro he
      exact h (by simp [mapKeys, he])
    have h2 : v ∉ mapKeys rest := by
      intro hm
      exact h (by
        simp only [mapKeys, List.map_cons, List.mem_cons]
        exact Or.inr hm)
    simp only [refsAt, h1, if_false]
    exact ih h2

theorem mem_refsAt_addReference (m : List (Nat × RandomVariable)) (k f v j : Nat)
    (h : (mapKeys m).Pairwise (· < ·)) :
    j ∈ refsAt (addReference m k f) v ↔ (v = k ∧ j = f) ∨ j ∈ refsAt m v := by
  induction m with
  | nil =>
    by_cases hkv : k = v
    · simp [addReference, refsAt, hkv]
    · have hvk : ¬ v = k := fun e => hkv e.symm
      simp [addReference, refsAt, hkv, hvk]
  | cons kv rest ih =>
    obtain ⟨k0, rv⟩ := kv
    have h0 : ∀ x ∈ mapKeys rest, k0 < x := by
      intro x hx
      exact (List.pairwise_cons.mp h).1 x hx
    have hrest : (mapKeys rest).Pairwise (· < ·) := (List.pairwise_cons.mp h).2
    unfold addReference
    by_cases h1 : k < k0
    · simp only [h1, if_true]
      by_cases hkv : k = v
      · subst hkv
        have hnot : k ∉ mapKeys ((k0, rv) :: rest) := by
          intro hm
          simp only [mapKeys, List.map_cons, List.mem_cons] at hm
          rcases hm with hm | hm
          · omega
          · have := h0 k hm
            omega
        rw [refsAt_of_not_mem _ _ hnot]
        simp [refsAt]
      · have hvk : ¬ v = k := fun e => hkv e.symm
        have : refsAt ((k, (⟨[f]⟩ : RandomVariable)) :: (k0, rv) :: rest) v
            = refsAt ((k0, rv) :: rest) v := by
          simp only [refsAt, hkv, if_false]
        rw [this]
        simp [hvk]
    · by_cases h2 : k = k0
      · subst h2
        simp only [lt_irrefl, if_false, if_true, refsAt]
        by_cases hkv : k = v
        · subst hkv
          simp only [if_true, mem_setInsert]
          tauto
        · have hvk : ¬ v = k := fun e => hkv e.symm
          simp [hkv, hvk]
      · simp only [h1, h2, if_false, refsAt]
        by_cases hkv : k0 = v
        · have hvk : ¬ v = k := by
            intro e
            exact h2 (e.symm.trans hkv.symm)
          simp [hkv, hvk]
        · simp only [hkv, if_false]
          exact ih hrest

theorem MapInv.congr {m : List (Nat × RandomVariable)} {R R2 : Nat → Nat → Prop}
    (h : MapInv m R) (hR : ∀ j v, R j v ↔ R2 j v) : MapInv m R2 := by
  refine ⟨h.1, ?_, ?_⟩
  · intro v j
    rw [h.2.1 v j, hR]
  · intro v
    rw [h.2.2 v]
    exact exists_congr fun j => hR j v

theorem MapInv.nil : MapInv [] (fun _ _ => False) := by
  refine ⟨by simp [mapKeys], ?_, ?_⟩
  · intro v j
    simp [refsAt]
  · intro v
    simp [mapKeys]

theorem MapInv.addReference {m : List (Nat × RandomVariable)} {R : Nat → Nat → Prop}
    (h : MapInv m R) (k f : Nat) :
    MapInv (addReference m k f) (fun j v => (v = k ∧ j = f) ∨ R j v) := by
  refine ⟨sorted_addReference m k f h.1, ?_, ?_⟩
  · intro v j
    rw [mem_refsAt_addReference m k f v j h.1, h.2.1 v j]
  · intro v
    rw [mem_mapKeys_addReference, h.2.2 v]
    constructor
    · rintro (hv | ⟨j, hj⟩)
      · exact ⟨f, Or.inl ⟨hv, rfl⟩⟩
      · exact ⟨j, Or.inr hj⟩
    · rintro ⟨j, ⟨hv, _⟩ | hj⟩
      · exact Or.inl hv
      · exact Or.inr ⟨j, hj⟩

theorem MapInv.foldRefs (vals : List Nat) (f : Nat) :
    ∀ {m : List (Nat × RandomVariable)} {R : Nat → Nat → Prop}, MapInv m R →
      MapInv (vals.foldl (fun m v => HashReversal.addReference m v f) m)
        (fun j v => (v ∈ vals ∧ j = f) ∨ R j v) := by
  induction vals with
  | nil =>
    intro m R h
    exact h.congr (by simp)
  | cons x rest ih =>
    intro m R h
    have := ih (h.addReference x f)
    refine this.congr ?_
    intro j v
    simp only [List.mem_cons]
    tauto

theorem references_iff (factors : List Factor) (j v : Nat) :
    references factors j v = true ↔
      ∃ hj : j < factors.length, v = (factors.get ⟨j, hj⟩).primary_rv ∨
        v ∈ (factors.get ⟨j, hj⟩).rv_dependencies := by
  unfold references
  by_cases hj : j < factors.length
  · rw [List.getElem?_eq_getElem hj]
    simp only [decide_eq_true_eq, Factor.referencedRVs, List.mem_insert_iff, List.get_eq_getElem]
    constructor
    · intro h
      exact ⟨hj, h⟩
    · rintro ⟨_, h⟩
      exact h
  · rw [List.getElem?_eq_none (by omega)]
    simp only [Bool.false_eq_true, false_iff]
    rintro ⟨h, _⟩
    exact hj h

theorem references_append (factors : List Factor) (x : Factor) (j v : Nat) :
    references (factors ++ [x]) j v = true ↔
      (j = factors.length ∧ (v = x.primary_rv ∨ v ∈ x.rv_dependencies)) ∨
        references factors j v = true := by
  rw [references_iff, references_iff]
  constructor
  · rintro ⟨hj, h⟩
    by_cases hlt : j < factors.length
    · right
      refine ⟨hlt, ?_⟩
      simpa [List.getElem_append_left hlt] using h
    · have hje : j = factors.length := by
        simp only [List.length_append, List.length_singleton] at hj
        omega
      subst hje
      left
      refine ⟨rfl, ?_⟩
      simpa using h
  · rintro (⟨hje, h⟩ | ⟨hj, h⟩)
    · subst hje
      refine ⟨by simp, ?_⟩
      simpa using h
    · refine ⟨by simp only [List.length_append, List.length_singleton]; omega, ?_⟩
      simpa [List.getElem_append_left hj] using h

theorem MapInv.line {m : List (Nat × RandomVariable)} {factors : List Factor}
    (h : MapInv m (fun j v => references factors j v = true)) (line : String) :
    MapInv (lineRefs m line factors.length)
      (fun j v => references (factors ++ [lineFactor line]) j v = true) := by
  have h1 := MapInv.foldRefs (((lineTokens line.toList).drop 2).map fieldValue) factors.length
    (h.addReference (fieldValue (primaryField line.toList)) factors.length)
  refine h1.congr ?_
  intro j v
  rw [references_append]
  simp only [lineFactor, mem_foldl_setInsert, List.not_mem_nil, or_false]
  tauto

theorem MapInv.load (lines : List String) :
    ∀ {m : List (Nat × RandomVariable)} {factors : List Factor},
      MapInv m (fun j v => references factors j v = true) →
      MapInv (loadRefs lines factors.length m)
        (fun j v => references (factors ++ lines.map lineFactor) j v = true) := by
  induction lines with
  | nil =>
    intro m factors h
    simpa [loadRefs] using h
  | cons line rest ih =>
    intro m factors h
    have h2 := ih (h.line line)
    simpa [loadRefs] using h2

theorem MapInv.loaded (lines : List String) :
    MapInv (loadRefs lines 0 []) (fun j v => references (lines.map lineFactor) j v = true) := by
  have h0 : MapInv [] (fun j v => references ([] : List Factor) j v = true) :=
    MapInv.nil.congr (by
      intro j v
      simp [references])
  simpa using MapInv.load lines h0

theorem refsAt_get (m : List (Nat × RandomVariable)) (h : (mapKeys m).Pairwise (· < ·)) :
    ∀ (p : Nat) (hp : p < m.length),
      refsAt m (m.get ⟨p, hp⟩).1 = (m.get ⟨p, hp⟩).2.factor_indices := by
  induction m with
  | nil =>
    intro p hp
    cases hp
  | cons kv rest ih =>
    obtain ⟨k0, rv⟩ := kv
    have h0 : ∀ x ∈ mapKeys rest, k0 < x := by
      intro x hx
      exact (List.pairwise_cons.mp h).1 x hx
    have hrest : (mapKeys rest).Pairwise (· < ·) := (List.pairwise_cons.mp h).2
    intro p hp
    cases p with
    | zero => simp [refsAt]
    | succ q =>
      have hq : q < rest.length := by
        simpa using hp
      have hmem : (rest.get ⟨q, hq⟩).1 ∈ mapKeys rest :=
        List.mem_map.mpr ⟨_, List.get_mem rest q hq, rfl⟩
      have hne : k0 ≠ (rest.get ⟨q, hq⟩).1 := by
        have := h0 _ hmem
        omega
      have hget : ((k0, rv) :: rest).get ⟨q + 1, hp⟩ = rest.get ⟨q, hq⟩ := rfl
      rw [hget]
      simp only [refsAt, hne, if_false]
      exact ih hrest q hq

theorem mem_iff_lt_length (l : List Nat) (hs : l.Pairwise (· < ·))
    (hc : ∀ v ∈ l, ∀ u, u < v → u ∈ l) (v : Nat) : v ∈ l ↔ v < l.length := by
  have hnd : l.Nodup := hs.imp (fun h => Nat.ne_of_lt h)
  constructor
  · intro hv
    have hsub : List.range (v + 1) ⊆ l := by
      intro u hu
      have hu2 : u < v + 1 := List.mem_range.mp hu
      by_cases he : u = v
      · rw [he]
        exact hv
      · exact hc v hv u (by omega)
    have := (List.subperm_of_subset (List.nodup_range (v + 1)) hsub).length_le
    simp only [List.length_range] at this
    omega
  · intro hv
    by_contra hnot
    have hsub : l ⊆ List.range v := by
      intro w hw
      refine List.mem_range.mpr ?_
      by_contra hge
      by_cases he : w = v
      · exact hnot (he ▸ hw)
      · exact hnot (hc w hw v (by omega))
    have := (List.subperm_of_subset hnd hsub).length_le
    simp only [List.length_range] at this
    omega

theorem eq_range_of_contiguous (l : List Nat) (hs : l.Pairwise (· < ·))
    (hc : ∀ v ∈ l, ∀ u, u < v → u ∈ l) : l = List.range l.length := by
  have hnd : l.Nodup := hs.imp (fun h => Nat.ne_of_lt h)
  have hperm : l.Perm (List.range l.length) := by
    refine (List.perm_ext_iff_of_nodup hnd (List.nodup_range _)).mpr ?_
    intro v
    rw [mem_iff_lt_length l hs hc v, List.mem_range]
  have hs2 : (List.range l.length).Pairwise (· < ·) := List.pairwise_lt_range _
  exact List.eq_of_perm_of_sorted hperm hs hs2

theorem isDigitC_ne_semicolon (c : Char) (h : isDigitC c = true) : c ≠ ';' := by
  rintro rfl
  revert h
  decide

theorem not_semicolon_mem_of_digits (ds : List Char) (h : ∀ c ∈ ds, isDigitC c = true) :
    ';' ∉ ds := by
  intro hm
  exact isDigitC_ne_semicolon _ (h _ hm) rfl

theorem tokensAux_field (f : List Char) (hf : ';' ∉ f) :
    ∀ (cur rest : List Char),
      tokensAux cur (f ++ ';' :: rest) = (cur ++ f) :: tokensAux [] rest := by
  induction f with
  | nil =>
    intro cur rest
    simp [tokensAux]
  | cons c cs ih =>
    intro cur rest
    have hc : c ≠ ';' := by
      intro e
      exact hf (by simp [e])
    have hcs : ';' ∉ cs := by
      intro hm
      exact hf (List.mem_cons_of_mem _ hm)
    have hstep : tokensAux cur (c :: cs ++ ';' :: rest)
        = tokensAux (cur ++ [c]) (cs ++ ';' :: rest) := by
      show tokensAux cur (c :: (cs ++ ';' :: rest)) = _
      simp only [tokensAux, hc, if_false]
    rw [hstep, ih hcs]
    simp

theorem tokensAux_last (f : List Char) (hf : ';' ∉ f) :
    ∀ (cur : List Char), cur ++ f ≠ [] → tokensAux cur f = [cur ++ f] := by
  induction f with
  | nil =>
    intro cur hne
    have : cur ≠ [] := by
      simpa using hne
    simp [tokensAux, this]
  | cons c cs ih =>
    intro cur _
    have hc : c ≠ ';' := by
      intro e
      exact hf (by simp [e])
    have hcs : ';' ∉ cs := by
      intro hm
      exact hf (List.mem_cons_of_mem _ hm)
    simp only [tokensAux, hc, if_false]
    rw [ih hcs (cur ++ [c]) (by simp)]
    simp

theorem tokensAux_fields (deps : List (List Char))
    (hd : ∀ d ∈ deps, d ≠ [] ∧ ';' ∉ d) :
    ∀ (p : List Char), p ≠ [] → ';' ∉ p →
      tokensAux [] (p ++ deps.flatMap fun d => ';' :: d) = p :: deps := by
  induction deps with
  | nil =>
    intro p hp hs
    simp only [List.flatMap_nil, List.append_nil]
    rw [tokensAux_last p hs [] (by simpa using hp)]
    simp
  | cons d ds ih =>
    intro p hp hs
    have hd0 := hd d (List.mem_cons_self _ _)
    simp only [List.flatMap_cons, List.cons_append]
    rw [tokensAux_field p hs, ih (fun x hx => hd x (List.mem_cons_of_mem _ hx)) d hd0.1 hd0.2]
    simp

theorem lineTokens_text (l : LineSpec) (h : l.WellFormed) :
    lineTokens l.text.toList = l.type :: l.primary :: l.deps := by
  obtain ⟨ht, hp, hd⟩ := h
  show tokensAux [] (l.type ++ ';' :: (l.primary ++ l.deps.flatMap fun d => ';' :: d)) = _
  rw [tokensAux_field l.type ht,
    tokensAux_fields l.deps
      (fun d hdm => ⟨(hd d hdm).1, not_semicolon_mem_of_digits d (hd d hdm).2.1⟩)
      l.primary hp.1 (not_semicolon_mem_of_digits _ hp.2.1)]
  simp

theorem primaryField_text (l : LineSpec) (h : l.WellFormed) :
    primaryField l.text.toList = l.primary := by
  unfold primaryField
  rw [lineTokens_text l h]

theorem numericPrefix_index (ds : List Char) (h : IsIndex ds) :
    numericPrefix ds = ds ∧ (signAndRest (ds.dropWhile isSpaceC)).1 = false := by
  obtain ⟨hne, hdig, _⟩ := h
  cases ds with
  | nil => exact absurd rfl hne
  | cons c cs =>
    have hc : isDigitC c = true := hdig c (List.mem_cons_self _ _)
    have hsp : isSpaceC c = false := by
      unfold isDigitC at hc
      unfold isSpaceC
      simp only [Bool.and_eq_true, decide_eq_true_eq] at hc
      have h32 : c ≠ ' ' := by
        rintro rfl
        revert hc
        decide
      simp only [Bool.or_eq_false_iff, decide_eq_false_iff_not, Bool.and_eq_false_iff]
      refine ⟨h32, Or.inr ?_⟩
      omega
    have hminus : c ≠ '-' := by
      rintro rfl
      revert hc
      decide
    have hplus : c ≠ '+' := by
      rintro rfl
      revert hc
      decide
    have hdrop : (c :: cs).dropWhile isSpaceC = c :: cs := by
      simp [List.dropWhile, hsp]
    have hsign : signAndRest (c :: cs) = (false, c :: cs) := by
      unfold signAndRest
      split
      · rename_i heq
        injection heq with h1 _
        exact absurd h1 hminus
      · rename_i heq
        injection heq with h1 _
        exact absurd h1 hplus
      · rfl
    unfold numericPrefix
    rw [hdrop, hsign]
    refine ⟨?_, rfl⟩
    exact List.takeWhile_eq_self_iff.mpr hdig

theorem stoul_index (ds : List Char) (h : IsIndex ds) : stoul ds = .ok (digitsValue ds) := by
  obtain ⟨hp, hs⟩ := numericPrefix_index ds h
  unfold stoul
  simp only [hp, hs]
  rw [if_neg h.1, if_neg (by have := h.2.2; omega)]
  simp

theorem parsable_index (ds : List Char) (h : IsIndex ds) : ¬ Unparsable ds := by
  intro hu
  obtain ⟨e, he⟩ := (stoul_error_iff ds).mpr hu
  rw [stoul_index ds h] at he
  cases he

theorem fieldValue_index (ds : List Char) (h : IsIndex ds) :
    fieldValue ds = digitsValue ds := by
  unfold fieldValue
  rw [stoul_index ds h]

theorem stoul_error_kind (str : List Char) (e : Err) (h : stoul str = .error e) :
    e = .invalid_argument ∨ e = .out_of_range := by
  unfold stoul at h
  simp only at h
  split at h
  · injection h with h
    exact Or.inl h.symm
  · split at h
    · injection h with h
      exact Or.inr h.symm
    · split at h <;> cases h

theorem depLoop_error_kind (f : Nat) (toks : List (List Char)) :
    ∀ (deps : List Nat) (rvs : List (Nat × RandomVariable)) (e : Err),
      depLoop f toks deps rvs = .error e → e = .invalid_argument ∨ e = .out_of_range := by
  induction toks with
  | nil =>
    intro deps rvs e h
    cases h
  | cons t rest ih =>
    intro deps rvs e h
    cases hs : stoul t with
    | error e2 =>
      simp only [depLoop, hs, bind_error_eq] at h
      injection h with h
      exact stoul_error_kind t e (h ▸ hs)
    | ok v =>
      simp only [depLoop, hs, bind_ok_eq] at h
      exact ih _ _ e h

theorem loadLoop_error_kind (lines : List String) :
    ∀ (factors : List Factor) (m : List (Nat × RandomVariable)) (e : Err),
      loadLoop lines factors m = .error e → e = .invalid_argument ∨ e = .out_of_range := by
  induction lines with
  | nil =>
    intro factors m e h
    cases h
  | cons line rest ih =>
    intro factors m e h
    cases hs : stoul (primaryField line.toList) with
    | error e2 =>
      simp only [loadLoop, hs, bind_error_eq] at h
      injection h with h
      exact stoul_error_kind _ e (h ▸ hs)
    | ok v =>
      simp only [loadLoop, hs, bind_ok_eq] at h
      cases hd : depLoop factors.length ((lineTokens line.toList).drop 2) []
          (addReference m v factors.length) with
      | error e2 =>
        simp only [hd, bind_error_eq] at h
        injection h with h
        exact depLoop_error_kind _ _ _ _ e (h ▸ hd)
      | ok r =>
        simp only [hd, bind_ok_eq] at h
        exact ih _ _ e h

theorem setupFactors_ok (lines : List String) (factors : List Factor)
    (rvs : List RandomVariable) (h : setupFactors lines = .ok (factors, rvs)) :
    ∃ m, loadLoop lines [] [] = .ok (factors, m) ∧ rvs = m.map fun kv => kv.2 := by
  rw [setupFactors_eq] at h
  cases hl : loadLoop lines [] [] with
  | error e =>
    rw [hl] at h
    cases h
  | ok r =>
    rw [hl] at h
    obtain ⟨fs, m⟩ := r
    injection h with h
    injection h with h1 h2
    exact ⟨m, by rw [← h1], h2.symm⟩

theorem indexFields_plain (line : List Char) (h : ';' ∉ line) : indexFields line = [line] := by
  unfold indexFields primaryField lineTokens
  cases line with
  | nil => simp [tokensAux]
  | cons c cs =>
    rw [tokensAux_last (c :: cs) h [] (by simp)]
    simp [h]

theorem mem_flatMap_referenced (factors : List Factor) (v : Nat) :
    v ∈ factors.flatMap Factor.referencedRVs ↔ ∃ j, references factors j v = true := by
  rw [List.mem_flatMap]
  constructor
  · rintro ⟨f, hf, hv⟩
    obtain ⟨j, hj⟩ := List.mem_iff_getElem?.mp hf
    refine ⟨j, ?_⟩
    unfold references
    rw [hj]
    simpa using hv
  · rintro ⟨j, hj⟩
    unfold references at hj
    cases hg : factors[j]? with
    | none =>
      rw [hg] at hj
      cases hj
    | some f =>
      rw [hg] at hj
      exact ⟨f, List.mem_iff_getElem?.mpr ⟨j, hg⟩, by simpa using hj⟩

theorem lineFactor_text (l : LineSpec) (h : l.WellFormed) :
    lineFactor l.text = ⟨String.mk l.type, digitsValue l.primary,
      (l.deps.map digitsValue).foldl (fun s v => setInsert v s) []⟩ := by
  unfold lineFactor
  rw [lineTokens_text l h, primaryField_text l h, fieldValue_index _ h.2.1]
  have hmap : l.deps.map fieldValue = l.deps.map digitsValue :=
    List.map_congr_left fun d hd => fieldValue_index d (h.2.2 d hd)
  simp [hmap]

theorem indexFields_text (l : LineSpec) (h : l.WellFormed) :
    indexFields l.text.toList = l.primary :: l.deps := by
  unfold indexFields
  rw [lineTokens_text l h, primaryField_text l h]
  rfl

theorem mem_referencedIndices (desc : List LineSpec) (hwf : ∀ l ∈ desc, l.WellFormed) (v : Nat) :
    v ∈ referencedIndices desc ↔
      ∃ j, references ((desc.map LineSpec.text).map lineFactor) j v = true := by
  rw [← mem_flatMap_referenced]
  unfold referencedIndices
  simp only [List.mem_flatMap, List.mem_map, List.mem_cons]
  constructor
  · rintro ⟨l, hl, hv⟩
    refine ⟨lineFactor l.text, ⟨l.text, ⟨l, hl, rfl⟩, rfl⟩, ?_⟩
    rw [lineFactor_text l (hwf l hl)]
    simp only [Factor.referencedRVs, List.mem_insert_iff, mem_foldl_setInsert, List.not_mem_nil,
      or_false, List.mem_map]
    exact hv
  · rintro ⟨f, ⟨t, ⟨l, hl, rfl⟩, rfl⟩, hv⟩
    refine ⟨l, hl, ?_⟩
    rw [lineFactor_text l (hwf l hl)] at hv
    simpa only [Factor.referencedRVs, List.mem_insert_iff, mem_foldl_setInsert, List.not_mem_nil,
      or_false, List.mem_map] using hv

theorem setupLoop_missing (A : Arith F) {cfg : Config F} (g : FactorGraph F cfg)
    (observed : List VariableAssignment) (l : List Nat) :
    ∀ (init : Fin cfg.num_rvs → F), (∃ i ∈ l, g.factors_.length ≤ i) →
      setupLoop A g observed l init = .error .out_of_range := by
  induction l with
  | nil =>
    rintro init ⟨i, hi, _⟩
    cases hi
  | cons i rest ih =>
    rintro init ⟨x, hx, hbad⟩
    cases hg : g.factors_[i]? with
    | none => simp only [setupLoop, hg]
    | some factor =>
      have hi : i < g.factors_.length := by
        by_contra hge
        rw [List.getElem?_eq_none (by omega)] at hg
        cases hg
      have hxr : x ∈ rest := by
        rcases List.mem_cons.mp hx with h | h
        · omega
        · exact h
      simp only [setupLoop, hg]
      exact ih _ ⟨x, hxr, hbad⟩

theorem printLoop_missing (factors : List Factor) (rvs : List RandomVariable) (l : List Nat) :
    (∃ i ∈ l, rvs.length ≤ i ∨ factors.length ≤ i) →
      printLoop factors rvs l = .error .out_of_range := by
  induction l with
  | nil =>
    rintro ⟨i, hi, _⟩
    cases hi
  | cons i rest ih =>
    rintro ⟨x, hx, hbad⟩
    cases hr : rvs[i]? with
    | none => simp only [printLoop, hr]
    | some rv =>
      cases hf : factors[i]? with
      | none => simp only [printLoop, hr, hf]
      | some f =>
        have hi1 : i < rvs.length := by
          by_contra hge
          rw [List.getElem?_eq_none (by omega)] at hr
          cases hr
        have hi2 : i < factors.length := by
          by_contra hge
          rw [List.getElem?_eq_none (by omega)] at hf
          cases hf
        have hxr : x ∈ rest := by
          rcases List.mem_cons.mp hx with h | h
          · omega
          · exact h
        simp only [printLoop, hr, hf]
        exact ih ⟨x, hxr, hbad⟩

theorem printLoop_present (factors : List Factor) (rvs : List RandomVariable) (l : List Nat) :
    (∀ i ∈ l, i < rvs.length ∧ i < factors.length) → printLoop factors rvs l = .ok () := by
  induction l with
  | nil =>
    intro _
    rfl
  | cons i rest ih =>
    intro h
    obtain ⟨h1, h2⟩ := h i (List.mem_cons_self _ _)
    simp only [printLoop, List.getElem?_eq_getElem h1, List.getElem?_eq_getElem h2]
    exact ih fun x hx => h x (List.mem_cons_of_mem _ hx)

theorem loaded_positions (lines : List String) (factors : List Factor)
    (rvs : List RandomVariable) (h : setupFactors lines = .ok (factors, rvs))
    (hcont : ∀ v ∈ factors.flatMap Factor.referencedRVs, ∀ u, u < v →
      u ∈ factors.flatMap Factor.referencedRVs) :
    (∀ v, v ∈ factors.flatMap Factor.referencedRVs → v < rvs.length) ∧
    ∀ (v : Nat) (hv : v < rvs.length) (j : Nat),
      j ∈ (rvs.get ⟨v, hv⟩).factor_indices ↔ references factors j v = true := by
  obtain ⟨m, hm, hrvs⟩ := setupFactors_ok lines factors rvs h
  obtain ⟨_, hfac, hmap⟩ := loadLoop_result lines factors m hm
  have hinv : MapInv m (fun j v => references factors j v = true) := by
    rw [hfac, hmap]
    exact MapInv.loaded lines
  have hkeys : ∀ v, v ∈ mapKeys m ↔ v ∈ factors.flatMap Factor.referencedRVs := by
    intro v
    rw [hinv.2.2 v, mem_flatMap_referenced]
  have hclosed : ∀ v ∈ mapKeys m, ∀ u, u < v → u ∈ mapKeys m := by
    intro v hv u hu
    exact (hkeys u).mpr (hcont v ((hkeys v).mp hv) u hu)
  have hrange := eq_range_of_contiguous _ hinv.1 hclosed
  have hlen : (mapKeys m).length = m.length := by
    simp [mapKeys]
  have hrl : rvs.length = m.length := by
    rw [hrvs]
    simp
  constructor
  · intro v hv
    rw [hrl, ← hlen]
    exact (mem_iff_lt_length _ hinv.1 hclosed v).mp ((hkeys v).mpr hv)
  · intro v hv j
    have hv2 : v < m.length := by
      rw [← hrl]
      exact hv
    have hkey : (m.get ⟨v, hv2⟩).1 = v := by
      have h1 : (mapKeys m)[v]? = some v := by
        rw [hrange, hlen]
        simp [List.getElem?_range hv2]
      have h2 : (mapKeys m)[v]? = some (m.get ⟨v, hv2⟩).1 := by
        simp [mapKeys, List.getElem?_eq_getElem hv2]
      rw [h2] at h1
      injection h1
    have hfi : rvs.get ⟨v, hv⟩ = (m.get ⟨v, hv2⟩).2 := by
      subst hrvs
      simp
    rw [hfi, ← refsAt_get _ hinv.1 v hv2, hkey]
    exact hinv.2.1 v j

theorem binary64_samples :
    Dbl.binary64 (1 / 10) = tenth ∧
    Dbl.binary64 (1 - 3602879701896397 / pow2 55) = .fin (8106479329266893 / pow2 53) ∧
    Dbl.binary64 (1 + 1 / pow2 53) = .fin 1 ∧
    Dbl.binary64 (1 + 3 / pow2 53) = .fin (1 + 4 / pow2 53) ∧
    Dbl.binary64 (pow2 1024 - pow2 970 - 1) = .fin (pow2 1024 - pow2 971) ∧
    Dbl.binary64 (pow2 1024 - pow2 970) = .pinf ∧
    Dbl.binary64 (-(pow2 1024)) = .ninf ∧
    Dbl.binary64 (3 / pow2 1075) = .fin (2 / pow2 1074) ∧
    Dbl.binary64 (1 / pow2 1075) = .fin 0 := by
  decide!

end Lemmas

section Claims
variable {F : Type}

/-- C2: when the graph has at least `num_rvs` factors, `setupLBP observed`
succeeds from every engine; afterwards `rv_messages`, `factor_messages` and
`factor_initialization` are zero, and for every `i < num_rvs`
`rv_initialization[i] = log ((1 - p) / p)` with `p = probOne (factor i, relevant)`,
where `relevant` keeps, in order, the observed assignments whose variable is a
dependency of factor `i` or its primary variable. -/
theorem setupLBP_spec (A : Arith F) {cfg : Config F} (g : FactorGraph F cfg)
    (observed : List VariableAssignment) (hfac : cfg.num_rvs ≤ g.factors_.length) :
    ∃ g', setupLBP A g observed = .ok g' ∧
      g'.rv_messages_ = (fun _ _ => A.zero) ∧
      g'.factor_messages_ = (fun _ _ => A.zero) ∧
      g'.factor_initialization_ = (fun _ => A.zero) ∧
      ∀ (i : Nat) (hi : i < cfg.num_rvs),
        g'.rv_initialization_ ⟨i, hi⟩ = A.log (A.div
          (A.sub A.one (g.prob_ (g.factors_.get ⟨i, Nat.lt_of_lt_of_le hi hfac⟩)
            (observed.filter fun o => decide
              (o.rv_index ∈ (g.factors_.get ⟨i, Nat.lt_of_lt_of_le hi hfac⟩).rv_dependencies ∨
                o.rv_index = (g.factors_.get ⟨i, Nat.lt_of_lt_of_le hi hfac⟩).primary_rv))))
          (g.prob_ (g.factors_.get ⟨i, Nat.lt_of_lt_of_le hi hfac⟩)
            (observed.filter fun o => decide
              (o.rv_index ∈ (g.factors_.get ⟨i, Nat.lt_of_lt_of_le hi hfac⟩).rv_dependencies ∨
                o.rv_index = (g.factors_.get ⟨i, Nat.lt_of_lt_of_le hi hfac⟩).primary_rv)))) := by
  obtain ⟨init', hrun, hin⟩ := setupLBP_eq A g observed hfac
  refine ⟨_, hrun, rfl, rfl, rfl, ?_⟩
  intro i hi
  have h := hin i hi
  simp only [relevantObserved_eq] at h
  exact h

theorem setupLBP_spec_witness :
    loopCfg.num_rvs ≤ loopEngine.factors_.length ∧
      ∃ g, setupLBP exArith loopEngine [⟨0, true⟩] = .ok g
        ∧ g.rv_messages_ = (fun _ _ => .fin 0)
        ∧ g.rv_initialization_ ⟨2, by decide⟩ = exArith.log (.fin 3) := by
  obtain ⟨g, hg, hrv, _, _, hinit⟩ := setupLBP_spec exArith loopEngine [⟨0, true⟩] (by decide)
  refine ⟨by decide, g, hg, hrv, ?_⟩
  rw [hinit 2 (by decide)]
  decide!

/-- C3: on a graph whose factors and dependencies lie inside the matrices,
`updateFactorMessages` succeeds from every engine and leaves `rv_messages` and
both initialization vectors as they were; for every factor `f` and every
dependency `v` of `f`, with `prod` the product over the other dependencies
`o` of `f` of `tanh (rv_messages[o][f] / 2)` on the engine before the call, if
`|prod| != 1` then afterwards
`factor_messages[f][v] = damping * (2 * atanh prod) + (1 - damping) * old`. -/
theorem updateFactorMessages_spec (A : Arith F) {cfg : Config F} (g : FactorGraph F cfg)
    (hr : FactorsInRange cfg.num_rvs g.factors_) (f v : Nat) (hf : f < g.factors_.length)
    (hv : v ∈ (g.factors_.get ⟨f, hf⟩).rv_dependencies)
    (hne : A.ne (A.abs (tanhProduct A g.rv_messages_ f
      (g.factors_.get ⟨f, hf⟩).rv_dependencies v)) A.one = true) :
    ∃ g', updateFactorMessages A g = .ok g' ∧
      g'.rv_messages_ = g.rv_messages_ ∧
      g'.rv_initialization_ = g.rv_initialization_ ∧
      g'.factor_initialization_ = g.factor_initialization_ ∧
      entry A g'.factor_messages_ f v
        = A.add
            (A.mul cfg.lbp_damping (A.mul A.two (A.atanh (tanhProduct A g.rv_messages_ f
              (g.factors_.get ⟨f, hf⟩).rv_dependencies v))))
            (A.mul (A.sub A.one cfg.lbp_damping) (entry A g.factor_messages_ f v)) := by
  obtain ⟨g', hok, h1, h2, h3, hcell⟩ := updateFactorMessages_entry A g hr f v hf hv
  refine ⟨g', hok, h1, h2, h3, ?_⟩
  rw [hcell]
  simp only [factorCell, hne, if_true]

theorem updateFactorMessages_spec_witness :
    FactorsInRange loopCfg.num_rvs loopEngine.factors_ ∧
      ∃ g, updateFactorMessages exArith loopEngine = .ok g
        ∧ entry exArith g.factor_messages_ 0 1 = .fin 0 := by
  obtain ⟨g, hg, _, _, _, hcell⟩ := updateFactorMessages_spec exArith loopEngine (by decide)
    0 1 (by decide) (by decide) (by decide!)
  refine ⟨by decide, g, hg, ?_⟩
  rw [hcell]
  decide!

/-- C5: evaluation at the failing input.  On the three-variable example a
freshly constructed engine leaves the loop of `runLBP` in its second round
(`itr = 1`): round 2 is the first round whose marginals are within `1e-9` of
those of the round before it.  The same call on the engine that this run left
behind leaves the loop in its first round (`itr = 0`), because round 1 is
compared with the `previous_marginals_` of the earlier run. -/
theorem runLBP_round_count_stale :
    (do
      let r1 ← runLBPItr exArith tol9 loopEngine []
      let r2 ← runLBPItr exArith tol9 r1.1 []
      pure (r1.2, r2.2)).toOption = some (1, 0) := by
  decide!

/-- C6: evaluation at the failing input.  Two calls of `runLBP` with the same
graph, observations, damping and iteration cap, the second on the engine the
first one left, end with different marginals: the first run stops after two
rounds, the second after one, since `setupLBP` does not reset
`previous_marginals_`.  The log-likelihood ratio of variable 0 is
`(1 + 6.75e-10) * log 3` after the first run and `log 3` after the second. -/
theorem runLBP_second_run_differs :
    (do
      let r1 ← runLBPItr exArith tol9 loopEngine []
      let m1 ← marginals exArith r1.1
      let r2 ← runLBPItr exArith tol9 r1.1 []
      let m2 ← marginals exArith r2.1
      pure (r1.2, r2.2, decide (m1 = m2),
        m1.map Prediction.log_likelihood_ratio,
        m2.map Prediction.log_likelihood_ratio)).toOption
      = some (1, 0, false,
          [exArith.mul (.fin (1 + 675 / 1000000000000)) (exArith.log (.fin 3)),
            exArith.mul (.fin (1 + 675 / 1000000000000)) (exArith.log (.fin 3)),
            exArith.log (.fin 3)],
          [exArith.log (.fin 3), exArith.log (.fin 3), exArith.log (.fin 3)]) := by
  decide!

/-- C8: evaluation at the failing input.  With damping 0 and a factor whose
`probOne` is exactly 1, `updateRandomVariableMessages` turns the zero entry
`rv_messages[0][2]` into NaN, and after `runLBP` neither message matrix is
zero. -/
theorem damping_zero_changes_messages :
    (do
      let g0 ← setupLBP exArith (pinnedEngine (.fin 0)) []
      let g1 ← updateRandomVariableMessages exArith g0
      let g2 ← runLBP exArith tol9 (pinnedEngine (.fin 0)) []
      pure (entry exArith g0.rv_messages_ 0 2, entry exArith g1.rv_messages_ 0 2,
        entry exArith g2.rv_messages_ 0 2, entry exArith g2.factor_messages_ 2 1)).toOption
      = some (.fin 0, .nan, .nan, .nan) := by
  decide!

/-- C9: evaluation at the failing input.  With damping 1 and a factor whose
`probOne` is exactly 1, the second call of `updateRandomVariableMessages`
computes `-inf` for `rv_messages[0][2]`, whose previous value is `-inf`, and
stores NaN. -/
theorem damping_one_keeps_trace_of_old :
    (do
      let g0 ← setupLBP exArith (pinnedEngine (.fin 1)) []
      let r1 ← lbpRound exArith g0
      let g2 ← updateFactorMessages exArith r1.1
      let g3 ← updateRandomVariableMessages exArith g2
      pure (rvCell exArith g2 0 2, entry exArith g2.rv_messages_ 0 2,
        entry exArith g3.rv_messages_ 0 2)).toOption
      = some (.ninf, .ninf, .nan) := by
  decide!

/-- C10 (as stated, refuted): in binary64 arithmetic, on the AND gate with
`probOne = 2^-540` for factor 0 and damping `0.1`, `runLBP` with two rounds
leaves `factor_messages[2][1] = 0x1.df1a73e9e9b04p+1`.  In the state it
leaves, the product of the other dependencies of factor 2 for variable 1 is
exactly 1 (`tanh` of `rv_messages[0][2] / 2`, about 35.6), and
`updateFactorMessages` changes `factor_messages[2][1]` to
`0x1.df1a73e9e9b05p+1`; that is also the value `runLBP` with three rounds
leaves. -/
theorem guarded_entry_rounds :
    (do
      let g0 ← setupLBP ieeeArith (nearZeroEngine 2) []
      let g ← runLBP ieeeArith (Dbl.binary64 (1 / 1000000000)) (nearZeroEngine 2) []
      let g1 ← updateFactorMessages ieeeArith g
      let g3 ← runLBP ieeeArith (Dbl.binary64 (1 / 1000000000)) (nearZeroEngine 3) []
      pure (vecEntry ieeeArith g0.rv_initialization_ 0, entry ieeeArith g.rv_messages_ 0 2,
        ieeeArith.ne (ieeeArith.abs (tanhProduct ieeeArith g.rv_messages_ 2 [0, 1] 1))
          ieeeArith.one,
        entry ieeeArith g.factor_messages_ 2 1,
        entry ieeeArith g1.factor_messages_ 2 1,
        entry ieeeArith g3.factor_messages_ 2 1)).toOption
      = some (.fin (3292373022274701 / pow2 43), .fin (2502203496928773 / pow2 45), false,
          .fin (8428474937023236 / pow2 51), .fin (8428474937023237 / pow2 51),
          .fin (8428474937023237 / pow2 51)) := by
  decide!

/-- C10 (amended): for every arithmetic, every engine on a graph that lies
inside the matrices, every factor `f` and dependency `v` of `f` whose product
over the other dependencies has absolute value exactly 1,
`updateFactorMessages` succeeds and leaves in `factor_messages[f][v]` the
blend `old * damping + old * (1 - damping)` of the old value with itself:
the guard skips the assignment of `2 * atanh prod`, not the damping. -/
theorem guarded_entry_blend (A : Arith F) {cfg : Config F} (g : FactorGraph F cfg)
    (hF : FactorsInRange cfg.num_rvs g.factors_) (f v : Nat) (hf : f < g.factors_.length)
    (hv : v ∈ (g.factors_.get ⟨f, hf⟩).rv_dependencies)
    (hone : A.ne (A.abs (tanhProduct A g.rv_messages_ f
      (g.factors_.get ⟨f, hf⟩).rv_dependencies v)) A.one = false) :
    ∃ g', updateFactorMessages A g = .ok g' ∧
      entry A g'.factor_messages_ f v
        = A.add (A.mul (entry A g.factor_messages_ f v) cfg.lbp_damping)
            (A.mul (entry A g.factor_messages_ f v) (A.sub A.one cfg.lbp_damping)) := by
  obtain ⟨g', hok, _, _, _, hcell⟩ := updateFactorMessages_entry A g hF f v hf hv
  refine ⟨g', hok, ?_⟩
  rw [hcell]
  unfold factorCell
  rw [hone, A.mul_comm cfg.lbp_damping, A.mul_comm (A.sub A.one cfg.lbp_damping)]
  rfl

theorem guarded_entry_blend_witness :
    ∃ g, updateFactorMessages ieeeArith singleDepEngine = .ok g ∧
      entry ieeeArith g.factor_messages_ 1 0 = .fin 0 := by
  obtain ⟨g, hg, hval⟩ := guarded_entry_blend ieeeArith singleDepEngine
    (by decide) 1 0 (by decide) (by decide) (by decide!)
  exact ⟨g, hg, hval.trans (by decide!)⟩

/-- X1: on a graph that lies inside the matrices and has at least `num_rvs`
factors, `runLBP` returns an engine from every engine it is called on and for
every observed sequence, having left its loop with `itr <= lbp_max_iter`;
running out of rounds is not an error. -/
theorem runLBP_total (A : Arith F) (tol : F) {cfg : Config F} (g : FactorGraph F cfg)
    (observed : List VariableAssignment) (hfac : cfg.num_rvs ≤ g.factors_.length)
    (hF : FactorsInRange cfg.num_rvs g.factors_) (hR : RvsInRange cfg.num_rvs g.rvs_) :
    ∃ r, runLBPItr A tol g observed = .ok r ∧ r.2 ≤ cfg.lbp_max_iter ∧
      runLBP A tol g observed = .ok r.1 := by
  obtain ⟨init', hsetup, _⟩ := setupLBP_eq A g observed hfac
  let g0 : FactorGraph F cfg := { g with
    rv_messages_ := fun _ _ => A.zero
    factor_messages_ := fun _ _ => A.zero
    rv_initialization_ := init'
    factor_initialization_ := fun _ => A.zero }
  have hsetup0 : setupLBP A g observed = .ok g0 := hsetup
  obtain ⟨r, hr, hle⟩ := lbpLoop_ok A tol cfg.lbp_max_iter 0 g0 hF hR
  refine ⟨r, ?_, by simpa using hle, ?_⟩
  · simp only [runLBPItr, hsetup0, bind_ok_eq, hr]
  · simp only [runLBP, runLBPItr, hsetup0, bind_ok_eq, hr]
    rfl

theorem runLBP_total_witness :
    ∃ r, runLBPItr exArith tol9 loopEngine [⟨0, true⟩] = .ok r ∧ r.2 ≤ loopCfg.lbp_max_iter :=
  (runLBP_total exArith tol9 loopEngine [⟨0, true⟩] (by decide) (by decide) (by decide)).imp
    fun _ h => ⟨h.1, h.2.1⟩

/-- X2: on an engine whose `previous_marginals_` is empty, as the constructor
leaves it, over a graph with at least one variable that lies inside the
matrices, `runLBP` returns; when its loop is left before the budget is spent
(`itr < lbp_max_iter`), it is left in round `itr + 1 >= 2`, whose marginals are
equal within `tol` to those of round `itr`; and no round from 2 to `itr` has
marginals equal within `tol` to those of the round before it. -/
theorem runLBP_fresh_rounds (A : Arith F) (tol : F) {cfg : Config F} (g : FactorGraph F cfg)
    (observed : List VariableAssignment) (hfac : cfg.num_rvs ≤ g.factors_.length)
    (hF : FactorsInRange cfg.num_rvs g.factors_) (hR : RvsInRange cfg.num_rvs g.rvs_)
    (hn : 0 < cfg.num_rvs) (hprev : g.previous_marginals_ = []) :
    ∃ g0 r, setupLBP A g observed = .ok g0 ∧ runLBPItr A tol g observed = .ok r ∧
      r.2 ≤ cfg.lbp_max_iter ∧
      (r.2 < cfg.lbp_max_iter → 1 ≤ r.2 ∧ StableRound A tol g0 (r.2 + 1)) ∧
      (∀ t, 2 ≤ t → t ≤ r.2 → ¬ StableRound A tol g0 t) := by
  obtain ⟨init', hsetup, _⟩ := setupLBP_eq A g observed hfac
  let g0 : FactorGraph F cfg := { g with
    rv_messages_ := fun _ _ => A.zero
    factor_messages_ := fun _ _ => A.zero
    rv_initialization_ := init'
    factor_initialization_ := fun _ => A.zero }
  have hsetup0 : setupLBP A g observed = .ok g0 := hsetup
  have hg0 : ({ g0 with previous_marginals_ := [] } : FactorGraph F cfg) = g0 := by
    show ({ g0 with previous_marginals_ := [] } : FactorGraph F cfg)
      = { g0 with previous_marginals_ := g.previous_marginals_ }
    rw [hprev]
  obtain ⟨r, hr, hle, hbreak, hnone⟩ := lbpLoop_fresh A tol g0 hn cfg.lbp_max_iter 0 g0 []
    hF hR rfl (fun _ => rfl) (fun h => absurd h (by omega)) (fun t h2 h0 => absurd h2 (by omega))
  rw [hg0] at hr
  refine ⟨g0, r, hsetup0, ?_, by simpa using hle, ?_, hnone⟩
  · simp only [runLBPItr, hsetup0, bind_ok_eq, hr]
  · intro hlt
    exact hbreak (by simpa using hlt)

theorem runLBP_fresh_rounds_witness :
    ∃ g0 r, setupLBP exArith loopEngine [] = .ok g0 ∧
      runLBPItr exArith tol9 loopEngine [] = .ok r ∧ r.2 ≤ loopCfg.lbp_max_iter :=
  (runLBP_fresh_rounds exArith tol9 loopEngine [] (by decide) (by decide) (by decide)
    (by decide) rfl).imp fun _ h => h.imp fun _ h2 => ⟨h2.1, h2.2.1, h2.2.2.1⟩

/-- C11: evaluation at the failing input.  On the AND gate with `probOne = 1`
for factor 0, `setupLBP` sets `rv_initialization[0]` to `-inf`.  With damping 0
the run leaves NaN in `rv_messages[0][2]` and `factor_messages[2][1]` and a
NaN log-likelihood ratio for variable 1; with damping 1 it leaves NaN in
`rv_messages[0][2]`. -/
theorem infinite_prior_yields_nan :
    (do
      let g0 ← setupLBP exArith (pinnedEngine (.fin 0)) []
      let g ← runLBP exArith tol9 (pinnedEngine (.fin 0)) []
      let ms ← marginals exArith g
      let g1 ← runLBP exArith tol9 (pinnedEngine (.fin 1)) []
      pure (vecEntry exArith g0.rv_initialization_ 0, entry exArith g.rv_messages_ 0 2,
        entry exArith g.factor_messages_ 2 1, ms.map Prediction.log_likelihood_ratio,
        entry exArith g1.rv_messages_ 0 2)).toOption
      = some (.ninf, .nan, .nan, [.ninf, .nan, .fin 0], .nan) := by
  decide!

/-- C13: for every engine, `marginals` returns exactly `num_rvs` predictions,
and its `v`-th element is what `predict v` returns. -/
theorem marginals_spec (A : Arith F) {cfg : Config F} (g : FactorGraph F cfg) :
    ∃ ms, marginals A g = .ok ms ∧ ms.length = cfg.num_rvs ∧
      ∀ (v : Nat) (hv : v < ms.length), predict A g v = .ok (ms.get ⟨v, hv⟩) := by
  obtain ⟨ms, hms⟩ := marginals_ok A g
  have hlen := marginals_length A g ms hms
  refine ⟨ms, hms, hlen, ?_⟩
  intro v hv
  have hl : v < (List.range cfg.num_rvs).length := by
    rw [List.length_range, ← hlen]
    exact hv
  have h := mapM_get (predict A g) (List.range cfg.num_rvs) ms hms v hv hl
  simpa using h

/-- C19 (as stated, refuted): two one-element sequences with log-likelihood
ratio `+inf` are equal for `equal`, although `|inf - inf|` is NaN and so is
not `<= tol`. -/
theorem equal_accepts_nan_difference :
    equal exArith [⟨.pinf, 0⟩] [⟨.pinf, 0⟩] tol9 = true ∧
      Dbl.le (Dbl.abs (Dbl.sub .pinf .pinf)) tol9 = false := by
  decide!

/-- C19 (amended): `equal m1 m2 tol` is true exactly when the sequences have
the same length and no index has `|llr1 - llr2| > tol`; where the difference
and the tolerance are not NaN this is `|llr1 - llr2| <= tol`, and a NaN
difference counts as equal.  The result depends on the log-likelihood ratios
only, is symmetric, is reflexive for every `tol >= 0`, and is false for
sequences of different lengths. -/
theorem equal_spec (m : Libm) (m1 m2 : List (Prediction Dbl)) (tol : Dbl) :
    (equal (Dbl.arith m) m1 m2 tol = true ↔
      m1.length = m2.length ∧
        ∀ (i : Nat) (h1 : i < m1.length) (h2 : i < m2.length),
          Dbl.lt tol (Dbl.abs (Dbl.sub (m1.get ⟨i, h1⟩).log_likelihood_ratio
            (m2.get ⟨i, h2⟩).log_likelihood_ratio)) = false) ∧
    (∀ x : Dbl, x ≠ .nan → tol ≠ .nan → (Dbl.lt tol x = false ↔ Dbl.le x tol = true)) ∧
    (∀ x : Dbl, Dbl.lt tol .nan = false ∧ Dbl.lt .nan x = false) ∧
    (∀ m1' m2' : List (Prediction Dbl),
      m1'.map Prediction.log_likelihood_ratio = m1.map Prediction.log_likelihood_ratio →
      m2'.map Prediction.log_likelihood_ratio = m2.map Prediction.log_likelihood_ratio →
      equal (Dbl.arith m) m1' m2' tol = equal (Dbl.arith m) m1 m2 tol) ∧
    equal (Dbl.arith m) m1 m2 tol = equal (Dbl.arith m) m2 m1 tol ∧
    (∀ t : ℚ, 0 ≤ t → equal (Dbl.arith m) m1 m1 (.fin t) = true) ∧
    (m1.length ≠ m2.length → equal (Dbl.arith m) m1 m2 tol = false) := by
  refine ⟨equal_iff (Dbl.arith m) m1 m2 tol, fun x hx ht => not_lt_iff_le x tol hx ht, ?_, ?_, ?_,
    fun t ht => equal_self m m1 t ht, ?_⟩
  · intro x
    constructor
    · cases tol <;> rfl
    · cases x <;> rfl
  · intro m1' m2' h1 h2
    have hl1 : m1'.length = m1.length := by
      have := congrArg List.length h1
      simpa using this
    have hl2 : m2'.length = m2.length := by
      have := congrArg List.length h2
      simpa using this
    have hget1 : ∀ (i : Nat) (h : i < m1'.length) (h' : i < m1.length),
        (m1'.get ⟨i, h⟩).log_likelihood_ratio = (m1.get ⟨i, h'⟩).log_likelihood_ratio := by
      intro i h h'
      have := List.get_of_eq h1 ⟨i, by simpa using h⟩
      simpa using this
    have hget2 : ∀ (i : Nat) (h : i < m2'.length) (h' : i < m2.length),
        (m2'.get ⟨i, h⟩).log_likelihood_ratio = (m2.get ⟨i, h'⟩).log_likelihood_ratio := by
      intro i h h'
      have := List.get_of_eq h2 ⟨i, by simpa using h⟩
      simpa using this
    apply Bool.eq_iff_iff.mpr
    rw [equal_iff, equal_iff]
    constructor
    · rintro ⟨hlen, hall⟩
      refine ⟨by omega, fun i a b => ?_⟩
      have := hall i (by omega) (by omega)
      rw [hget1 i (by omega) a, hget2 i (by omega) b] at this
      exact this
    · rintro ⟨hlen, hall⟩
      refine ⟨by omega, fun i a b => ?_⟩
      rw [hget1 i a (by omega), hget2 i b (by omega)]
      exact hall i (by omega) (by omega)
  · apply Bool.eq_iff_iff.mpr
    rw [equal_iff, equal_iff]
    constructor
    · rintro ⟨hlen, hall⟩
      refine ⟨hlen.symm, fun i a b => ?_⟩
      have := hall i b a
      show Dbl.lt tol (Dbl.abs (Dbl.sub _ _)) = false
      rw [abs_sub_comm]
      exact this
    · rintro ⟨hlen, hall⟩
      refine ⟨hlen.symm, fun i a b => ?_⟩
      have := hall i b a
      show Dbl.lt tol (Dbl.abs (Dbl.sub _ _)) = false
      rw [abs_sub_comm]
      exact this
  · intro hne
    unfold equal
    rw [if_pos hne]

/-- C20 (as stated, refuted): the description `A;0;2 / B;0 / C;0` never
mentions variable 1; loaded with `num_rvs = 3`, `probOne = 1/4` for every
factor and damping `1/2`, all priors are finite and `runLBP` succeeds, but
`rv_messages[1][0]` is not zero although factor 0 does not reference
variable 1: position 1 of the variable list holds variable 2. -/
theorem gap_breaks_sparsity :
    (do
      let g ← FactorGraph.construct exArith (pinnedCfg (.fin (1 / 2))) false loopProb gapLines
      let g0 ← setupLBP exArith g []
      let g1 ← runLBP exArith tol9 g []
      pure (g.rvs_, references g.factors_ 0 1,
        (List.range 3).map (vecEntry exArith g0.rv_initialization_),
        entry exArith g1.rv_messages_ 1 0)).toOption
      = some ([⟨[0, 1, 2]⟩, ⟨[0]⟩], false, [.fin 1, .fin 1, .fin 1], .fin (3 / 4)) := by
  decide!

/-- C20 (amended): on a graph that lies inside the matrices and whose
variable list names, at each position, only factors that reference the
variable of that index, with a finite damping, every engine reached from the
result of `setupLBP` by calls of `updateFactorMessages` and
`updateRandomVariableMessages` has `factor_messages[f][v] = 0` unless `v` is
a dependency of factor `f`, and `rv_messages[v][f] = 0` unless factor `f`
references `v`; `predict v` then has the log-likelihood ratio
`rv_initialization[v]` plus the sum of the messages of the factors that have
`v` as a dependency. -/
theorem sparsity_invariant (m : Libm) {cfg : Config Dbl} (g g0 g1 : FactorGraph Dbl cfg)
    (observed : List VariableAssignment) (q : ℚ) (hd : cfg.lbp_damping = .fin q)
    (hF : FactorsInRange cfg.num_rvs g.factors_) (hR : RvsInRange cfg.num_rvs g.rvs_)
    (hL : ListedAreReferenced g.factors_ g.rvs_)
    (hsetup : setupLBP (Dbl.arith m) g observed = .ok g0)
    (hreach : Reach (Dbl.arith m) g0 g1) :
    (∀ f v : Fin cfg.num_rvs, dependsOn g.factors_ f.val v.val = false →
      g1.factor_messages_ f v = .fin 0) ∧
    (∀ v f : Fin cfg.num_rvs, references g.factors_ f.val v.val = false →
      g1.rv_messages_ v f = .fin 0) ∧
    (∀ (v : Nat) (hv : v < cfg.num_rvs), ∃ p, predict (Dbl.arith m) g1 v = .ok p ∧
      p.log_likelihood_ratio = Dbl.add (g1.rv_initialization_ ⟨v, hv⟩)
        (sumRedux (Dbl.arith m) (List.ofFn fun f : Fin cfg.num_rvs =>
          if dependsOn g.factors_ f.val v = true then g1.factor_messages_ f ⟨v, hv⟩
          else .fin 0))) := by
  obtain ⟨hfs, hrs, hrv0, hfm0⟩ := setupLBP_zero (Dbl.arith m) g g0 observed hsetup
  have hsp := reach_sparse m g0 g1 q hd (hfs ▸ hF) (hrs ▸ hR) (by rw [hfs, hrs]; exact hL)
    (fun a b => by rw [hfm0]; rfl) (fun a b => by rw [hrv0]; rfl) hreach
  rw [hfs] at hsp
  refine ⟨hsp.1, hsp.2, ?_⟩
  intro v hv
  obtain ⟨p, hp, hllr, _⟩ := predict_masked m g1 g.factors_ hsp.1 v hv
  exact ⟨p, hp, hllr⟩

theorem sparsity_invariant_witness :
    ∃ g0 g1, setupLBP exArith loopEngine [] = .ok g0 ∧
      updateFactorMessages exArith g0 = .ok g1 ∧
      g1.factor_messages_ ⟨0, by decide⟩ ⟨2, by decide⟩ = .fin 0 ∧
      g1.rv_messages_ ⟨2, by decide⟩ ⟨0, by decide⟩ = .fin 0 := by
  obtain ⟨init', hsetup', _⟩ := setupLBP_eq exArith loopEngine [] (by decide)
  obtain ⟨g0, hsetup⟩ : ∃ g0, setupLBP exArith loopEngine [] = .ok g0 := ⟨_, hsetup'⟩
  obtain ⟨hfs, _, _, _⟩ := setupLBP_zero exArith loopEngine g0 [] hsetup
  have hF0 : FactorsInRange loopCfg.num_rvs g0.factors_ := by
    rw [hfs]
    decide
  have hg1 := updateFactorMessages_eq exArith g0 hF0
  have h := sparsity_invariant Libm.rational loopEngine g0 _ [] (3 / 200000) rfl (by decide)
    (by decide) (by decide) hsetup (Reach.factorStep Reach.start hg1)
  exact ⟨g0, _, hsetup, hg1, h.1 ⟨0, by decide⟩ ⟨2, by decide⟩ (by decide),
    h.2.1 ⟨2, by decide⟩ ⟨0, by decide⟩ (by decide)⟩

/-- C12 (as stated, refuted): on the three-variable graph made of the AND
factor alone, `runLBP` does not complete: `setupLBP` asks for
`factors_.at(1)` and `std::out_of_range` is thrown. -/
theorem scenario_A_lone_factor_throws :
    failure (runLBP exArith tol9 loneAndEngine [⟨0, true⟩, ⟨1, true⟩])
      = some .out_of_range := by
  decide!

/-- C12 (amended): end-to-end scenario A on the three-variable graph with one
factor per variable, the AND factor with primary variable 2 and dependencies
`{0, 1}` at position 2 after a factor for variable 0 and one for variable 1.
For every finite damping, iteration cap and tolerance, with
`observed = [(0, true), (1, true)]` and a probability model that returns 1 for
the fully observed AND factor, `runLBP observed` completes and afterwards
`predict 2` has log-likelihood ratio `-inf` and `prob_bit_is_one = 1`. -/
theorem scenario_A (m : Libm) (hlog : m.log (.fin 0) = .ninf) (q : ℚ) (k : Nat) (tol : Dbl)
    (g : FactorGraph Dbl ⟨3, k, .fin q⟩) (hfac : g.factors_ = andFactors)
    (hrvs : g.rvs_ = andRvs)
    (hprob : g.prob_ ⟨"AND", 2, [0, 1]⟩ [⟨0, true⟩, ⟨1, true⟩] = .fin 1) :
    ∃ g1, runLBP (Dbl.arith m) tol g [⟨0, true⟩, ⟨1, true⟩] = .ok g1 ∧
      ∃ p, predict (Dbl.arith m) g1 2 = .ok p ∧ p.log_likelihood_ratio = .ninf ∧
        p.prob_bit_is_one = 1 := by
  have hF : FactorsInRange 3 g.factors_ := by
    rw [hfac]
    decide
  have hR : RvsInRange 3 g.rvs_ := by
    rw [hrvs]
    decide
  have hL : ListedAreReferenced g.factors_ g.rvs_ := by
    rw [hfac, hrvs]
    decide
  have hlen : 3 ≤ g.factors_.length := by
    rw [hfac]
    decide
  have h23 : 2 < (⟨3, k, .fin q⟩ : Config Dbl).num_rvs := by
    show 2 < 3
    decide
  obtain ⟨g1, hrun⟩ := runLBP_ok (Dbl.arith m) tol g [⟨0, true⟩, ⟨1, true⟩] hlen hF hR
  obtain ⟨g0, hsetup, hreach⟩ := runLBP_reach (Dbl.arith m) tol g g1 _ hrun
  obtain ⟨init', hsetup', hinit⟩ := setupLBP_eq (Dbl.arith m) g [⟨0, true⟩, ⟨1, true⟩] hlen
  obtain ⟨hfs, hrs, hrv0, hfm0⟩ := setupLBP_zero (Dbl.arith m) g g0 _ hsetup
  have hsp := reach_sparse m g0 g1 q rfl (hfs ▸ hF) (hrs ▸ hR) (by rw [hfs, hrs]; exact hL)
    (fun a b => by rw [hfm0]; rfl) (fun a b => by rw [hrv0]; rfl) hreach
  rw [hfs, hfac] at hsp
  obtain ⟨_, _, _, hinit1, _⟩ := reach_frame (Dbl.arith m) g0 g1 hreach
  obtain ⟨p, hp, hllr, hbit⟩ := predict_masked m g1 andFactors hsp.1 2 h23
  have hprior : g1.rv_initialization_ ⟨2, h23⟩ = .ninf := by
    rw [hinit1]
    have hg0 := hsetup'.symm.trans hsetup
    injection hg0 with hg0
    subst hg0
    show init' ⟨2, h23⟩ = .ninf
    rw [hinit 2 h23]
    have hget : g.factors_.get ⟨2, Nat.lt_of_lt_of_le h23 hlen⟩ = ⟨"AND", 2, [0, 1]⟩ := by
      simp [hfac, andFactors]
    rw [hget]
    have hrel : relevantObserved ⟨"AND", 2, [0, 1]⟩ [⟨0, true⟩, ⟨1, true⟩]
        = [⟨0, true⟩, ⟨1, true⟩] := by decide
    rw [hrel, hprob]
    show m.log (Dbl.div (Dbl.sub (.fin 1) (.fin 1)) (.fin 1)) = .ninf
    have hzero : Dbl.div (Dbl.sub (.fin 1) (.fin 1)) (.fin 1) = .fin 0 := by decide!
    rw [hzero, hlog]
  have hval : p.log_likelihood_ratio = .ninf := by
    rw [hllr, hprior]
    have hs : sumRedux (Dbl.arith m) (List.ofFn fun f : Fin 3 =>
        if dependsOn andFactors f.val 2 = true then g1.factor_messages_ f ⟨2, h23⟩
        else Dbl.fin 0) = .fin 0 := by
      apply sumRedux_zero
      intro x hx
      obtain ⟨f, rfl⟩ := (List.mem_ofFn _ _).mp hx
      have hno : ∀ f : Fin 3, dependsOn andFactors f.val 2 = false := by decide
      simp [hno f]
    rw [hs]
    rfl
  refine ⟨g1, hrun, p, hp, hval, hbit.mpr ?_⟩
  rw [hval]
  rfl

theorem scenario_A_witness :
    ∃ g1, runLBP exArith tol9 scenarioEngine [⟨0, true⟩, ⟨1, true⟩] = .ok g1 ∧
      ∃ p, predict exArith g1 2 = .ok p ∧ p.log_likelihood_ratio = .ninf ∧
        p.prob_bit_is_one = 1 :=
  scenario_A Libm.rational rfl (1 / 2) 2 tol9 scenarioEngine rfl rfl (by decide)

/-- C15 (as stated, refuted): a description whose fields are `3x` and `-1`
loads: `std::stoul` reads `3x` as 3 and `-1` as `2^64 - 1`. -/
theorem setupFactors_accepts_loose_fields :
    (setupFactors ["AND;3x;-1"]).toOption
      = some ([⟨"AND", 3, [18446744073709551615]⟩], [⟨[0]⟩, ⟨[0]⟩]) := by
  decide!

/-- C15 (amended): loading fails exactly when, on some line, the primary field or
a dependency field has no decimal digit after optional white space and sign,
or digits whose value exceeds `2^64 - 1`; the failure is
`std::invalid_argument` or `std::out_of_range` and leaves no factor graph; a
line without `;` is read as its own primary field. -/
theorem setupFactors_fails_iff (lines : List String) :
    ((∃ e, setupFactors lines = .error e) ↔
      ∃ line ∈ lines, ∃ fld ∈ indexFields line.toList, Unparsable fld) ∧
    (∀ e, setupFactors lines = .error e → e = .invalid_argument ∨ e = .out_of_range) ∧
    (∀ prob : Factor → List VariableAssignment → F, ∀ (A : Arith F) (cfg : Config F)
      (print_connections : Bool) (e : Err), setupFactors lines = .error e →
        FactorGraph.construct A cfg print_connections prob lines = .error e) ∧
    ∀ line ∈ lines, ';' ∉ line.toList → indexFields line.toList = [line.toList] := by
  refine ⟨?_, ?_, ?_, ?_⟩
  · constructor
    · rintro ⟨e, he⟩
      by_contra hnone
      have hall : ∀ line ∈ lines, ∀ fld ∈ indexFields line.toList, ¬ Unparsable fld := by
        intro line hl fld hf hu
        exact hnone ⟨line, hl, fld, hf, hu⟩
      rw [setupFactors_eq, loadLoop_ok lines [] [] hall] at he
      cases he
    · intro h
      obtain ⟨e, he⟩ := loadLoop_error lines [] [] h
      exact ⟨e, by rw [setupFactors_eq, he]; rfl⟩
  · intro e he
    rw [setupFactors_eq] at he
    cases hl : loadLoop lines [] [] with
    | error e2 =>
      rw [hl] at he
      injection he with he
      exact loadLoop_error_kind lines [] [] e (he ▸ hl)
    | ok r =>
      rw [hl] at he
      cases he
  · intro prob A cfg pc e he
    simp only [FactorGraph.construct, he, bind_error_eq]
  · intro line _ hs
    exact indexFields_plain _ hs

/-- C17 (as stated, refuted): a one-line description loads into one factor,
whose primary variable is 2, and three variables. -/
theorem load_breaks_convention :
    (setupFactors ["AND;2;0;1"]).toOption.map
        (fun r => (r.1.map Factor.primary_rv, r.1.length, r.2.length))
      = some ([2], 1, 3) := by
  decide!

/-- C17 (amended): a successful load has one factor per line, in line order,
whose primary variable is the index written on the line, and one variable per
distinct referenced index; when line `i` names primary variable `i`, there
are as many variables as factors exactly when no dependency names an index
that is not below the number of lines. -/
theorem setupFactors_shape (lines : List String) (factors : List Factor)
    (rvs : List RandomVariable) (h : setupFactors lines = .ok (factors, rvs)) :
    factors.length = lines.length ∧
    (∀ (i : Nat) (hi : i < lines.length) (hi2 : i < factors.length),
      stoul (primaryField (lines.get ⟨i, hi⟩).toList)
        = .ok (factors.get ⟨i, hi2⟩).primary_rv) ∧
    rvs.length = (factors.flatMap Factor.referencedRVs).dedup.length ∧
    ((∀ (i : Nat) (hi : i < factors.length), (factors.get ⟨i, hi⟩).primary_rv = i) →
      (rvs.length = factors.length ↔
        ∀ f ∈ factors, ∀ d ∈ f.rv_dependencies, d < factors.length)) := by
  obtain ⟨m, hm, hrvs⟩ := setupFactors_ok lines factors rvs h
  obtain ⟨hall, hfac, hmap⟩ := loadLoop_result lines factors m hm
  have hinv : MapInv m (fun j v => references factors j v = true) := by
    rw [hfac, hmap]
    exact MapInv.loaded lines
  have hnd : (mapKeys m).Nodup := hinv.1.imp (fun h => Nat.ne_of_lt h)
  have hlen : rvs.length = (mapKeys m).length := by
    rw [hrvs]
    simp [mapKeys]
  have hmem : ∀ v, v ∈ mapKeys m ↔ v ∈ factors.flatMap Factor.referencedRVs := by
    intro v
    rw [hinv.2.2 v, mem_flatMap_referenced]
  refine ⟨?_, ?_, ?_, ?_⟩
  · rw [hfac]
    simp
  · intro i hi hi2
    have hget : factors.get ⟨i, hi2⟩ = lineFactor (lines.get ⟨i, hi⟩) := by
      subst hfac
      simp
    rw [hget, stoul_ok_of_parsable _
      (hall _ (List.get_mem lines i hi) _ (List.mem_cons_self _ _))]
    rfl
  · rw [hlen]
    refine List.Perm.length_eq ?_
    refine (List.perm_ext_iff_of_nodup hnd (List.nodup_dedup _)).mpr ?_
    intro v
    rw [hmem v, List.mem_dedup]
  · intro hconv
    have hprim : ∀ i, i < factors.length → i ∈ mapKeys m := by
      intro i hi
      rw [hinv.2.2 i]
      exact ⟨i, (references_iff factors i i).mpr ⟨hi, Or.inl (hconv i hi).symm⟩⟩
    have hsub : List.range factors.length ⊆ mapKeys m := by
      intro i hi
      exact hprim i (List.mem_range.mp hi)
    rw [hlen]
    constructor
    · intro heq f hf d hd
      have hperm : (List.range factors.length).Perm (mapKeys m) :=
        (List.subperm_of_subset (List.nodup_range _) hsub).perm_of_length_le
          (by rw [heq, List.length_range])
      obtain ⟨j, hjf⟩ := List.mem_iff_get.mp hf
      have hkey : d ∈ mapKeys m := by
        rw [hinv.2.2 d]
        exact ⟨j.val, (references_iff factors j.val d).mpr
          ⟨j.2, Or.inr (by rw [hjf]; exact hd)⟩⟩
      exact List.mem_range.mp (hperm.mem_iff.mpr hkey)
    · intro hdeps
      have hsub2 : mapKeys m ⊆ List.range factors.length := by
        intro v hv
        obtain ⟨j, hj⟩ := (hinv.2.2 v).mp hv
        obtain ⟨hjl, hjv⟩ := (references_iff factors j v).mp hj
        refine List.mem_range.mpr ?_
        rcases hjv with hp | hd
        · rw [hp, hconv j hjl]
          exact hjl
        · exact hdeps _ (List.get_mem factors j hjl) v hd
      have hperm : (mapKeys m).Perm (List.range factors.length) :=
        (List.perm_ext_iff_of_nodup hnd (List.nodup_range _)).mpr
          fun v => ⟨fun hv => hsub2 hv, fun hv => hsub hv⟩
      rw [hperm.length_eq, List.length_range]

theorem setupFactors_shape_witness :
    andFactors.length = ["INPUT;0", "INPUT;1", "AND;2;0;1"].length ∧
    (∀ (i : Nat) (hi : i < ["INPUT;0", "INPUT;1", "AND;2;0;1"].length)
      (hi2 : i < andFactors.length),
      stoul (primaryField (["INPUT;0", "INPUT;1", "AND;2;0;1"].get ⟨i, hi⟩).toList)
        = .ok (andFactors.get ⟨i, hi2⟩).primary_rv) ∧
    andRvs.length = (andFactors.flatMap Factor.referencedRVs).dedup.length ∧
    ((∀ (i : Nat) (hi : i < andFactors.length), (andFactors.get ⟨i, hi⟩).primary_rv = i) →
      (andRvs.length = andFactors.length ↔
        ∀ f ∈ andFactors, ∀ d ∈ f.rv_dependencies, d < andFactors.length)) :=
  setupFactors_shape ["INPUT;0", "INPUT;1", "AND;2;0;1"] andFactors andRvs
    (toOption_eq_some _ _ (by decide!))

/-- C18 (as stated, refuted): a description that never mentions variable 1
loads; the variable list has three entries, and its positions 1 and 2 hold
variables 2 and 3. -/
theorem gap_loads :
    (loadLoop ["AND;2;0;3"] [] []).toOption.map (fun r => mapKeys r.2) = some [0, 2, 3] ∧
    (setupFactors ["AND;2;0;3"]).toOption
      = some ([⟨"AND", 2, [0, 3]⟩], [⟨[0]⟩, ⟨[0]⟩, ⟨[0]⟩]) := by
  decide!

/-- C18 (amended): loading never checks contiguity.  The variable list holds
the referenced variables in ascending order of index, each with exactly the
factors that reference it; the entry at position `p` describes variable `p`
for every `p` exactly when the referenced indices are contiguous from 0. -/
theorem setupFactors_variable_order (lines : List String) (factors : List Factor)
    (m : List (Nat × RandomVariable)) (h : loadLoop lines [] [] = .ok (factors, m)) :
    setupFactors lines = .ok (factors, m.map fun kv => kv.2) ∧
    (mapKeys m).Pairwise (· < ·) ∧
    (∀ v, v ∈ mapKeys m ↔ ∃ j, references factors j v = true) ∧
    (∀ (p : Nat) (hp : p < m.length) (j : Nat),
      j ∈ (m.get ⟨p, hp⟩).2.factor_indices ↔
        references factors j (m.get ⟨p, hp⟩).1 = true) ∧
    ((∀ (p : Nat) (hp : p < m.length), (m.get ⟨p, hp⟩).1 = p) ↔
      ∀ v, (∃ j, references factors j v = true) → ∀ u, u < v →
        ∃ j, references factors j u = true) := by
  obtain ⟨_, hfac, hmap⟩ := loadLoop_result lines factors m h
  have hinv : MapInv m (fun j v => references factors j v = true) := by
    rw [hfac, hmap]
    exact MapInv.loaded lines
  have hlen : (mapKeys m).length = m.length := by
    simp [mapKeys]
  have hkeyget : ∀ (p : Nat) (hp : p < m.length),
      (mapKeys m)[p]? = some (m.get ⟨p, hp⟩).1 := by
    intro p hp
    simp [mapKeys, List.getElem?_eq_getElem hp]
  refine ⟨?_, hinv.1, hinv.2.2, ?_, ?_⟩
  · rw [setupFactors_eq, h]
    rfl
  · intro p hp j
    rw [← refsAt_get m hinv.1 p hp]
    exact hinv.2.1 _ j
  · constructor
    · intro hpos v hv u hu
      obtain ⟨n, hn⟩ := List.mem_iff_get.mp ((hinv.2.2 v).mpr hv)
      have hnm : n.val < m.length := by
        have := n.2
        omega
      have hvn : v = n.val := by
        have h1 := hkeyget n.val hnm
        rw [List.getElem?_eq_getElem n.2] at h1
        injection h1 with h1
        rw [← hn, ← hpos n.val hnm]
        exact h1
      have hum : u < m.length := by omega
      refine (hinv.2.2 u).mp ?_
      have h2 := hkeyget u hum
      rw [hpos u hum] at h2
      exact List.mem_iff_getElem?.mpr ⟨u, h2⟩
    · intro hcont p hp
      have hclosed : ∀ v ∈ mapKeys m, ∀ u, u < v → u ∈ mapKeys m := by
        intro v hv u hu
        exact (hinv.2.2 u).mpr (hcont v ((hinv.2.2 v).mp hv) u hu)
      have hrange := eq_range_of_contiguous _ hinv.1 hclosed
      have h1 : (mapKeys m)[p]? = some p := by
        rw [hrange, hlen]
        simp [List.getElem?_range hp]
      rw [hkeyget p hp] at h1
      injection h1

theorem setupFactors_variable_order_witness :
    setupFactors ["INPUT;0", "INPUT;1", "AND;2;0;1"]
      = .ok (andFactors, andMap.map fun kv => kv.2) ∧
    (mapKeys andMap).Pairwise (· < ·) ∧
    (∀ v, v ∈ mapKeys andMap ↔ ∃ j, references andFactors j v = true) ∧
    (∀ (p : Nat) (hp : p < andMap.length) (j : Nat),
      j ∈ (andMap.get ⟨p, hp⟩).2.factor_indices ↔
        references andFactors j (andMap.get ⟨p, hp⟩).1 = true) ∧
    ((∀ (p : Nat) (hp : p < andMap.length), (andMap.get ⟨p, hp⟩).1 = p) ↔
      ∀ v, (∃ j, references andFactors j v = true) → ∀ u, u < v →
        ∃ j, references andFactors j u = true) :=
  setupFactors_variable_order ["INPUT;0", "INPUT;1", "AND;2;0;1"] andFactors andMap
    (toOption_eq_some _ _ (by decide!))

/-- X3: `setupLBP` has no special case, and needs none for the prior itself:
with a libm whose `log` is `-inf` at 0 and `+inf` at `+inf`, on a graph with at
least `num_rvs` factors, `rv_initialization[i]` is `+inf` when `probOne`
returns exactly 0 for factor `i` and `-inf` when it returns exactly 1. -/
theorem setupLBP_infinite_prior (m : Libm) (hlog0 : m.log (.fin 0) = .ninf)
    (hloginf : m.log .pinf = .pinf) {cfg : Config Dbl} (g : FactorGraph Dbl cfg)
    (observed : List VariableAssignment) (hfac : cfg.num_rvs ≤ g.factors_.length) :
    ∃ g0, setupLBP (Dbl.arith m) g observed = .ok g0 ∧
      ∀ (i : Nat) (hi : i < cfg.num_rvs),
        (g.prob_ (g.factors_.get ⟨i, Nat.lt_of_lt_of_le hi hfac⟩)
            (relevantObserved (g.factors_.get ⟨i, Nat.lt_of_lt_of_le hi hfac⟩) observed)
          = .fin 0 → g0.rv_initialization_ ⟨i, hi⟩ = .pinf) ∧
        (g.prob_ (g.factors_.get ⟨i, Nat.lt_of_lt_of_le hi hfac⟩)
            (relevantObserved (g.factors_.get ⟨i, Nat.lt_of_lt_of_le hi hfac⟩) observed)
          = .fin 1 → g0.rv_initialization_ ⟨i, hi⟩ = .ninf) := by
  obtain ⟨init, hrun, hinit⟩ := setupLBP_eq (Dbl.arith m) g observed hfac
  refine ⟨_, hrun, ?_⟩
  intro i hi
  constructor
  · intro hp
    show init ⟨i, hi⟩ = .pinf
    rw [hinit i hi, hp]
    have harg : Dbl.div (Dbl.sub (.fin 1) (.fin 0)) (.fin 0) = .pinf := by decide!
    show m.log (Dbl.div (Dbl.sub (.fin 1) (.fin 0)) (.fin 0)) = .pinf
    rw [harg]
    exact hloginf
  · intro hp
    show init ⟨i, hi⟩ = .ninf
    rw [hinit i hi, hp]
    have harg : Dbl.div (Dbl.sub (.fin 1) (.fin 1)) (.fin 1) = .fin 0 := by decide!
    show m.log (Dbl.div (Dbl.sub (.fin 1) (.fin 1)) (.fin 1)) = .ninf
    rw [harg]
    exact hlog0

theorem setupLBP_infinite_prior_witness :
    ∃ g0, setupLBP exArith (pinnedEngine (.fin 0)) [] = .ok g0 ∧
      g0.rv_initialization_ ⟨0, by decide⟩ = .ninf := by
  obtain ⟨g0, hrun, h⟩ := setupLBP_infinite_prior Libm.rational (by decide!) (by decide!)
    (pinnedEngine (.fin 0)) [] (by decide)
  exact ⟨g0, hrun, (h 0 (by decide)).2 (by decide!)⟩

/-- X4: with damping 1 each update replaces an entry whose previous value is
finite by the newly computed value alone.  On a graph that lies inside the
matrices, after `updateFactorMessages` an entry `(f, v)` with `v` a
dependency of `f`, `|prod| != 1` and finite previous value is exactly
`2 * atanh prod`; on a graph whose variable list is indexed by variable,
after `updateRandomVariableMessages` an entry `(v, f)` with `f` referencing
`v` and finite previous value is exactly `(S_v - factor_messages[f][v]) +
rv_initialization[v]`. -/
theorem damping_one_replaces (m : Libm) {cfg : Config Dbl} (g : FactorGraph Dbl cfg)
    (hd : cfg.lbp_damping = .fin 1) (f v : Nat) (hf : f < g.factors_.length) :
    (FactorsInRange cfg.num_rvs g.factors_ →
      v ∈ (g.factors_.get ⟨f, hf⟩).rv_dependencies →
      (Dbl.arith m).ne ((Dbl.arith m).abs (tanhProduct (Dbl.arith m) g.rv_messages_ f
        (g.factors_.get ⟨f, hf⟩).rv_dependencies v)) (Dbl.arith m).one = true →
      (entry (Dbl.arith m) g.factor_messages_ f v).isFin = true →
      ∃ g', updateFactorMessages (Dbl.arith m) g = .ok g' ∧
        entry (Dbl.arith m) g'.factor_messages_ f v
          = (Dbl.arith m).mul (Dbl.arith m).two ((Dbl.arith m).atanh
              (tanhProduct (Dbl.arith m) g.rv_messages_ f
                (g.factors_.get ⟨f, hf⟩).rv_dependencies v))) ∧
    (RvsInRange cfg.num_rvs g.rvs_ → VariablesByIndex g.factors_ g.rvs_ →
      (v = (g.factors_.get ⟨f, hf⟩).primary_rv ∨
        v ∈ (g.factors_.get ⟨f, hf⟩).rv_dependencies) →
      (entry (Dbl.arith m) g.rv_messages_ v f).isFin = true →
      ∃ g', updateRandomVariableMessages (Dbl.arith m) g = .ok g' ∧
        entry (Dbl.arith m) g'.rv_messages_ v f
          = (Dbl.arith m).add
              ((Dbl.arith m).sub (colTotal (Dbl.arith m) g.factor_messages_ v)
                (entry (Dbl.arith m) g.factor_messages_ f v))
              (vecEntry (Dbl.arith m) g.rv_initialization_ v)) := by
  constructor
  · intro hF hv hne hfin
    obtain ⟨g', hok, _, _, _, hcell⟩ := updateFactorMessages_entry (Dbl.arith m) g hF f v hf hv
    refine ⟨g', hok, ?_⟩
    rw [hcell, hd]
    simp only [factorCell, hne, if_true]
    exact blend_one _ _ hfin
  · intro hR hidx hv hfin
    obtain ⟨g', hok, _, _, _, hcell⟩ :=
      updateRandomVariableMessages_entry (Dbl.arith m) g hR hidx f v hf hv
    refine ⟨g', hok, ?_⟩
    rw [hcell, hd]
    exact blend_one _ _ hfin

theorem damping_one_replaces_witness :
    (∃ g, updateFactorMessages exArith (pinnedEngine (.fin 1)) = .ok g ∧
      entry exArith g.factor_messages_ 2 1 = .fin 0) ∧
    (∃ g, updateRandomVariableMessages exArith (pinnedEngine (.fin 1)) = .ok g ∧
      entry exArith g.rv_messages_ 1 2 = .fin 0) := by
  have h := damping_one_replaces Libm.rational (pinnedEngine (.fin 1)) rfl 2 1 (by decide)
  obtain ⟨g1, hg1, hc1⟩ := h.1 (by decide) (by decide) (by decide!) (by decide!)
  obtain ⟨g2, hg2, hc2⟩ := h.2 (by decide) (by decide) (by decide) (by decide!)
  exact ⟨⟨g1, hg1, hc1.trans (by decide!)⟩, ⟨g2, hg2, hc2.trans (by decide!)⟩⟩

/-- X5: a description that loads and whose referenced variable indices are
contiguous from 0 yields a variable list that names, at each position, only
factors that reference the variable of that index, and that is indexed by
variable: the two conditions on the variable list under which the statements
about `updateRandomVariableMessages` and about sparsity are proved. -/
theorem loaded_lists_are_indexed (lines : List String) (factors : List Factor)
    (rvs : List RandomVariable) (h : setupFactors lines = .ok (factors, rvs))
    (hcont : ∀ v ∈ factors.flatMap Factor.referencedRVs, ∀ u, u < v →
      u ∈ factors.flatMap Factor.referencedRVs) :
    ListedAreReferenced factors rvs ∧ VariablesByIndex factors rvs := by
  obtain ⟨hlt, hpos⟩ := loaded_positions lines factors rvs h hcont
  constructor
  · intro v hv f hf
    exact (hpos v hv f).mp hf
  · intro f hf v hv
    have href : references factors f v = true := by
      unfold references
      rw [List.getElem?_eq_getElem hf]
      simpa using hv
    have hmem : v ∈ factors.flatMap Factor.referencedRVs :=
      (mem_flatMap_referenced factors v).mpr ⟨f, href⟩
    have hvl := hlt v hmem
    unfold listedAt
    rw [List.getElem?_eq_getElem hvl]
    simpa using (hpos v hvl f).mpr href

theorem loaded_lists_are_indexed_witness :
    ListedAreReferenced andFactors andRvs ∧ VariablesByIndex andFactors andRvs :=
  loaded_lists_are_indexed ["INPUT;0", "INPUT;1", "AND;2;0;1"] andFactors andRvs
    (toOption_eq_some _ _ (by decide!)) (by decide)

end Claims

end HashReversal
